import Mathlib

/-!
# GripMetrics (`app.js`): a shallow embedding and its verified properties

The development follows the modules of `app.js`:

* `Storage`    : `load` / `save` over the browser's `localStorage`;
* `UI`         : `uid`;
* `Trainer`    : `addBlock`, the removal of a pending block, `saveWorkout`, `deleteWorkout`;
* `Evaluation` : `calcMetrics`;
* `DataTab`    : `countByCategory`, `csvEscape`, `exportCSV`.

Modelling conventions.

* A JavaScript string is a `List Char` (`Str`).  The only characters the code inspects
  (`,`, `"`, line feed) are single code units, so nothing depends on the encoding.
* The numbers of `calcMetrics` are IEEE 754 binary64 values (`Double`): a finite rational
  of the binary64 grid, an infinity or `NaN`, every operation rounding its exact result to
  nearest, ties to even.  Only the sign of zero is not modelled.
* Elsewhere (`qty`, `minutes`, the clock) a JavaScript number is an exact rational (`ℚ`):
  the code only stores, compares and prints these, and adds them in `countByCategory`;
  `NaN` occurs there only as the result `none` of `Number(text)`.
* Platform built-ins whose text is not part of the repository (`Number(text)`, the
  conversion of a number to a string) are parameters; the clock and the random draw are
  inputs of the call that reads them.  `Storage` takes `JSON.parse` and `JSON.stringify` as
  a parameter too (`Storage.JSONCodec`); where the round trip through them is itself the
  property, they are the concrete serialiser and reader of `JSON`, in which only the text
  of a finite number is left to the platform.
* An exception is an `Except JSError _` result; `try`/`catch` is an explicit `match`.
-/

namespace GripMetrics

/-- A JavaScript string, as the list of its characters. -/
abbrev Str := List Char

/-! ## Numbers of `calcMetrics`: IEEE 754 binary64 -/

/-- A JavaScript Number as `calcMetrics` sees it: a finite value, one of the two
infinities, or `NaN`.  A finite double is a rational; the operations below return only
rationals of the binary64 grid.  The sign of zero is not modelled (`-0` is `finite 0`): no
operation of `calcMetrics` tells the two zeros apart except in the sign of a zero result. -/
inductive Double
  | finite (q : ℚ)
  | posInf
  | negInf
  | nan
deriving DecidableEq

namespace Double

/-- The binary exponent of the binade of `x`: `⌊log₂ |x|⌋`, and `-1022` for the subnormal
numbers and zero. -/
def binade (x : ℚ) : ℤ := max (Int.log 2 |x|) (-1022)

/-- The distance between neighbouring doubles in the binade of `x` (53 significant bits). -/
def ulp (x : ℚ) : ℚ := (2 : ℚ) ^ (binade x - 52)

/-- The nearest integer, a tie going to the even one. -/
def roundHalfEven (y : ℚ) : ℤ :=
  if y - (Rat.floor y : ℤ) < 1 / 2 then Rat.floor y
  else if 1 / 2 < y - (Rat.floor y : ℤ) then Rat.floor y + 1
  else if Rat.floor y % 2 = 0 then Rat.floor y
  else Rat.floor y + 1

/-- The real number `x` rounded to the binary64 grid, the exponent range taken unbounded
above (roundTiesToEven). -/
def roundQ (x : ℚ) : ℚ := (roundHalfEven (x / ulp x) : ℚ) * ulp x

/-- The double that an exact result `x` is delivered as: the rounded value, or an infinity
when the rounded value reaches `2 ^ 1024`. -/
def ofRat (x : ℚ) : Double :=
  if (2 : ℚ) ^ 1024 ≤ roundQ x then posInf
  else if roundQ x ≤ -(2 : ℚ) ^ 1024 then negInf
  else finite (roundQ x)

/-- The operator `+` on Numbers. -/
def add : Double → Double → Double
  | nan, _ => nan
  | _, nan => nan
  | posInf, negInf => nan
  | negInf, posInf => nan
  | posInf, _ => posInf
  | _, posInf => posInf
  | negInf, _ => negInf
  | _, negInf => negInf
  | finite a, finite b => ofRat (a + b)

/-- The unary minus on Numbers. -/
def neg : Double → Double
  | nan => nan
  | posInf => negInf
  | negInf => posInf
  | finite a => finite (-a)

/-- The operator `-` on Numbers: `x - y` is `x + (-y)`. -/
def sub (x y : Double) : Double := add x (neg y)

/-- The operator `*` on Numbers. -/
def mul : Double → Double → Double
  | nan, _ => nan
  | _, nan => nan
  | finite a, finite b => ofRat (a * b)
  | posInf, finite b => if b = 0 then nan else if 0 < b then posInf else negInf
  | negInf, finite b => if b = 0 then nan else if 0 < b then negInf else posInf
  | finite a, posInf => if a = 0 then nan else if 0 < a then posInf else negInf
  | finite a, negInf => if a = 0 then nan else if 0 < a then negInf else posInf
  | posInf, posInf => posInf
  | negInf, negInf => posInf
  | posInf, negInf => negInf
  | negInf, posInf => negInf

/-- The operator `/` with a positive literal `c` on the right (`/ 10`, `/ 3`, `/ 2` in
`calcMetrics`). -/
def divLit (x : Double) (c : ℚ) : Double :=
  match x with
  | nan => nan
  | posInf => posInf
  | negInf => negInf
  | finite a => ofRat (a / c)

/-- The built-in `Math.min` of two Numbers: `NaN` when either is `NaN`. -/
def jsMin : Double → Double → Double
  | nan, _ => nan
  | _, nan => nan
  | negInf, _ => negInf
  | _, negInf => negInf
  | posInf, y => y
  | x, posInf => x
  | finite a, finite b => finite (min a b)

/-- The built-in `Math.max` of two Numbers: `NaN` when either is `NaN`. -/
def jsMax : Double → Double → Double
  | nan, _ => nan
  | _, nan => nan
  | posInf, _ => posInf
  | _, posInf => posInf
  | negInf, y => y
  | x, negInf => x
  | finite a, finite b => finite (max a b)

/-- The composite `parseFloat(x.toFixed(1))` of `calcMetrics`.

`Number.prototype.toFixed(1)` writes `"NaN"` for `NaN` and the text of `x` itself when
`|x| ≥ 10^21` (the infinities included), which `parseFloat` reads back as `x`.  Otherwise it
writes the integer `n` for which `n / 10 - x` is as close to zero as possible in exact
arithmetic, the larger `n` when there are two; a negative `x` is negated first and the sign
is written in front.  `parseFloat` reads the decimal text back as the nearest double. -/
def toFixed1 : Double → Double
  | nan => nan
  | posInf => posInf
  | negInf => negInf
  | finite x =>
    if (10 : ℚ) ^ 21 ≤ |x| then finite x
    else if x < 0 then ofRat (-((Rat.floor (-x * 10 + 1 / 2) : ℤ) : ℚ) / 10)
    else ofRat (((Rat.floor (x * 10 + 1 / 2) : ℤ) : ℚ) / 10)

end Double

/-! ## Evaluation: `calcMetrics` -/

namespace Evaluation
open Double

/-- The argument object of `calcMetrics`. -/
structure MetricsInput where
  rpe : Double
  duration : Double
  technique : Double
  focus : Double
  confidence : Double
  stress : Double
  motivation : Double
  attempts : Double
deriving DecidableEq

/-- The object returned by `calcMetrics`. -/
structure Metrics where
  physicalLoad : Double
  techScore : Double
  mentalScore : Double
  sessionVolume : Double
deriving DecidableEq

/-- The function `Evaluation.calcMetrics` (app.js, lines 438-445), every operator being the
operator on doubles. -/
def calcMetrics (i : MetricsInput) : Metrics :=
  let physicalLoad := toFixed1 (divLit (mul i.rpe i.duration) 10)
  let techScore := mul i.technique (finite 10)
  let mentalRaw :=
    sub (divLit (add (add i.focus i.confidence) i.motivation) 3) (divLit i.stress 2)
  let mentalScore := toFixed1 (jsMax (finite 0) (jsMin (finite 100) (mul mentalRaw (finite 10))))
  let sessionVolume := toFixed1 (divLit (mul i.duration i.attempts) 10)
  { physicalLoad := physicalLoad, techScore := techScore,
    mentalScore := mentalScore, sessionVolume := sessionVolume }

/-- The spec's `clamp(x, lo, hi)`: `x` bounded into `[lo, hi]`; an infinity is bounded to
the end it lies beyond, and `NaN` has no place in the interval and stays `NaN`. -/
def clamp (x : Double) (lo hi : ℚ) : Double :=
  match x with
  | nan => nan
  | posInf => finite hi
  | negInf => finite lo
  | finite q => finite (if q < lo then lo else if hi < q then hi else q)

/-- The spec's "`r` is `x` rounded to one decimal place", for doubles: `r` is the double
written `n / 10` for a whole number of tenths `n / 10` within half a tenth of `x` (both ways
of breaking a tie satisfy it).  A value without a decimal expansion (`NaN`, an infinity) and
a value of `10^21` or more, which has no digit after the point to drop, are their own
rounding. -/
def IsRound1 (x r : Double) : Prop :=
  match x with
  | nan => r = nan
  | posInf => r = posInf
  | negInf => r = negInf
  | finite q =>
    if (10 : ℚ) ^ 21 ≤ |q| then r = finite q
    else ∃ n : ℤ, |(n : ℚ) / 10 - q| ≤ 1 / 20 ∧ r = ofRat ((n : ℚ) / 10)

/-- A real-valued input: a finite double, which is below `2 ^ 1024` in magnitude. -/
def IsFiniteDouble (x : Double) : Prop :=
  ∃ q : ℚ, x = finite q ∧ |q| < (2 : ℚ) ^ 1024

/-- The input of the spec's scenario. -/
def scenarioInput : MetricsInput :=
  { rpe := finite 7, duration := finite 60, technique := finite 8, focus := finite 9,
    confidence := finite 8, stress := finite 3, motivation := finite 9,
    attempts := finite 12 }

/-- An input at the edge of the range: `focus`, `confidence` and `motivation` are `2^1023`,
`stress` is `-2^1023`, and the other inputs are not even real numbers. -/
def extremeInput : MetricsInput :=
  { rpe := nan, duration := posInf, technique := negInf, focus := finite (2 ^ 1023),
    confidence := finite (2 ^ 1023), stress := finite (-(2 ^ 1023)),
    motivation := finite (2 ^ 1023), attempts := nan }

/-- An input on which the product `rpe * duration` is not exact: `duration` is the double
written `0.8333333333333333`. -/
def roundingInput : MetricsInput :=
  { rpe := finite 3, duration := finite (3752999689475413 / 4503599627370496),
    technique := finite 0, focus := finite 0, confidence := finite 0, stress := finite 0,
    motivation := finite 0, attempts := finite 0 }

end Evaluation

/-! ## The data model (objects built at app.js lines 182 and 253-260) -/

/-- A block of a workout: the object literal of `Trainer.addBlock`. -/
structure Block where
  id : Str
  category : Str
  qty : ℚ
  intensityType : Str
  intensityValue : Str
  minutes : ℚ
  notes : Str
deriving DecidableEq

/-- A workout: the object literal of `Trainer.saveWorkout`. -/
structure Workout where
  id : Str
  createdAt : Str
  date : Str
  athlete : Str
  goal : Str
  blocks : List Block
deriving DecidableEq

/-- The second argument of `UI.toast`. -/
inductive ToastKind
  | success
  | error
  | info
deriving DecidableEq

/-- What a handler does to the outside world, in order: a notification (`UI.toast`) or a
file handed to the browser (`DataTab.downloadFile`). -/
inductive Effect
  | toast (message : Str) (type : ToastKind)
  | download (filename mimeType content : Str)
deriving DecidableEq

/-- An exception thrown by the platform. -/
inductive JSError
  | syntaxError
  | typeError
deriving DecidableEq

/-! ## Storage (app.js lines 25-61) -/

namespace Storage

/-- The state of `localStorage`: the string stored under each key, if any. -/
abbrev LocalStorage := Str → Option Str

/-- The call `localStorage.getItem(key)`; `none` is `null`. -/
def getItem (ls : LocalStorage) (key : Str) : Option Str := ls key

/-- The call `localStorage.setItem(key, value)`. -/
def setItem (ls : LocalStorage) (key value : Str) : LocalStorage :=
  fun k => if k = key then some value else ls k

/-- The call `localStorage.removeItem(key)`. -/
def removeItem (ls : LocalStorage) (key : Str) : LocalStorage :=
  fun k => if k = key then none else ls k

/-- The platform's JSON support for collections of records of type `R`.
`parse` is `JSON.parse` on the text of a collection, an error standing for the exception it
throws; `stringifyRecord` is the text `JSON.stringify` writes for one record.  `load` is
declared to return an array (`any[]`): a text that is valid JSON without being an array of
records has no counterpart here. -/
structure JSONCodec (R : Type) where
  parse : Str → Except JSError (List R)
  stringifyRecord : R → Str

/-- The call `JSON.stringify(data)` on an array of records: the texts of the elements,
separated by commas, between square brackets. -/
def stringify {R : Type} (c : JSONCodec R) (data : List R) : Str :=
  '[' :: (([','] : Str).intercalate (data.map c.stringifyRecord) ++ [']'])

/-- The constant `KEYS`. -/
structure Keys where
  workouts : Str
  feedbacks : Str
  evaluations : Str

/-- The value of `KEYS`. -/
def KEYS : Keys :=
  { workouts := "gm_workouts".toList
    feedbacks := "gm_feedbacks".toList
    evaluations := "gm_evaluations".toList }

/-- The expression `localStorage.getItem(key) || '[]'`: `null` and the empty string are
falsy. -/
def getItemOrEmptyArray (ls : LocalStorage) (key : Str) : Str :=
  match getItem ls key with
  | none => "[]".toList
  | some s => if s = [] then "[]".toList else s

/-- The function `Storage.load` (lines 33-39): the `try` block returns what `JSON.parse` returns, the
`catch` block returns the empty array. -/
def load {R : Type} (c : JSONCodec R) (ls : LocalStorage) (key : Str) :
    Except JSError (List R) :=
  match c.parse (getItemOrEmptyArray ls key) with
  | .ok v => .ok v
  | .error _ => .ok []

/-- The function `Storage.save` (lines 42-44). -/
def save {R : Type} (c : JSONCodec R) (ls : LocalStorage) (key : Str) (data : List R) :
    LocalStorage :=
  setItem ls key (stringify c data)

/-- The accessor `Storage.getWorkouts`. -/
def getWorkouts {R : Type} (c : JSONCodec R) (ls : LocalStorage) : Except JSError (List R) :=
  load c ls KEYS.workouts

/-- The accessor `Storage.saveWorkouts`. -/
def saveWorkouts {R : Type} (c : JSONCodec R) (ls : LocalStorage) (d : List R) :
    LocalStorage :=
  save c ls KEYS.workouts d

/-- The accessor `Storage.getFeedbacks`. -/
def getFeedbacks {R : Type} (c : JSONCodec R) (ls : LocalStorage) : Except JSError (List R) :=
  load c ls KEYS.feedbacks

/-- The accessor `Storage.saveFeedbacks`. -/
def saveFeedbacks {R : Type} (c : JSONCodec R) (ls : LocalStorage) (d : List R) :
    LocalStorage :=
  save c ls KEYS.feedbacks d

/-- The accessor `Storage.getEvaluations`. -/
def getEvaluations {R : Type} (c : JSONCodec R) (ls : LocalStorage) :
    Except JSError (List R) :=
  load c ls KEYS.evaluations

/-- The accessor `Storage.saveEvaluations`. -/
def saveEvaluations {R : Type} (c : JSONCodec R) (ls : LocalStorage) (d : List R) :
    LocalStorage :=
  save c ls KEYS.evaluations d

/-- The function `Storage.clearAll` (lines 57-59). -/
def clearAll (ls : LocalStorage) : LocalStorage :=
  [KEYS.workouts, KEYS.feedbacks, KEYS.evaluations].foldl removeItem ls

/-- A codec that knows the collections of a finite table and rejects every other text:
`parse` returns the first collection of the table whose JSON text is the input. -/
def tableCodec {R : Type} (enc : R → Str) (table : List (List R)) : JSONCodec R :=
  { parse := fun s =>
      match table.find? (fun data =>
        decide ('[' :: (([','] : Str).intercalate (data.map enc) ++ [']']) = s)) with
      | some data => .ok data
      | none => .error .syntaxError
    stringifyRecord := enc }

/-- The store in which nothing was ever saved. -/
def emptyStorage : LocalStorage := fun _ => none

end Storage

/-! ## The platform's `JSON.stringify` and `JSON.parse`, on the values the app stores -/

namespace JSON
open Double

mutual
/-- A value that `JSON.stringify` is given by `save`: a record is an object whose properties
hold strings, numbers and arrays of further records.  The properties of an object are
listed in the object's own property order. -/
inductive Value
  | null
  | bool (b : Bool)
  | num (d : Double)
  | str (s : Str)
  | arr (items : Values)
  | obj (props : Props)
/-- The elements of an array, in order. -/
inductive Values
  | nil
  | cons (head : Value) (tail : Values)
/-- The properties of an object, in order: key, value, and the properties after it. -/
inductive Props
  | nil
  | cons (key : Str) (value : Value) (tail : Props)
end

/-- The elements of an array as a list. -/
def Values.toList : Values → List Value
  | Values.nil => []
  | Values.cons x xs => x :: xs.toList

/-- The array elements listed by a list. -/
def Values.ofList : List Value → Values
  | [] => Values.nil
  | x :: xs => Values.cons x (Values.ofList xs)

/-- The properties of an object as a list of keys and values. -/
def Props.toList : Props → List (Str × Value)
  | Props.nil => []
  | Props.cons k v ps => (k, v) :: ps.toList

/-- The properties listed by a list of keys and values. -/
def Props.ofList : List (Str × Value) → Props
  | [] => Props.nil
  | p :: ps => Props.cons p.1 p.2 (Props.ofList ps)

/-- The keys of the properties, in order. -/
def Props.keys (ps : Props) : List Str := ps.toList.map (fun p => p.1)

/-- The double quote. -/
def dquote : Char := Char.ofNat 34

/-- The backslash. -/
def backslash : Char := Char.ofNat 92

/-- The opening brace. -/
def lbrace : Char := Char.ofNat 123

/-- The closing brace. -/
def rbrace : Char := Char.ofNat 125

/-- A lower-case hexadecimal digit. -/
def hexDigit (n : ℕ) : Char :=
  if n < 10 then Char.ofNat (48 + n) else Char.ofNat (87 + n)

/-- The text `QuoteJSONString` writes for one character: the double quote, the backslash
and the control characters are escaped, every other character is itself. -/
def escapeChar (c : Char) : Str :=
  if c = dquote then [backslash, dquote]
  else if c = backslash then [backslash, backslash]
  else if c.toNat = 8 then [backslash, 'b']
  else if c.toNat = 9 then [backslash, 't']
  else if c.toNat = 10 then [backslash, 'n']
  else if c.toNat = 12 then [backslash, 'f']
  else if c.toNat = 13 then [backslash, 'r']
  else if c.toNat < 32 then
    [backslash, 'u', '0', '0', hexDigit (c.toNat / 16), hexDigit (c.toNat % 16)]
  else [c]

/-- The text `JSON.stringify` writes for a string (`QuoteJSONString`). -/
def quote (s : Str) : Str :=
  dquote :: (s.flatMap escapeChar ++ [dquote])

mutual
/-- The text `JSON.stringify` writes for a value, without indentation.  A number that is
`NaN` or an infinity is written `null`; the text of a finite number is the platform's
(`numText`). -/
def stringifyValue (numText : ℚ → Str) : Value → Str
  | Value.null => "null".toList
  | Value.bool b => if b then "true".toList else "false".toList
  | Value.num (Double.finite q) => numText q
  | Value.num _ => "null".toList
  | Value.str s => quote s
  | Value.arr items => '[' :: (stringifyElements numText items ++ [']'])
  | Value.obj props => lbrace :: (stringifyMembers numText props ++ [rbrace])
/-- The texts of the elements of an array, separated by commas. -/
def stringifyElements (numText : ℚ → Str) : Values → Str
  | Values.nil => []
  | Values.cons x Values.nil => stringifyValue numText x
  | Values.cons x (Values.cons y ys) =>
    stringifyValue numText x ++ ',' :: stringifyElements numText (Values.cons y ys)
/-- The texts of the properties of an object, each a quoted key, a colon and the text of
the value, separated by commas. -/
def stringifyMembers (numText : ℚ → Str) : Props → Str
  | Props.nil => []
  | Props.cons k v Props.nil => quote k ++ ':' :: stringifyValue numText v
  | Props.cons k v (Props.cons k2 v2 ps) =>
    quote k ++ ':' :: (stringifyValue numText v ++
      ',' :: stringifyMembers numText (Props.cons k2 v2 ps))
end

/-- The white space of the JSON grammar: space, tab, line feed, carriage return. -/
def isWhitespace (c : Char) : Bool :=
  c.toNat = 32 || c.toNat = 9 || c.toNat = 10 || c.toNat = 13

/-- The text after its leading white space. -/
def skipWs : Str → Str
  | [] => []
  | c :: cs => if isWhitespace c then skipWs cs else c :: cs

/-- The text after a word, when it begins with the word. -/
def expect : Str → Str → Option Str
  | [], s => some s
  | _ :: _, [] => none
  | w :: ws, c :: cs => if w = c then expect ws cs else none

/-- A decimal digit. -/
def isDigit (c : Char) : Bool := decide (48 ≤ c.toNat) && decide (c.toNat ≤ 57)

/-- The leading decimal digits of a text, and the text after them. -/
def takeDigits : Str → Str × Str
  | [] => ([], [])
  | c :: cs =>
    if isDigit c then ((c :: (takeDigits cs).1), (takeDigits cs).2) else ([], c :: cs)

/-- The whole number written by decimal digits. -/
def digitsValue (ds : Str) : ℕ :=
  ds.foldl (fun acc c => 10 * acc + (c.toNat - 48)) 0

/-- The integer part of a JSON number: a single `0`, or digits that do not start with
`0`. -/
def readInt : Str → Option (ℕ × Str)
  | [] => none
  | c :: cs =>
    if c = '0' then some (0, cs)
    else if isDigit c then some (digitsValue (takeDigits (c :: cs)).1, (takeDigits (c :: cs)).2)
    else none

/-- The optional fraction of a JSON number: a point and at least one digit.  The result is
the digits' value, their count and the text after them. -/
def readFrac : Str → Option (ℕ × ℕ × Str)
  | '.' :: cs =>
    if (takeDigits cs).1 = [] then none
    else some (digitsValue (takeDigits cs).1, (takeDigits cs).1.length, (takeDigits cs).2)
  | s => some (0, 0, s)

/-- The digits of an exponent, at least one. -/
def readExpDigits (negative : Bool) (s : Str) : Option (ℤ × Str) :=
  if (takeDigits s).1 = [] then none
  else some ((if negative then -(digitsValue (takeDigits s).1 : ℤ)
    else (digitsValue (takeDigits s).1 : ℤ)), (takeDigits s).2)

/-- The optional exponent of a JSON number: `e` or `E`, an optional sign, digits. -/
def readExp : Str → Option (ℤ × Str)
  | [] => some (0, [])
  | c :: cs =>
    if c = 'e' ∨ c = 'E' then
      match cs with
      | [] => none
      | d :: ds =>
        if d = '-' then readExpDigits true ds
        else if d = '+' then readExpDigits false ds
        else readExpDigits false (d :: ds)
    else some (0, c :: cs)

/-- A JSON number without its sign, as the exact decimal it writes. -/
def readUnsignedNumber (s : Str) : Option (ℚ × Str) :=
  match readInt s with
  | none => none
  | some (whole, s1) =>
    match readFrac s1 with
    | none => none
    | some (frac, count, s2) =>
      match readExp s2 with
      | none => none
      | some (e, s3) => some (((whole : ℚ) + (frac : ℚ) / (10 : ℚ) ^ count) * (10 : ℚ) ^ e, s3)

/-- A JSON number at the front of a text: the double nearest to the decimal written, and
the text after it. -/
def readNumber : Str → Option (Double × Str)
  | [] => none
  | c :: cs =>
    if c = '-' then
      (readUnsignedNumber cs).map (fun p => (Double.ofRat (-p.1), p.2))
    else (readUnsignedNumber (c :: cs)).map (fun p => (Double.ofRat p.1, p.2))

/-- The value of a hexadecimal digit. -/
def hexValue (c : Char) : Option ℕ :=
  if 48 ≤ c.toNat ∧ c.toNat ≤ 57 then some (c.toNat - 48)
  else if 97 ≤ c.toNat ∧ c.toNat ≤ 102 then some (c.toNat - 87)
  else if 65 ≤ c.toNat ∧ c.toNat ≤ 70 then some (c.toNat - 55)
  else none

/-- The code unit written by four hexadecimal digits. -/
def hexValue4 (h1 h2 h3 h4 : Char) : Option ℕ :=
  match hexValue h1, hexValue h2, hexValue h3, hexValue h4 with
  | some a, some b, some c, some d => some (((a * 16 + b) * 16 + c) * 16 + d)
  | _, _, _, _ => none

/-- The character a one-letter escape stands for. -/
def unescape (e : Char) : Option Char :=
  if e = dquote then some dquote
  else if e = backslash then some backslash
  else if e = '/' then some '/'
  else if e = 'b' then some (Char.ofNat 8)
  else if e = 't' then some (Char.ofNat 9)
  else if e = 'n' then some (Char.ofNat 10)
  else if e = 'f' then some (Char.ofNat 12)
  else if e = 'r' then some (Char.ofNat 13)
  else none

/-- The rest of a JSON string, read after its opening quote: the string and the text after
the closing quote.  A control character must be escaped.  An escape `\u` of a surrogate
code unit has no character here and is rejected; `JSON.stringify` writes none for a
string of characters. -/
def readString : Str → Option (Str × Str)
  | [] => none
  | c :: cs =>
    if c = dquote then some ([], cs)
    else if c = backslash then
      match cs with
      | [] => none
      | e :: es =>
        if e = 'u' then
          match es with
          | h1 :: h2 :: h3 :: h4 :: rest =>
            match hexValue4 h1 h2 h3 h4 with
            | some n =>
              if n < 55296 ∨ 57343 < n then
                (readString rest).map (fun p => (Char.ofNat n :: p.1, p.2))
              else none
            | none => none
          | _ => none
        else
          match unescape e with
          | some ch => (readString es).map (fun p => (ch :: p.1, p.2))
          | none => none
    else if c.toNat < 32 then none
    else (readString cs).map (fun p => (c :: p.1, p.2))

/-- A key that is an array index: the canonical decimal text of a whole number below
`2^32 - 1`. -/
def isArrayIndex (k : Str) : Bool :=
  match k with
  | [] => false
  | c :: cs =>
    (k.all isDigit) && (c ≠ '0' || cs = []) && decide (digitsValue k < 4294967295)

/-- An array index placed among the properties: after the smaller indices, in front of
every other key. -/
def insertIndex (k : Str) (v : Value) : List (Str × Value) → List (Str × Value)
  | [] => [(k, v)]
  | p :: ps =>
    if isArrayIndex p.1 && decide (digitsValue p.1 < digitsValue k) then
      p :: insertIndex k v ps
    else (k, v) :: p :: ps

/-- The step `CreateDataProperty` of `JSON.parse`: a key already present keeps its place and
takes the new value; a new key goes to its place in the property order, an array index
among the indices and any other key at the end. -/
def setProp (ps : List (Str × Value)) (k : Str) (v : Value) : List (Str × Value) :=
  if ps.any (fun p => p.1 = k) then ps.map (fun p => if p.1 = k then (k, v) else p)
  else if isArrayIndex k then insertIndex k v ps
  else ps ++ [(k, v)]

/-- The object built from the properties of a JSON text, taken in the order of the text. -/
def buildObject (ps : Props) : Props :=
  Props.ofList (ps.toList.foldl (fun acc p => setProp acc p.1 p.2) [])

mutual
/-- A JSON value at the front of a text, after white space: the value and the text after
it.  The first argument bounds the number of nested calls. -/
def parseValue : ℕ → Str → Option (Value × Str)
  | 0, _ => none
  | fuel + 1, s =>
    match skipWs s with
    | [] => none
    | c :: cs =>
      if c = 'n' then (expect "ull".toList cs).map (fun r => (Value.null, r))
      else if c = 't' then (expect "rue".toList cs).map (fun r => (Value.bool true, r))
      else if c = 'f' then (expect "alse".toList cs).map (fun r => (Value.bool false, r))
      else if c = dquote then (readString cs).map (fun p => (Value.str p.1, p.2))
      else if c = '[' then
        match skipWs cs with
        | [] => none
        | d :: ds =>
          if d = ']' then some (Value.arr Values.nil, ds)
          else (parseElements fuel (d :: ds)).map (fun p => (Value.arr p.1, p.2))
      else if c = lbrace then
        match skipWs cs with
        | [] => none
        | d :: ds =>
          if d = rbrace then some (Value.obj Props.nil, ds)
          else (parseMembers fuel (d :: ds)).map (fun p => (Value.obj (buildObject p.1), p.2))
      else (readNumber (c :: cs)).map (fun p => (Value.num p.1, p.2))
/-- The elements of an array, read after the opening bracket up to the closing one. -/
def parseElements : ℕ → Str → Option (Values × Str)
  | 0, _ => none
  | fuel + 1, s =>
    match parseValue fuel s with
    | none => none
    | some (v, r) =>
      match skipWs r with
      | [] => none
      | d :: ds =>
        if d = ',' then (parseElements fuel ds).map (fun p => (Values.cons v p.1, p.2))
        else if d = ']' then some (Values.cons v Values.nil, ds)
        else none
/-- The properties of an object, read after the opening brace up to the closing one. -/
def parseMembers : ℕ → Str → Option (Props × Str)
  | 0, _ => none
  | fuel + 1, s =>
    match skipWs s with
    | [] => none
    | q :: r =>
      if q = dquote then
        match readString r with
        | none => none
        | some (k, r1) =>
          match skipWs r1 with
          | [] => none
          | colon :: r2 =>
            if colon = ':' then
              match parseValue fuel r2 with
              | none => none
              | some (v, r3) =>
                match skipWs r3 with
                | [] => none
                | d :: ds =>
                  if d = ',' then
                    (parseMembers fuel ds).map (fun p => (Props.cons k v p.1, p.2))
                  else if d = rbrace then some (Props.cons k v Props.nil, ds)
                  else none
            else none
      else none
end

/-- The call `JSON.parse(text)`: the value the whole text writes, white space around it
allowed; `none` is the `SyntaxError`.  Every nested call consumes a character, so the
length of the text bounds their number. -/
def parse (s : Str) : Option Value :=
  match parseValue (s.length + 1) s with
  | none => none
  | some (v, rest) => if skipWs rest = [] then some v else none

/-- A character that follows a value inside an array or an object: the comma, the closing
bracket or the closing brace. -/
def IsDelimiter (d : Char) : Prop :=
  d = ',' ∨ d = ']' ∨ d = rbrace

/-- The platform's contract for the text of the finite number `q` (`Number::toString`): it
is a JSON number, and the double nearest to it is `q`.  It is stated where `JSON.stringify`
puts the text: in front of a delimiter. -/
def NumberContract (numText : ℚ → Str) (q : ℚ) : Prop :=
  ∀ (d : Char) (rest : Str), IsDelimiter d →
    readNumber (numText q ++ d :: rest) = some (Double.finite q, d :: rest)

/-- The decimal digits of a whole number, the way JavaScript writes a whole number below
`10 ^ 21`. -/
def naturalText (n : ℕ) : Str :=
  if n = 0 then ['0'] else (Nat.digits 10 n).reverse.map (fun d => Char.ofNat (48 + d))

/-- The text JavaScript writes for an integer below `10 ^ 21` in magnitude: a minus sign
when it is negative, and its decimal digits. -/
def wholeText (z : ℤ) : Str :=
  if z < 0 then '-' :: naturalText z.natAbs else naturalText z.natAbs

/-- The platform writes the integers up to `2 ^ 53` in magnitude, all of them doubles, by
their decimal digits. -/
def WritesWholeNumbers (numText : ℚ → Str) : Prop :=
  ∀ z : ℤ, |z| ≤ 2 ^ 53 → numText z = wholeText z

/-- A number that is an integer of at most `2 ^ 53` in magnitude. -/
def IsWholeDouble (q : ℚ) : Prop := ∃ z : ℤ, q = z ∧ |z| ≤ 2 ^ 53

/-- The order of two keys of one object: they differ, and an array index comes after
smaller array indices only. -/
def KeyBefore (a b : Str) : Prop :=
  a ≠ b ∧ (isArrayIndex b = true → isArrayIndex a = true ∧ digitsValue a < digitsValue b)

instance (a b : Str) : Decidable (KeyBefore a b) := by
  unfold KeyBefore; infer_instance

mutual
/-- A value that the store keeps as it is: every number in it is finite, and the platform
writes it as a text that reads back as the number; the properties of every object are
listed in the object's own property order (no key twice, the array indices first and
ascending), as they are for every object. -/
def Value.Storable (numText : ℚ → Str) : Value → Prop
  | Value.null => True
  | Value.bool _ => True
  | Value.num (Double.finite q) => NumberContract numText q
  | Value.num _ => False
  | Value.str _ => True
  | Value.arr items => Values.Storable numText items
  | Value.obj props => Props.Storable numText props ∧ props.keys.Pairwise KeyBefore
/-- Every element is storable. -/
def Values.Storable (numText : ℚ → Str) : Values → Prop
  | Values.nil => True
  | Values.cons x xs => Value.Storable numText x ∧ Values.Storable numText xs
/-- Every property value is storable. -/
def Props.Storable (numText : ℚ → Str) : Props → Prop
  | Props.nil => True
  | Props.cons _ v ps => Value.Storable numText v ∧ Props.Storable numText ps
end

/-- The object literal of `Trainer.addBlock` (line 182) as a value. -/
def ofBlock (b : Block) : Value :=
  Value.obj (Props.ofList
    [("id".toList, Value.str b.id), ("category".toList, Value.str b.category),
     ("qty".toList, Value.num (Double.finite b.qty)),
     ("intensityType".toList, Value.str b.intensityType),
     ("intensityValue".toList, Value.str b.intensityValue),
     ("minutes".toList, Value.num (Double.finite b.minutes)),
     ("notes".toList, Value.str b.notes)])

/-- The object literal of `Trainer.saveWorkout` (lines 253-260) as a value. -/
def ofWorkout (w : Workout) : Value :=
  Value.obj (Props.ofList
    [("id".toList, Value.str w.id), ("createdAt".toList, Value.str w.createdAt),
     ("date".toList, Value.str w.date), ("athlete".toList, Value.str w.athlete),
     ("goal".toList, Value.str w.goal),
     ("blocks".toList, Value.arr (Values.ofList (w.blocks.map ofBlock)))])

/-- The object literal of `Evaluation.saveEvaluation` (lines 467-477): the fields read from
the form, then the metrics spread into the object. -/
def evaluationRecord (id createdAt date athlete conclusions : Str)
    (i : Evaluation.MetricsInput) (metrics : Evaluation.Metrics) : Value :=
  Value.obj (Props.ofList
    [("id".toList, Value.str id), ("createdAt".toList, Value.str createdAt),
     ("date".toList, Value.str date), ("athlete".toList, Value.str athlete),
     ("duration".toList, Value.num i.duration), ("attempts".toList, Value.num i.attempts),
     ("conclusions".toList, Value.str conclusions),
     ("rpe".toList, Value.num i.rpe), ("technique".toList, Value.num i.technique),
     ("focus".toList, Value.num i.focus), ("confidence".toList, Value.num i.confidence),
     ("stress".toList, Value.num i.stress), ("motivation".toList, Value.num i.motivation),
     ("physicalLoad".toList, Value.num metrics.physicalLoad),
     ("techScore".toList, Value.num metrics.techScore),
     ("mentalScore".toList, Value.num metrics.mentalScore),
     ("sessionVolume".toList, Value.num metrics.sessionVolume)])

/-- The platform's JSON support as `Storage` uses it, the text of a finite number being
`numText`.  `Storage.JSONCodec` reads sequences of records: a text that writes a value other
than an array is given as an error. -/
def codec (numText : ℚ → Str) : Storage.JSONCodec Value :=
  { parse := fun s =>
      match parse s with
      | some (Value.arr items) => .ok items.toList
      | some _ => .error JSError.typeError
      | none => .error JSError.syntaxError
    stringifyRecord := stringifyValue numText }

end JSON

/-! ## Trainer: `deleteWorkout` (app.js lines 310-316) -/

namespace Trainer

/-- The handler `Trainer.deleteWorkout`.  `confirmed` is the answer of the `confirm` dialog.  The
result is the new state of `localStorage` and the notifications shown.
`renderSavedWorkouts` only reads the store to redraw the list and is left out. -/
def deleteWorkout (c : Storage.JSONCodec Workout) (confirmed : Bool) (id : Str)
    (ls : Storage.LocalStorage) : Except JSError (Storage.LocalStorage × List Effect) :=
  if !confirmed then pure (ls, [])
  else do
    let loaded ← Storage.getWorkouts c ls
    let workouts := loaded.filter (fun w => w.id ≠ id)
    let ls := Storage.saveWorkouts c ls workouts
    pure (ls, [Effect.toast "Treino removido.".toList ToastKind.info])

end Trainer

/-! ## DataTab: `countByCategory` (app.js lines 566-574) -/

namespace DataTab

/-- The values that can be read from, or written to, the object `map` of
`countByCategory`: a number, a string, one of the built-in functions found on
`Object.prototype` (by its name), the object `Object.prototype` itself, or `undefined`. -/
inductive JSVal
  | num (q : ℚ)
  | str (s : Str)
  | fn (name : Str)
  | objectPrototype
  | undefined
deriving DecidableEq

/-- The own properties of the object `map`, in the order of their creation.  (An engine
lists integer-like names first; the sum of the values does not depend on the order.) -/
abbrev JSObject := List (Str × JSVal)

/-- The names of the function-valued properties of `Object.prototype` other than
`constructor`. -/
def objectPrototypeMethods : List Str :=
  ["__defineGetter__", "__defineSetter__", "hasOwnProperty", "__lookupGetter__",
   "__lookupSetter__", "isPrototypeOf", "propertyIsEnumerable", "toString", "valueOf",
   "toLocaleString"].map String.toList

/-- What `map[k]` reads when `map` has no own property `k`: the property is looked up on
`Object.prototype`, the prototype of an object written `{}`. -/
def inheritedGet (k : Str) : JSVal :=
  if k = "constructor".toList then JSVal.fn "Object".toList
  else if k ∈ objectPrototypeMethods then JSVal.fn k
  else if k = "__proto__".toList then JSVal.objectPrototype
  else JSVal.undefined

/-- The own property `k` of `map`, if there is one. -/
def ownGet : JSObject → Str → Option JSVal
  | [], _ => none
  | (k', v) :: rest, k => if k' = k then some v else ownGet rest k

/-- The read `map[k]`. -/
def objGet (map : JSObject) (k : Str) : JSVal :=
  match ownGet map k with
  | some v => v
  | none => inheritedGet k

/-- The own property `k` of `map` set to `v`: overwritten in place, or added at the end. -/
def ownSet : JSObject → Str → JSVal → JSObject
  | [], k, v => [(k, v)]
  | (k', v') :: rest, k, v =>
    if k' = k then (k', v) :: rest else (k', v') :: ownSet rest k v

/-- The write `map[k] = v` of a number or a string.  Under the name `__proto__` it runs the
setter inherited from `Object.prototype`, which ignores a value that is neither an object
nor `null`; under every other name it sets an own property. -/
def objSet (map : JSObject) (k : Str) (v : JSVal) : JSObject :=
  if k = "__proto__".toList then map else ownSet map k v

/-- The expression `(x || 0) + d` for a number `d`.  `undefined`, `0` and the empty string
are falsy and give `0 + d`; a string, a function and an object are converted to text and
`d` is appended to it.  `fnToString` is the source text the engine gives a built-in
function. -/
def orZeroPlus (numToString : ℚ → Str) (fnToString : Str → Str) (x : JSVal) (d : ℚ) :
    JSVal :=
  match x with
  | JSVal.undefined => JSVal.num (0 + d)
  | JSVal.num q => if q = 0 then JSVal.num (0 + d) else JSVal.num (q + d)
  | JSVal.str s => if s = [] then JSVal.num (0 + d) else JSVal.str (s ++ numToString d)
  | JSVal.fn name => JSVal.str (fnToString name ++ numToString d)
  | JSVal.objectPrototype => JSVal.str ("[object Object]".toList ++ numToString d)

/-- The function `DataTab.countByCategory`.  `field` is the string passed by the caller. -/
def countByCategory (numToString : ℚ → Str) (fnToString : Str → Str)
    (workouts : List Workout) (field : Str) : JSObject :=
  workouts.foldl (fun map w =>
    w.blocks.foldl (fun map b =>
      objSet map b.category
        (orZeroPlus numToString fnToString (objGet map b.category)
          (if field = "minutes".toList then b.minutes else 1))) map) []

/-- The sum of the values of a mapping, when all of them are numbers. -/
def sumValues : JSObject → Option ℚ
  | [] => some 0
  | (_, JSVal.num q) :: rest => (sumValues rest).map (fun t => q + t)
  | _ :: _ => none

/-- The number of blocks of all the workouts. -/
def totalBlocks (workouts : List Workout) : ℚ :=
  ((workouts.map (fun w => w.blocks.length)).sum : ℕ)

/-- The minutes of all the blocks of all the workouts. -/
def totalMinutes (workouts : List Workout) : ℚ :=
  (workouts.map (fun w => (w.blocks.map (fun b => b.minutes)).sum)).sum

/-- A category is plain when `Object.prototype` has no property of that name. -/
def PlainCategory (k : Str) : Prop :=
  k ≠ "constructor".toList ∧ k ∉ objectPrototypeMethods ∧ k ≠ "__proto__".toList

instance (k : Str) : Decidable (PlainCategory k) := by
  unfold PlainCategory; infer_instance

/-- A block whose category is the string `constructor`. -/
def constructorBlock : Block :=
  { id := "b1".toList, category := "constructor".toList, qty := 1,
    intensityType := "kg".toList, intensityValue := "20".toList, minutes := 10, notes := [] }

/-- A workout whose only block has the category `constructor`. -/
def constructorWorkout : Workout :=
  { id := "w1".toList, createdAt := "2024-01-01T10:00:00.000Z".toList,
    date := "2024-01-01".toList, athlete := "Ana".toList, goal := "Grip".toList,
    blocks := [constructorBlock] }

/-- A workout whose only block has the category `__proto__`. -/
def protoWorkout : Workout :=
  { constructorWorkout with
    blocks := [{ constructorBlock with category := "__proto__".toList }] }

end DataTab

/-! ## DataTab: `csvEscape` and `exportCSV` (app.js lines 620-652) -/

namespace DataTab

/-- A value placed in a cell of the row table: a string, a number, `null` or `undefined`. -/
inductive FieldVal
  | str (s : Str)
  | num (q : ℚ)
  | null
  | undefined
deriving DecidableEq

/-- The comma. -/
def comma : Char := ','

/-- The double quote. -/
def dquote : Char := Char.ofNat 34

/-- The line feed, written `\n` in the source. -/
def newline : Char := Char.ofNat 10

/-- The expression `String(val ?? '')`: `null` and `undefined` become the empty string, a
string is itself, a number is written by the platform (`numToString`). -/
def jsString (numToString : ℚ → Str) : FieldVal → Str
  | FieldVal.str s => s
  | FieldVal.num q => numToString q
  | FieldVal.null => []
  | FieldVal.undefined => []

/-- The call `str.replace(/"/g, '""')`: every double quote is replaced by two. -/
def replaceQuotes : Str → Str
  | [] => []
  | c :: cs => if c = dquote then dquote :: dquote :: replaceQuotes cs else c :: replaceQuotes cs

/-- The function `DataTab.csvEscape` (lines 648-652).  `str.includes(x)` for a one-character `x` is
`str.contains x`. -/
def csvEscape (numToString : ℚ → Str) (val : FieldVal) : Str :=
  let str := jsString numToString val
  if str.contains comma || str.contains dquote || str.contains newline
  then dquote :: (replaceQuotes str ++ [dquote])
  else str

/-- The first row of the table (lines 625-626). -/
def headerRow : List FieldVal :=
  ["workout_id", "date", "athlete", "goal", "block_id", "category", "qty",
   "intensity_type", "intensity_value", "minutes", "notes"].map
    (fun name => FieldVal.str name.toList)

/-- The row pushed for a workout without blocks (line 631). -/
def emptyBlockRow (w : Workout) : List FieldVal :=
  [FieldVal.str w.id, FieldVal.str w.date, FieldVal.str w.athlete, FieldVal.str w.goal,
   FieldVal.str [], FieldVal.str [], FieldVal.str [], FieldVal.str [], FieldVal.str [],
   FieldVal.str [], FieldVal.str []]

/-- The row pushed for a block (lines 634-637). -/
def blockRow (w : Workout) (b : Block) : List FieldVal :=
  [FieldVal.str w.id, FieldVal.str w.date, FieldVal.str w.athlete, FieldVal.str w.goal,
   FieldVal.str b.id, FieldVal.str b.category, FieldVal.num b.qty,
   FieldVal.str b.intensityType, FieldVal.str b.intensityValue, FieldVal.num b.minutes,
   FieldVal.str b.notes]

/-- The array `rows` at the end of the loop of lines 624-640: it starts as the header row,
and each `rows.push(r)` appends `r`. -/
def buildRows (workouts : List Workout) : List (List FieldVal) :=
  workouts.foldl (fun rows w =>
    if w.blocks.length = 0 then rows ++ [emptyBlockRow w]
    else w.blocks.foldl (fun rows b => rows ++ [blockRow w b]) rows) [headerRow]

/-- The text of line 642: the escaped fields of a row joined by commas, the rows joined by
line feeds. -/
def csvText (numToString : ℚ → Str) (rows : List (List FieldVal)) : Str :=
  ([newline] : Str).intercalate
    (rows.map (fun r => ([comma] : Str).intercalate (r.map (csvEscape numToString))))

/-- The handler `DataTab.exportCSV` (lines 620-645). -/
def exportCSV (c : Storage.JSONCodec Workout) (numToString : ℚ → Str)
    (ls : Storage.LocalStorage) : Except JSError (List Effect) := do
  let workouts ← Storage.getWorkouts c ls
  if workouts.length = 0 then
    pure [Effect.toast "Sem treinos para exportar.".toList ToastKind.error]
  else
    let rows := buildRows workouts
    let csv := csvText numToString rows
    pure [Effect.download "gripmetrics-workouts.csv".toList "text/csv".toList csv,
          Effect.toast "CSV exportado!".toList ToastKind.success]

/-! ### The words of the specification, for comparison -/

/-- A field needs quoting when its string form contains a comma, a double quote or a
newline. -/
def NeedsQuoting (s : Str) : Prop :=
  comma ∈ s ∨ dquote ∈ s ∨ newline ∈ s

instance (s : Str) : Decidable (NeedsQuoting s) := by
  unfold NeedsQuoting; infer_instance

/-- A field wrapped in double quotes with every internal double quote doubled. -/
def quoted (s : Str) : Str :=
  [dquote] ++ s.flatMap (fun ch => if ch = dquote then [dquote, dquote] else [ch]) ++ [dquote]

/-- The header of the specification, as the text it is written as. -/
def specHeaderText : Str :=
  ("workout_id,date,athlete,goal,block_id,category,qty,intensity_type," ++
    "intensity_value,minutes,notes").toList

/-- The four workout fields of a row: "that workout's id, date, athlete, goal". -/
def workoutFields (w : Workout) : List FieldVal :=
  [FieldVal.str w.id, FieldVal.str w.date, FieldVal.str w.athlete, FieldVal.str w.goal]

/-- The seven block fields of a row: "the block's id, category, qty, intensityType,
intensityValue, minutes, notes". -/
def blockFields (b : Block) : List FieldVal :=
  [FieldVal.str b.id, FieldVal.str b.category, FieldVal.num b.qty,
   FieldVal.str b.intensityType, FieldVal.str b.intensityValue, FieldVal.num b.minutes,
   FieldVal.str b.notes]

/-- The row table as the specification describes it: the names of the header text, then for
each workout, in order, one row per block made of the workout fields and the block fields,
or a single row of the workout fields and seven empty fields when the workout has no
block. -/
def specRows (workouts : List Workout) : List (List FieldVal) :=
  (specHeaderText.splitOn comma).map FieldVal.str ::
    workouts.flatMap (fun w =>
      match w.blocks with
      | [] => [workoutFields w ++ List.replicate 7 (FieldVal.str [])]
      | b :: bs => (b :: bs).map (fun b => workoutFields w ++ blockFields b))

/-- The carriage return. -/
def carriageReturn : Char := Char.ofNat 13

/-- A character that ends an unquoted field by the standard CSV rules: the comma, or the
start of a line break, which is a line feed or a carriage return (alone or in front of a
line feed). -/
def IsSeparator (d : Char) : Prop :=
  d = comma ∨ d = newline ∨ d = carriageReturn

/-- The rest of a quoted field, read after its opening quote by the standard CSV rules: a
doubled quote is one quote of the field, a single quote closes the field.  The result is
the field and the unread text; there is none when the closing quote is missing. -/
def parseQuoted : Str → Option (Str × Str)
  | [] => none
  | c :: cs =>
    if c = dquote then
      match cs with
      | [] => some ([], [])
      | d :: ds =>
        if d = dquote then (parseQuoted ds).map (fun p => (dquote :: p.1, p.2))
        else some ([], d :: ds)
    else (parseQuoted cs).map (fun p => (c :: p.1, p.2))

/-- An unquoted field, read by the standard CSV rules: it is taken literally up to the
next comma or line break.  The result is the field and the unread text. -/
def parseUnquoted : Str → Str × Str
  | [] => ([], [])
  | c :: cs =>
    if c = comma ∨ c = newline ∨ c = carriageReturn then ([], c :: cs)
    else ((c :: (parseUnquoted cs).1), (parseUnquoted cs).2)

/-- One CSV field read from the front of a text by the standard rules: quoted when the
text begins with a double quote, unquoted otherwise. -/
def parseField : Str → Option (Str × Str)
  | [] => some ([], [])
  | c :: cs => if c = dquote then parseQuoted cs else some (parseUnquoted (c :: cs))

end DataTab

/-! ## UI: `uid` (app.js lines 97-99) -/

namespace UI

/-- The character of a base-36 digit: `0` to `9`, then `a` to `z`. -/
def digit36 (d : ℕ) : Char :=
  if d < 10 then Char.ofNat (48 + d) else Char.ofNat (87 + d)

/-- The base-36 digits of `n`, the most significant first, in front of `acc`; at most
`fuel` digits are written. -/
def toDigits36 : ℕ → ℕ → Str → Str
  | 0, _, acc => acc
  | fuel + 1, n, acc =>
    if n / 36 = 0 then digit36 (n % 36) :: acc
    else toDigits36 fuel (n / 36) (digit36 (n % 36) :: acc)

/-- The call `n.toString(36)` on a whole number that is not negative. -/
def natToString36 (n : ℕ) : Str := toDigits36 (n + 1) n []

/-- The call `t.toString(36)` on a whole number: a negative one is written with a minus
sign in front of the digits of its absolute value. -/
def intToString36 (t : ℤ) : Str :=
  if t < 0 then '-' :: natToString36 t.natAbs else natToString36 t.toNat

/-- The call `r.toString(36)` on a result `r` of `Math.random()`, a number with
`0 ≤ r < 1`: zero is written `0`, every other value `0.` followed by digits.  Which digits
an engine prints after the point is left to it by the standard; `fracDigits36 r` is that
text. -/
def randomToString36 (fracDigits36 : ℚ → Str) (r : ℚ) : Str :=
  if r = 0 then ['0'] else '0' :: '.' :: fracDigits36 r

/-- The call `s.slice(start, stop)` for `0 ≤ start ≤ stop`: the characters of `s` from
position `start` up to, and without, position `stop`, as far as they exist. -/
def slice (s : Str) (start stop : ℕ) : Str := (s.take stop).drop start

/-- The function `UI.uid` (lines 97-99).  `now` is the result of `Date.now()` and `random`
the result of `Math.random()`. -/
def uid (fracDigits36 : ℚ → Str) (now : ℤ) (random : ℚ) : Str :=
  intToString36 now ++ '-' :: slice (randomToString36 fracDigits36 random) 2 7

/-- The number a text of base-36 digits denotes, read after the value `acc` of the digits
before it; a character that is no digit counts as zero. -/
def value36 (acc : ℕ) : Str → ℕ
  | [] => acc
  | ch :: rest =>
    value36 (36 * acc + (if ch.toNat < 58 then ch.toNat - 48 else ch.toNat - 87)) rest

/-- A character is a base-36 digit. -/
def IsDigit36 (ch : Char) : Prop :=
  (48 ≤ ch.toNat ∧ ch.toNat ≤ 57) ∨ (97 ≤ ch.toNat ∧ ch.toNat ≤ 122)

instance (ch : Char) : Decidable (IsDigit36 ch) := by
  unfold IsDigit36; infer_instance

end UI

/-! ## Trainer: `addBlock`, the removal of a pending block, `saveWorkout`
(app.js lines 154-275) -/

namespace Trainer

/-- The code points that `String.prototype.trim` removes: the white space and the line
terminators of the language. -/
def isTrimmed (ch : Char) : Bool :=
  ch.toNat ∈ [0x09, 0x0A, 0x0B, 0x0C, 0x0D, 0x20, 0xA0, 0x1680, 0x2000, 0x2001, 0x2002,
    0x2003, 0x2004, 0x2005, 0x2006, 0x2007, 0x2008, 0x2009, 0x200A, 0x2028, 0x2029, 0x202F,
    0x205F, 0x3000, 0xFEFF]

/-- The call `s.trim()`. -/
def trim (s : Str) : Str :=
  ((s.dropWhile isTrimmed).reverse.dropWhile isTrimmed).reverse

/-- The expression `Number(text) || dflt`.  `x` is the result of `Number(text)`, `none`
being `NaN`; `NaN` and zero are falsy. -/
def numberOr (x : Option ℚ) (dflt : ℚ) : ℚ :=
  match x with
  | none => dflt
  | some q => if q = 0 then dflt else q

/-- The values of the fields of the block editor when `addBlock` reads them. -/
structure BlockForm where
  category : Str
  qty : Str
  intensityType : Str
  intensityValue : Str
  minutes : Str
  notes : Str
deriving DecidableEq

/-- The values of the fields of the workout form when `saveWorkout` reads them. -/
structure WorkoutForm where
  date : Str
  athlete : Str
  goal : Str
deriving DecidableEq

/-- The built-ins of the platform that the trainer tab calls: the conversion `Number(text)`
(`none` being `NaN`), and the digits printed after the point for a fraction in base 36. -/
structure Platform where
  toNumber : Str → Option ℚ
  fracDigits36 : ℚ → Str

/-- The clock and the random draw of one call: the results of `Date.now()`, of
`Math.random()` and of `new Date().toISOString()`. -/
structure Moment where
  now : ℤ
  random : ℚ
  isoTime : Str
deriving DecidableEq

/-- The state of the trainer tab: `localStorage` and the module variable `pendingBlocks`. -/
structure State where
  storage : Storage.LocalStorage
  pendingBlocks : List Block

/-- The block built by `addBlock` (lines 175-182). -/
def newBlock (p : Platform) (form : BlockForm) (m : Moment) : Block :=
  { id := UI.uid p.fracDigits36 m.now m.random
    category := form.category
    qty := numberOr (p.toNumber form.qty) 1
    intensityType := form.intensityType
    intensityValue := trim form.intensityValue
    minutes := numberOr (p.toNumber form.minutes) 0
    notes := trim form.notes }

/-- The handler `Trainer.addBlock` (lines 174-186): the block is pushed on `pendingBlocks`.
The redrawing of the list and the reset of the form fields are left out. -/
def addBlock (p : Platform) (form : BlockForm) (m : Moment) (s : State) : State :=
  { s with pendingBlocks := s.pendingBlocks ++ [newBlock p form m] }

/-- The click handler of a remove button (line 195): `pendingBlocks.splice(index, 1)` with
the position the button was drawn for. -/
def removeBlock (index : ℕ) (s : State) : State :=
  { s with pendingBlocks := s.pendingBlocks.eraseIdx index }

/-- The handler `Trainer.saveWorkout` (lines 239-275).  An empty string is falsy.  The
result is the new state and the notification shown; the redrawing and the reset of the form
fields are left out. -/
def saveWorkout (c : Storage.JSONCodec Workout) (p : Platform) (form : WorkoutForm)
    (m : Moment) (s : State) : Except JSError (State × List Effect) :=
  let date := form.date
  let athlete := trim form.athlete
  let goal := trim form.goal
  if date = [] ∨ athlete = [] ∨ goal = [] then
    pure (s, [Effect.toast "Preencha data, aluno e objetivo!".toList ToastKind.error])
  else if s.pendingBlocks.length = 0 then
    pure (s, [Effect.toast "Adicione ao menos um bloco!".toList ToastKind.error])
  else do
    let workout : Workout :=
      { id := UI.uid p.fracDigits36 m.now m.random
        createdAt := m.isoTime
        date := date
        athlete := athlete
        goal := goal
        blocks := s.pendingBlocks }
    let workouts ← Storage.getWorkouts c s.storage
    let workouts := workouts ++ [workout]
    let storage := Storage.saveWorkouts c s.storage workouts
    pure ({ storage := storage, pendingBlocks := [] },
      [Effect.toast "Treino salvo com sucesso!".toList ToastKind.success])

/-- One action of the user on the trainer tab. -/
inductive Step
  | addBlock (form : BlockForm) (m : Moment)
  | removeBlock (index : ℕ)
  | saveWorkout (form : WorkoutForm) (m : Moment)
  | deleteWorkout (confirmed : Bool) (id : Str)

/-- The state after one action. -/
def step (c : Storage.JSONCodec Workout) (p : Platform) (s : State) :
    Step → Except JSError State
  | Step.addBlock form m => pure (addBlock p form m s)
  | Step.removeBlock index => pure (removeBlock index s)
  | Step.saveWorkout form m => do
    let r ← saveWorkout c p form m s
    pure r.1
  | Step.deleteWorkout confirmed id => do
    let r ← deleteWorkout c confirmed id s.storage
    pure { s with storage := r.1 }

/-- The state after a sequence of actions. -/
def run (c : Storage.JSONCodec Workout) (p : Platform) :
    List Step → State → Except JSError State
  | [], s => pure s
  | a :: rest, s => do
    let s ← step c p s a
    run c p rest s

/-- The state of a fresh page over an empty store. -/
def initialState : State :=
  { storage := Storage.emptyStorage, pendingBlocks := [] }

/-- A workout is fully formed: date, athlete and goal are not empty and there is a block. -/
def WellFormed (w : Workout) : Prop :=
  w.date ≠ [] ∧ w.athlete ≠ [] ∧ w.goal ≠ [] ∧ w.blocks ≠ []

instance (w : Workout) : Decidable (WellFormed w) := by
  unfold WellFormed; infer_instance

/-- The workouts that `getWorkouts` reads from the store of a state are all fully formed. -/
def StoredWellFormed (c : Storage.JSONCodec Workout) (s : State) : Prop :=
  ∃ ws, Storage.getWorkouts c s.storage = .ok ws ∧ ∀ w ∈ ws, WellFormed w

end Trainer

/-! ## Sample data -/

namespace Sample

/-- The decimal text of a whole number, which is how JavaScript writes one.  (Of a number
that is not whole it writes the numerator only; it is applied to whole numbers.) -/
def wholeNumberToString (q : ℚ) : Str := (toString q.num).toList

/-- A block whose notes contain a comma and double quotes. -/
def blockA : Block :=
  { id := "b1".toList, category := "pinch".toList, qty := 3,
    intensityType := "kg".toList, intensityValue := "20".toList, minutes := 10,
    notes := [ 's', 'l', 'o', 'w', ',', ' ', Char.ofNat 34, 's', 't', 'r', 'i', 'c', 't',
      Char.ofNat 34 ] }

/-- A second block, with empty notes. -/
def blockB : Block :=
  { id := "b2".toList, category := "crush".toList, qty := 1,
    intensityType := "rpe".toList, intensityValue := [], minutes := 5, notes := [] }

/-- A workout with two blocks. -/
def workoutA : Workout :=
  { id := "w1".toList, createdAt := "2024-01-01T10:00:00.000Z".toList,
    date := "2024-01-01".toList, athlete := "Ana".toList, goal := "Grip".toList,
    blocks := [blockA, blockB] }

/-- A workout without blocks. -/
def workoutB : Workout :=
  { id := "w2".toList, createdAt := "2024-01-02T10:00:00.000Z".toList,
    date := "2024-01-02".toList, athlete := "Bo".toList, goal := "Rest".toList,
    blocks := [] }

/-- A notes value with a carriage return and no comma, double quote or line feed. -/
def bareReturnNotes : Str := ['a', Char.ofNat 13, 'b']

/-- The text JavaScript writes for the numbers of the samples: the decimal digits of a whole
number, and `8.98846567431158e+307` for `2 ^ 1023`. -/
def numberText (q : ℚ) : Str :=
  if q = 2 ^ 1023 then "8.98846567431158e+307".toList else wholeNumberToString q

/-- A number text that writes every integer by its decimal digits (and of another number
its numerator only; it is applied to integers). -/
def decimalText (q : ℚ) : Str := JSON.wholeText q.num

/-- An input the evaluation form accepts (`rpe` 2, a duration of `2 ^ 1023` minutes, which
is about `8.99e307`) and on which `rpe * duration` overflows. -/
def overflowInput : Evaluation.MetricsInput :=
  { rpe := Double.finite 2, duration := Double.finite (2 ^ 1023), technique := Double.finite 0,
    focus := Double.finite 0, confidence := Double.finite 0, stress := Double.finite 0,
    motivation := Double.finite 0, attempts := Double.finite 0 }

/-- The evaluation that `saveEvaluation` builds from `overflowInput`. -/
def overflowEvaluation : JSON.Value :=
  JSON.evaluationRecord "e1".toList "2024-01-03T10:00:00.000Z".toList "2024-01-03".toList
    "Ana".toList [] overflowInput (Evaluation.calcMetrics overflowInput)

/-- The record that `overflowEvaluation` comes back as: `physicalLoad` is `null`. -/
def overflowEvaluationLoaded : JSON.Value :=
  JSON.Value.obj (JSON.Props.ofList
    [("id".toList, JSON.Value.str "e1".toList),
     ("createdAt".toList, JSON.Value.str "2024-01-03T10:00:00.000Z".toList),
     ("date".toList, JSON.Value.str "2024-01-03".toList),
     ("athlete".toList, JSON.Value.str "Ana".toList),
     ("duration".toList, JSON.Value.num (Double.finite (2 ^ 1023))),
     ("attempts".toList, JSON.Value.num (Double.finite 0)),
     ("conclusions".toList, JSON.Value.str []),
     ("rpe".toList, JSON.Value.num (Double.finite 2)),
     ("technique".toList, JSON.Value.num (Double.finite 0)),
     ("focus".toList, JSON.Value.num (Double.finite 0)),
     ("confidence".toList, JSON.Value.num (Double.finite 0)),
     ("stress".toList, JSON.Value.num (Double.finite 0)),
     ("motivation".toList, JSON.Value.num (Double.finite 0)),
     ("physicalLoad".toList, JSON.Value.null),
     ("techScore".toList, JSON.Value.num (Double.finite 0)),
     ("mentalScore".toList, JSON.Value.num (Double.finite 0)),
     ("sessionVolume".toList, JSON.Value.num (Double.finite 0))])

/-- A codec for the collections that occur in the samples; a workout is written as its
id. -/
def codec : Storage.JSONCodec Workout :=
  Storage.tableCodec (fun w => w.id) [[], [workoutA, workoutB], [workoutB]]

/-- The store after `saveWorkouts([workoutA, workoutB])` on an empty `localStorage`. -/
def storage : Storage.LocalStorage :=
  Storage.saveWorkouts codec Storage.emptyStorage [workoutA, workoutB]

/-- The exact base-36 expansion of a fraction `0 ≤ r < 1`, digit by digit, stopped where
the expansion ends and after `count` digits at the latest. -/
def expansion36 : ℕ → ℚ → Str
  | 0, _ => []
  | count + 1, r =>
    if r = 0 then []
    else UI.digit36 (Rat.floor (r * 36)).toNat ::
      expansion36 count (r * 36 - ((Rat.floor (r * 36) : ℤ) : ℚ))

/-- The whole number written by a text of decimal digits, read after the value `acc` of the
digits before it; there is none when a character is no digit. -/
def readDigits (acc : ℕ) : Str → Option ℕ
  | [] => some acc
  | ch :: rest =>
    if 48 ≤ ch.toNat ∧ ch.toNat ≤ 57 then readDigits (10 * acc + (ch.toNat - 48)) rest
    else none

/-- A text of decimal digits with at most one point and at least one digit: the whole
number its digits write, and the number of digits after the point. -/
def readUnsigned (s : Str) : Option (ℕ × ℕ) :=
  let whole := s.takeWhile (fun ch => ch ≠ '.')
  let frac := (s.dropWhile (fun ch => ch ≠ '.')).drop 1
  if whole = [] ∧ frac = [] then none
  else
    match readDigits 0 (whole ++ frac) with
    | some n => some (n, frac.length)
    | none => none

/-- A plain decimal text, surrounding white space removed: the sign, the digits and the
number of digits after the point; the empty text is zero. -/
def readDecimal (s : Str) : Option (Bool × ℕ × ℕ) :=
  match Trainer.trim s with
  | [] => some (false, 0, 0)
  | ch :: rest =>
    if ch = '-' then (readUnsigned rest).map (fun r => (true, r))
    else if ch = '+' then (readUnsigned rest).map (fun r => (false, r))
    else (readUnsigned (ch :: rest)).map (fun r => (false, r))

/-- The conversion `Number(text)` on plain decimal texts such as `12`, `-3` and `2.5`, on
which it agrees with the platform; `none` is `NaN`.  The other texts the platform accepts
(with an exponent, with a radix prefix, `Infinity`) are rejected here. -/
def decimalToNumber (s : Str) : Option ℚ :=
  (readDecimal s).map (fun r =>
    (if r.1 then -(r.2.1 : ℚ) else (r.2.1 : ℚ)) / (10 : ℚ) ^ r.2.2)

/-- A platform for the samples: the decimal conversion above, and the exact base-36
expansion cut after 11 digits. -/
def platform : Trainer.Platform :=
  { toNumber := decimalToNumber, fracDigits36 := expansion36 11 }

/-- A moment: a clock value, a random draw and the time stamp of the clock. -/
def moment : Trainer.Moment :=
  { now := 1700000000000, random := 123456789 / 1073741824,
    isoTime := "2023-11-14T22:13:20.000Z".toList }

/-- A block form filled with a whole quantity and whole minutes. -/
def blockForm : Trainer.BlockForm :=
  { category := "pinch".toList, qty := "3".toList, intensityType := "kg".toList,
    intensityValue := " 20 ".toList, minutes := "10".toList, notes := [] }

/-- A block form with a fractional quantity and negative minutes. -/
def oddBlockForm : Trainer.BlockForm :=
  { category := "pinch".toList, qty := "2.5".toList, intensityType := "kg".toList,
    intensityValue := [], minutes := "-5".toList, notes := [] }

/-- A block form with a negative quantity. -/
def negativeBlockForm : Trainer.BlockForm :=
  { category := "pinch".toList, qty := "-3".toList, intensityType := "kg".toList,
    intensityValue := [], minutes := "10".toList, notes := [] }

/-- A complete workout form. -/
def workoutForm : Trainer.WorkoutForm :=
  { date := "2023-11-14".toList, athlete := " Ana ".toList, goal := "Grip".toList }

/-- A workout form whose athlete is blank. -/
def blankWorkoutForm : Trainer.WorkoutForm :=
  { date := "2023-11-14".toList, athlete := "  ".toList, goal := "Grip".toList }

/-- A session: a save without blocks, two blocks added, one removed, a save, a save with a
blank athlete, and a deletion. -/
def session : List Trainer.Step :=
  [Trainer.Step.saveWorkout workoutForm moment,
   Trainer.Step.addBlock blockForm moment,
   Trainer.Step.addBlock oddBlockForm moment,
   Trainer.Step.removeBlock 1,
   Trainer.Step.saveWorkout workoutForm moment,
   Trainer.Step.addBlock blockForm moment,
   Trainer.Step.saveWorkout blankWorkoutForm moment,
   Trainer.Step.deleteWorkout true "w0".toList]

/-- A natural number in unary: `n` times `1`, then `0`. -/
def encNat (n : ℕ) : Str := List.replicate n '1' ++ ['0']

/-- A reader of `encNat`. -/
def decNat : Str → Option (ℕ × Str)
  | [] => none
  | ch :: rest =>
    if ch = '0' then some (0, rest)
    else if ch = '1' then (decNat rest).map (fun r => (r.1 + 1, r.2))
    else none

/-- A string with its length in front. -/
def encStr (s : Str) : Str := encNat s.length ++ s

/-- A reader of `encStr`. -/
def decStr (t : Str) : Option (Str × Str) :=
  (decNat t).bind (fun r =>
    if r.1 ≤ r.2.length then some (r.2.take r.1, r.2.drop r.1) else none)

/-- A rational number: the sign, then the absolute value of the numerator and the
denominator of its reduced form. -/
def encRat (q : ℚ) : Str :=
  (if q.num < 0 then '-' else '+') :: (encNat q.num.natAbs ++ encNat q.den)

/-- A reader of `encRat`. -/
def decRat : Str → Option (ℚ × Str)
  | [] => none
  | sign :: rest =>
    (decNat rest).bind (fun n => (decNat n.2).map (fun d =>
      ((if sign = '-' then -(n.1 : ℚ) else (n.1 : ℚ)) / (d.1 : ℚ), d.2)))

/-- A block, field after field. -/
def encBlock (b : Block) : Str :=
  encStr b.id ++ (encStr b.category ++ (encRat b.qty ++ (encStr b.intensityType ++
    (encStr b.intensityValue ++ (encRat b.minutes ++ encStr b.notes)))))

/-- A reader of `encBlock`. -/
def decBlock (t : Str) : Option (Block × Str) :=
  (decStr t).bind (fun id => (decStr id.2).bind (fun category =>
  (decRat category.2).bind (fun qty => (decStr qty.2).bind (fun intensityType =>
  (decStr intensityType.2).bind (fun intensityValue =>
  (decRat intensityValue.2).bind (fun minutes => (decStr minutes.2).map (fun notes =>
    ({ id := id.1, category := category.1, qty := qty.1, intensityType := intensityType.1,
       intensityValue := intensityValue.1, minutes := minutes.1, notes := notes.1 },
     notes.2))))))))

/-- The blocks of a workout, one after the other. -/
def encBlocks : List Block → Str
  | [] => []
  | b :: bs => encBlock b ++ encBlocks bs

/-- A reader of `encBlocks` for a given number of blocks. -/
def decBlocks : ℕ → Str → Option (List Block × Str)
  | 0, t => some ([], t)
  | n + 1, t => (decBlock t).bind (fun b => (decBlocks n b.2).map (fun bs => (b.1 :: bs.1, bs.2)))

/-- A workout, field after field, the number of blocks in front of the blocks. -/
def encWorkout (w : Workout) : Str :=
  encStr w.id ++ (encStr w.createdAt ++ (encStr w.date ++ (encStr w.athlete ++
    (encStr w.goal ++ (encNat w.blocks.length ++ encBlocks w.blocks)))))

/-- A reader of `encWorkout`. -/
def decWorkout (t : Str) : Option (Workout × Str) :=
  (decStr t).bind (fun id => (decStr id.2).bind (fun createdAt =>
  (decStr createdAt.2).bind (fun date => (decStr date.2).bind (fun athlete =>
  (decStr athlete.2).bind (fun goal => (decNat goal.2).bind (fun n =>
  (decBlocks n.1 n.2).map (fun blocks =>
    ({ id := id.1, createdAt := createdAt.1, date := date.1, athlete := athlete.1,
       goal := goal.1, blocks := blocks.1 }, blocks.2))))))))

/-- The records of a collection after its opening bracket. -/
def decWorkouts : ℕ → Str → Option (List Workout)
  | 0, _ => none
  | fuel + 1, t =>
    (decWorkout t).bind (fun w =>
      match w.2 with
      | [] => none
      | ch :: rest =>
        if ch = ']' then (if rest = [] then some [w.1] else none)
        else if ch = ',' then (decWorkouts fuel rest).map (fun ws => w.1 :: ws)
        else none)

/-- A reader of the text of a collection: `[]`, or the records between square brackets,
separated by commas. -/
def parseWorkouts (t : Str) : Except JSError (List Workout) :=
  match t with
  | [] => .error JSError.syntaxError
  | ch :: rest =>
    if ch = '[' then
      if rest = [']'] then .ok []
      else match decWorkouts rest.length rest with
        | some ws => .ok ws
        | none => .error JSError.syntaxError
    else .error JSError.syntaxError

/-- A codec for every collection of workouts: the records are written with the length of
each field in front of it, the collection as `Storage.stringify` demands. -/
def lengthPrefixedCodec : Storage.JSONCodec Workout :=
  { parse := parseWorkouts, stringifyRecord := encWorkout }

end Sample

/-! ## Theorems -/

namespace Double

theorem floor_eq (x : ℚ) : Rat.floor x = ⌊x⌋ := rfl

theorem roundHalfEven_bounds (y : ℚ) :
    ⌊y⌋ ≤ roundHalfEven y ∧ roundHalfEven y ≤ ⌊y⌋ + 1 := by
  unfold roundHalfEven
  simp only [floor_eq]
  split_ifs <;> constructor <;> omega

theorem roundHalfEven_le (y : ℚ) (N : ℤ) (h : y ≤ N) : roundHalfEven y ≤ N := by
  have hfl : ⌊y⌋ ≤ N := Int.floor_le_iff.mpr (by
    have : (N : ℚ) < N + 1 := by linarith
    linarith)
  rcases lt_or_eq_of_le hfl with hlt | heq
  · have := (roundHalfEven_bounds y).2
    omega
  · have hy : y = N := le_antisymm h (by rw [← heq]; exact Int.floor_le y)
    unfold roundHalfEven
    simp only [floor_eq, hy, Int.floor_intCast, sub_self]
    norm_num

theorem le_roundHalfEven (y : ℚ) (N : ℤ) (h : (N : ℚ) ≤ y) : N ≤ roundHalfEven y :=
  le_trans (Int.le_floor.mpr h) (roundHalfEven_bounds y).1

theorem roundHalfEven_eq (y : ℚ) (n : ℤ) (h : |y - n| < 1 / 2) : roundHalfEven y = n := by
  rw [abs_lt] at h
  unfold roundHalfEven
  simp only [floor_eq]
  have h1 := Int.floor_le y
  have h2 := Int.lt_floor_add_one y
  by_cases hn : (n : ℚ) ≤ y
  · have hf : ⌊y⌋ = n := by
      rw [Int.floor_eq_iff]
      constructor
      · exact hn
      · linarith [h.2]
    rw [hf, if_pos (by linarith [h.2])]
  · push_neg at hn
    have hf : ⌊y⌋ = n - 1 := by
      rw [Int.floor_eq_iff]
      push_cast
      constructor
      · linarith [h.1]
      · linarith
    rw [hf]
    push_cast
    rw [if_neg (by linarith [h.1]), if_pos (by linarith [h.1])]
    ring

theorem ulp_pos (x : ℚ) : 0 < ulp x := by
  unfold ulp
  positivity

theorem roundQ_le_of_grid (x : ℚ) (N : ℤ) (h : x ≤ N * ulp x) : roundQ x ≤ N * ulp x := by
  unfold roundQ
  have hu := ulp_pos x
  have hy : x / ulp x ≤ N := by
    rw [div_le_iff₀ hu]; exact h
  have := roundHalfEven_le _ N hy
  have hc : ((roundHalfEven (x / ulp x) : ℤ) : ℚ) ≤ (N : ℚ) := by exact_mod_cast this
  exact mul_le_mul_of_nonneg_right hc hu.le

theorem le_roundQ_of_grid (x : ℚ) (N : ℤ) (h : N * ulp x ≤ x) : N * ulp x ≤ roundQ x := by
  unfold roundQ
  have hu := ulp_pos x
  have hy : (N : ℚ) ≤ x / ulp x := by
    rw [le_div_iff₀ hu]; exact h
  have := le_roundHalfEven _ N hy
  have hc : (N : ℚ) ≤ ((roundHalfEven (x / ulp x) : ℤ) : ℚ) := by exact_mod_cast this
  exact mul_le_mul_of_nonneg_right hc hu.le

/-- The exponent of `x` is at most `k` when `|x| < 2 ^ (k + 1)` and `-1022 ≤ k`. -/
theorem binade_le (x : ℚ) (k : ℤ) (hk : 0 ≤ k) (hx : |x| < (2 : ℚ) ^ (k + 1)) :
    binade x ≤ k := by
  unfold binade
  apply max_le _ (by omega)
  rcases eq_or_lt_of_le (abs_nonneg x) with h0 | hpos
  · rw [← h0, Int.log_zero_right]; omega
  · have := (Int.lt_zpow_iff_log_lt (b := 2) (by norm_num) hpos).mp (by exact_mod_cast hx)
    omega

/-- A power of two not below the exponent range of `x` is on the grid of `x`. -/
theorem grid_of_le (x : ℚ) (c : ℤ) (j : ℤ) (hj : binade x - 52 ≤ j) :
    ∃ N : ℤ, (N : ℚ) * ulp x = c * (2 : ℚ) ^ j := by
  refine ⟨c * 2 ^ (j - (binade x - 52)).toNat, ?_⟩
  unfold ulp
  have h2 : (2 : ℚ) ≠ 0 := by norm_num
  have hnn : 0 ≤ j - (binade x - 52) := by omega
  have hcast : (2 : ℚ) ^ (j - (binade x - 52)).toNat = (2 : ℚ) ^ (j - (binade x - 52)) := by
    rw [← zpow_natCast, Int.toNat_of_nonneg hnn]
  push_cast
  rw [hcast, mul_assoc, ← zpow_add₀ h2]
  congr 2
  ring

theorem roundQ_bounds_of_abs_le (x : ℚ) (c : ℤ) (j : ℤ) (hj : binade x - 52 ≤ j)
    (hx : |x| ≤ c * (2 : ℚ) ^ j) :
    |roundQ x| ≤ c * (2 : ℚ) ^ j := by
  obtain ⟨N, hN⟩ := grid_of_le x c j hj
  rw [abs_le] at hx ⊢
  constructor
  · have : ((-N : ℤ) : ℚ) * ulp x ≤ x := by push_cast; linarith [hx.1]
    have := le_roundQ_of_grid x (-N) this
    push_cast at this
    linarith
  · have : x ≤ (N : ℚ) * ulp x := by linarith [hx.2]
    have := roundQ_le_of_grid x N this
    linarith

theorem roundQ_nonneg (x : ℚ) (hx : 0 ≤ x) : 0 ≤ roundQ x := by
  have := le_roundQ_of_grid x 0 (by simpa using hx)
  simpa using this

theorem roundQ_nonpos (x : ℚ) (hx : x ≤ 0) : roundQ x ≤ 0 := by
  have := roundQ_le_of_grid x 0 (by simpa using hx)
  simpa using this


theorem binade_eq (x : ℚ) (e : ℤ) (he : -1022 ≤ e) (h1 : (2 : ℚ) ^ e ≤ |x|)
    (h2 : |x| < (2 : ℚ) ^ (e + 1)) : binade x = e := by
  have hpos : 0 < |x| := lt_of_lt_of_le (by positivity) h1
  have hlo : e ≤ Int.log 2 |x| :=
    (Int.zpow_le_iff_le_log (b := 2) (by norm_num) hpos).mp (by exact_mod_cast h1)
  have hhi : Int.log 2 |x| < e + 1 :=
    (Int.lt_zpow_iff_log_lt (b := 2) (by norm_num) hpos).mp (by exact_mod_cast h2)
  unfold binade
  rw [max_eq_left (by omega)]
  omega

/-- A certificate for a rounding: `x` lies in the binade of exponent `e` and within half a
unit of the `n`-th grid point. -/
theorem roundQ_eq (x : ℚ) (e n : ℤ) (he : -1022 ≤ e) (h1 : (2 : ℚ) ^ e ≤ |x|)
    (h2 : |x| < (2 : ℚ) ^ (e + 1)) (h : |x / (2 : ℚ) ^ (e - 52) - n| < 1 / 2) :
    roundQ x = n * (2 : ℚ) ^ (e - 52) := by
  unfold roundQ ulp
  rw [binade_eq x e he h1 h2, roundHalfEven_eq _ n h]

theorem ofRat_eq (x r : ℚ) (e n : ℤ) (he : -1022 ≤ e) (h1 : (2 : ℚ) ^ e ≤ |x|)
    (h2 : |x| < (2 : ℚ) ^ (e + 1)) (h : |x / (2 : ℚ) ^ (e - 52) - n| < 1 / 2)
    (hr : r = n * (2 : ℚ) ^ (e - 52)) (hlt : |r| < (2 : ℚ) ^ 1024) :
    ofRat x = finite r := by
  unfold ofRat
  rw [roundQ_eq x e n he h1 h2 h, ← hr]
  rw [abs_lt] at hlt
  rw [if_neg (by linarith [hlt.2]), if_neg (by linarith [hlt.1])]


theorem ofRat_ne_nan (x : ℚ) : ofRat x ≠ nan := by
  unfold ofRat
  split_ifs <;> simp

theorem add_finite_ne_nan (x : Double) (b : ℚ) (hx : x ≠ nan) : add x (finite b) ≠ nan := by
  cases x with
  | finite a => exact ofRat_ne_nan _
  | posInf => simp [add]
  | negInf => simp [add]
  | nan => exact absurd rfl hx

theorem divLit_ne_nan (x : Double) (c : ℚ) (hx : x ≠ nan) : divLit x c ≠ nan := by
  cases x with
  | finite a => exact ofRat_ne_nan _
  | posInf => simp [divLit]
  | negInf => simp [divLit]
  | nan => exact absurd rfl hx

theorem sub_finite_ne_nan (x : Double) (b : ℚ) (hx : x ≠ nan) : sub x (finite b) ≠ nan :=
  add_finite_ne_nan x (-b) hx

theorem mul_ten_ne_nan (x : Double) (hx : x ≠ nan) : mul x (finite 10) ≠ nan := by
  cases x with
  | finite a => exact ofRat_ne_nan _
  | posInf => simp [mul]
  | negInf => simp [mul]
  | nan => exact absurd rfl hx

theorem clamp_range (x : Double) (hx : x ≠ nan) :
    ∃ t : ℚ, jsMax (finite 0) (jsMin (finite 100) x) = finite t ∧ 0 ≤ t ∧ t ≤ 100 := by
  cases x with
  | finite a => exact ⟨max 0 (min 100 a), rfl, le_max_left _ _, max_le (by norm_num) (min_le_left _ _)⟩
  | posInf => exact ⟨100, rfl, by norm_num, le_refl _⟩
  | negInf => exact ⟨0, rfl, le_refl _, by norm_num⟩
  | nan => exact absurd rfl hx

theorem ofRat_of_abs_le (x : ℚ) (c : ℤ) (j : ℤ) (hj : binade x - 52 ≤ j)
    (hx : |x| ≤ c * (2 : ℚ) ^ j) (hc : (c : ℚ) * (2 : ℚ) ^ j < (2 : ℚ) ^ 1024) :
    ofRat x = finite (roundQ x) ∧ |roundQ x| ≤ c * (2 : ℚ) ^ j := by
  have hb := roundQ_bounds_of_abs_le x c j hj hx
  refine ⟨?_, hb⟩
  rw [abs_le] at hb
  unfold ofRat
  rw [if_neg (by linarith [hb.2]), if_neg (by linarith [hb.1])]

/-- Rounding to the grid keeps a value inside `[0, 100]`, both ends being doubles. -/
theorem ofRat_unit_range (v : ℚ) (h0 : 0 ≤ v) (h1 : v ≤ 100) :
    ∃ m : ℚ, ofRat v = finite m ∧ 0 ≤ m ∧ m ≤ 100 := by
  have habs : |v| ≤ 100 := by rw [abs_of_nonneg h0]; exact h1
  have hb : binade v ≤ 6 := binade_le v 6 (by norm_num) (lt_of_le_of_lt habs (by norm_num))
  obtain ⟨he, hr⟩ := ofRat_of_abs_le v 100 0 (by omega) (by simpa using habs) (by norm_num)
  refine ⟨roundQ v, he, roundQ_nonneg v h0, ?_⟩
  have := (abs_le.mp hr).2
  simpa using this

/-- Half of a finite double is a finite double. -/
theorem ofRat_half_finite (s : ℚ) (hs : |s| < (2 : ℚ) ^ 1024) :
    ∃ r : ℚ, ofRat (s / 2) = finite r := by
  have habs : |s / 2| < (2 : ℚ) ^ 1023 := by
    rw [abs_div, abs_of_pos (by norm_num : (0 : ℚ) < 2)]
    rw [div_lt_iff₀ (by norm_num)]
    calc |s| < (2 : ℚ) ^ 1024 := hs
      _ = (2 : ℚ) ^ 1023 * 2 := by norm_num
  have hb : binade (s / 2) ≤ 1022 := binade_le _ 1022 (by norm_num) (by
    have : (2 : ℚ) ^ ((1022 : ℤ) + 1) = (2 : ℚ) ^ 1023 := by norm_num
    rw [this]; exact habs)
  have h23 : (2 : ℚ) ^ (1023 : ℤ) = (2 : ℚ) ^ 1023 := by norm_num
  obtain ⟨he, -⟩ := ofRat_of_abs_le (s / 2) 1 1023 (by omega)
    (by rw [h23]; simpa using habs.le) (by rw [h23]; norm_num)
  exact ⟨_, he⟩

theorem toFixed1_unit_range (t : ℚ) (h0 : 0 ≤ t) (h1 : t ≤ 100) :
    ∃ m : ℚ, toFixed1 (finite t) = finite m ∧ 0 ≤ m ∧ m ≤ 100 := by
  have habs : |t| = t := abs_of_nonneg h0
  have hbig : ¬ (10 : ℚ) ^ 21 ≤ |t| := by
    rw [habs]; push_neg
    exact lt_of_le_of_lt h1 (by norm_num)
  have hdef : toFixed1 (finite t) = ofRat (((Rat.floor (t * 10 + 1 / 2) : ℤ) : ℚ) / 10) := by
    simp only [toFixed1]
    rw [if_neg hbig, if_neg (not_lt.mpr h0)]
  rw [hdef]
  apply ofRat_unit_range
  · have : (0 : ℤ) ≤ Rat.floor (t * 10 + 1 / 2) := by
      rw [floor_eq]; apply Int.floor_nonneg.mpr; linarith
    have : (0 : ℚ) ≤ ((Rat.floor (t * 10 + 1 / 2) : ℤ) : ℚ) := by exact_mod_cast this
    positivity
  · have : Rat.floor (t * 10 + 1 / 2) ≤ (1000 : ℤ) := by
      rw [floor_eq]
      have : ⌊t * 10 + 1 / 2⌋ < 1001 := Int.floor_lt.mpr (by push_cast; linarith)
      omega
    have : ((Rat.floor (t * 10 + 1 / 2) : ℤ) : ℚ) ≤ 1000 := by exact_mod_cast this
    linarith

end Double

namespace Evaluation
open Double

/-- Claim C2.  When `focus`, `confidence`, `motivation` and `stress` are real-valued, that
is finite doubles of any sign and size, the `mentalScore` that `calcMetrics` returns is a
finite double `m` with `0 ≤ m ≤ 100`, whatever Numbers the other inputs are (`NaN` and the
infinities included). -/
theorem calcMetrics_mentalScore_mem_Icc (i : MetricsInput)
    (hf : IsFiniteDouble i.focus) (hc : IsFiniteDouble i.confidence)
    (hm : IsFiniteDouble i.motivation) (hs : IsFiniteDouble i.stress) :
    ∃ m : ℚ, (calcMetrics i).mentalScore = finite m ∧ 0 ≤ m ∧ m ≤ 100 := by
  obtain ⟨f, hf, -⟩ := hf
  obtain ⟨c, hc, -⟩ := hc
  obtain ⟨mo, hm, -⟩ := hm
  obtain ⟨s, hs, hsb⟩ := hs
  obtain ⟨r, hr⟩ := Double.ofRat_half_finite s hsb
  have hB : divLit i.stress 2 = finite r := by rw [hs]; exact hr
  have h1 : add i.focus i.confidence ≠ nan := by rw [hf, hc]; exact Double.ofRat_ne_nan _
  have h2 : add (add i.focus i.confidence) i.motivation ≠ nan := by
    rw [hm]; exact Double.add_finite_ne_nan _ _ h1
  have h3 := Double.divLit_ne_nan _ 3 h2
  have h4 : sub (divLit (add (add i.focus i.confidence) i.motivation) 3)
      (divLit i.stress 2) ≠ nan := by
    rw [hB]; exact Double.sub_finite_ne_nan _ _ h3
  have h5 := Double.mul_ten_ne_nan _ h4
  obtain ⟨t, ht, ht0, ht1⟩ := Double.clamp_range _ h5
  obtain ⟨m, hm2, hm0, hm1⟩ := Double.toFixed1_unit_range t ht0 ht1
  refine ⟨m, ?_, hm0, hm1⟩
  show toFixed1 (jsMax (finite 0) (jsMin (finite 100) _)) = finite m
  rw [ht, hm2]


/-- The composite `parseFloat(x.toFixed(1))` rounds to one decimal place. -/
theorem toFixed1_isRound1 (x : Double) : IsRound1 x (toFixed1 x) := by
  cases x with
  | nan => rfl
  | posInf => rfl
  | negInf => rfl
  | finite q =>
    by_cases hbig : (10 : ℚ) ^ 21 ≤ |q|
    · simp only [IsRound1, toFixed1, if_pos hbig]
    · simp only [IsRound1, toFixed1, if_neg hbig]
      by_cases hneg : q < 0
      · rw [if_pos hneg]
        refine ⟨-Rat.floor (-q * 10 + 1 / 2), ?_, by push_cast; rfl⟩
        have h1 := Int.floor_le (-q * 10 + 1 / 2)
        have h2 := Int.lt_floor_add_one (-q * 10 + 1 / 2)
        rw [Double.floor_eq, abs_le]
        push_cast
        constructor <;> linarith
      · rw [if_neg hneg]
        refine ⟨Rat.floor (q * 10 + 1 / 2), ?_, rfl⟩
        have h1 := Int.floor_le (q * 10 + 1 / 2)
        have h2 := Int.lt_floor_add_one (q * 10 + 1 / 2)
        rw [Double.floor_eq, abs_le]
        constructor <;> linarith

/-- The idiom `Math.max(0, Math.min(100, x))` is the spec's `clamp(x, 0, 100)`. -/
theorem max_min_eq_clamp (x : Double) :
    jsMax (finite 0) (jsMin (finite 100) x) = clamp x 0 100 := by
  cases x with
  | nan => rfl
  | posInf => rfl
  | negInf => rfl
  | finite q =>
    show finite (max 0 (min 100 q)) = finite (if q < 0 then 0 else if 100 < q then 100 else q)
    congr 1
    by_cases h0 : q < 0
    · rw [if_pos h0, min_eq_right (by linarith), max_eq_left h0.le]
    · rw [if_neg h0]
      by_cases h1 : 100 < q
      · rw [if_pos h1, min_eq_left h1.le, max_eq_right (by norm_num)]
      · rw [if_neg h1, min_eq_right (not_lt.mp h1), max_eq_right (not_lt.mp h0)]

end Evaluation

namespace Double

theorem ofRat_exact (x : ℚ) (e n : ℤ) (he : -1022 ≤ e) (h1 : (2 : ℚ) ^ e ≤ |x|)
    (h2 : |x| < (2 : ℚ) ^ (e + 1)) (hx : x = n * (2 : ℚ) ^ (e - 52))
    (hlt : |x| < (2 : ℚ) ^ 1024) : ofRat x = finite x := by
  refine ofRat_eq x x e n he h1 h2 ?_ hx hlt
  have hp : (2 : ℚ) ^ (e - 52) ≠ 0 := by positivity
  have : x / (2 : ℚ) ^ (e - 52) = n := by
    rw [div_eq_iff hp]; exact hx
  rw [this, sub_self, abs_zero]
  norm_num

theorem ofRat_zero : ofRat 0 = finite 0 := by
  norm_num [ofRat, roundQ, roundHalfEven, Rat.floor]

theorem ofRat_420 : ofRat 420 = finite 420 :=
  ofRat_exact 420 8 7388718138654720 (by norm_num) (by norm_num) (by norm_num) (by norm_num)
    (by norm_num)

theorem ofRat_42 : ofRat 42 = finite 42 :=
  ofRat_exact 42 5 5910974510923776 (by norm_num) (by norm_num) (by norm_num) (by norm_num)
    (by norm_num)

theorem ofRat_80 : ofRat 80 = finite 80 :=
  ofRat_exact 80 6 5629499534213120 (by norm_num) (by norm_num) (by norm_num) (by norm_num)
    (by norm_num)

theorem ofRat_17 : ofRat 17 = finite 17 :=
  ofRat_exact 17 4 4785074604081152 (by norm_num) (by norm_num) (by norm_num) (by norm_num)
    (by norm_num)

theorem ofRat_26 : ofRat 26 = finite 26 :=
  ofRat_exact 26 4 7318349394477056 (by norm_num) (by norm_num) (by norm_num) (by norm_num)
    (by norm_num)

theorem ofRat_720 : ofRat 720 = finite 720 :=
  ofRat_exact 720 9 6333186975989760 (by norm_num) (by norm_num) (by norm_num) (by norm_num)
    (by norm_num)

theorem ofRat_72 : ofRat 72 = finite 72 :=
  ofRat_exact 72 6 5066549580791808 (by norm_num) (by norm_num) (by norm_num) (by norm_num)
    (by norm_num)

theorem ofRat_three_halves : ofRat (3 / 2) = finite (3 / 2) :=
  ofRat_exact (3 / 2) 0 6755399441055744 (by norm_num) (by norm_num [abs_of_pos])
    (by norm_num [abs_of_pos]) (by norm_num) (by norm_num [abs_of_pos])

theorem ofRat_26_thirds : ofRat (26 / 3) = finite (4878899596318037 / 562949953421312) :=
  ofRat_eq _ _ 3 4878899596318037 (by norm_num) (by norm_num [abs_of_pos])
    (by norm_num [abs_of_pos]) (by norm_num [abs_lt]) (by norm_num) (by norm_num [abs_of_pos])

theorem ofRat_mentalRaw :
    ofRat (4878899596318037 / 562949953421312 + -(3 / 2))
      = finite (4034474666186069 / 562949953421312) :=
  ofRat_eq _ _ 2 8068949332372138 (by norm_num) (by norm_num [abs_of_pos])
    (by norm_num [abs_of_pos]) (by norm_num [abs_lt]) (by norm_num) (by norm_num [abs_of_pos])

theorem ofRat_mentalRaw_times_ten :
    ofRat (4034474666186069 / 562949953421312 * 10)
      = finite (2521546666366293 / 35184372088832) :=
  ofRat_eq _ _ 6 5043093332732586 (by norm_num) (by norm_num [abs_of_pos])
    (by norm_num [abs_of_pos]) (by norm_num [abs_lt]) (by norm_num) (by norm_num [abs_of_pos])

theorem ofRat_717_tenths :
    ofRat (717 / 10) = finite (5045438957538509 / 70368744177664) :=
  ofRat_eq _ _ 6 5045438957538509 (by norm_num) (by norm_num [abs_of_pos])
    (by norm_num [abs_of_pos]) (by norm_num [abs_lt]) (by norm_num) (by norm_num [abs_of_pos])

theorem ofRat_683_tenths :
    ofRat (683 / 10) = finite (4806185227334451 / 70368744177664) :=
  ofRat_eq _ _ 6 4806185227334451 (by norm_num) (by norm_num [abs_of_pos])
    (by norm_num [abs_of_pos]) (by norm_num [abs_lt]) (by norm_num) (by norm_num [abs_of_pos])


theorem toFixed1_of_floor (x : ℚ) (n : ℤ) (h0 : 0 ≤ x) (hbig : x < (10 : ℚ) ^ 21)
    (h1 : (n : ℚ) ≤ x * 10 + 1 / 2) (h2 : x * 10 + 1 / 2 < n + 1) :
    toFixed1 (finite x) = ofRat ((n : ℚ) / 10) := by
  have hfl : Rat.floor (x * 10 + 1 / 2) = n := by
    rw [floor_eq, Int.floor_eq_iff]; exact ⟨h1, h2⟩
  simp only [toFixed1]
  rw [if_neg (by rw [abs_of_nonneg h0]; exact not_le.mpr hbig), if_neg (not_lt.mpr h0), hfl]

theorem physicalLoad_scenario : toFixed1 (divLit (mul (finite 7) (finite 60)) 10) = finite 42 := by
  have h1 : mul (finite 7) (finite 60) = finite 420 := by
    show ofRat (7 * 60) = _
    rw [show (7 : ℚ) * 60 = 420 by norm_num]; exact ofRat_420
  have h2 : divLit (finite 420) 10 = finite 42 := by
    show ofRat (420 / 10) = _
    rw [show (420 : ℚ) / 10 = 42 by norm_num]; exact ofRat_42
  rw [h1, h2, toFixed1_of_floor 42 420 (by norm_num) (by norm_num) (by norm_num) (by norm_num)]
  rw [show ((420 : ℤ) : ℚ) / 10 = 42 by norm_num]; exact ofRat_42

theorem techScore_scenario : mul (finite 8) (finite 10) = finite 80 := by
  show ofRat (8 * 10) = _
  rw [show (8 : ℚ) * 10 = 80 by norm_num]; exact ofRat_80

theorem sessionVolume_scenario : toFixed1 (divLit (mul (finite 60) (finite 12)) 10) = finite 72 := by
  have h1 : mul (finite 60) (finite 12) = finite 720 := by
    show ofRat (60 * 12) = _
    rw [show (60 : ℚ) * 12 = 720 by norm_num]; exact ofRat_720
  have h2 : divLit (finite 720) 10 = finite 72 := by
    show ofRat (720 / 10) = _
    rw [show (720 : ℚ) / 10 = 72 by norm_num]; exact ofRat_72
  rw [h1, h2, toFixed1_of_floor 72 720 (by norm_num) (by norm_num) (by norm_num) (by norm_num)]
  rw [show ((720 : ℤ) : ℚ) / 10 = 72 by norm_num]; exact ofRat_72

theorem mentalScore_scenario :
    toFixed1 (jsMax (finite 0) (jsMin (finite 100)
      (mul (sub (divLit (add (add (finite 9) (finite 8)) (finite 9)) 3) (divLit (finite 3) 2))
        (finite 10)))) = ofRat (717 / 10) := by
  have h1 : add (finite 9) (finite 8) = finite 17 := by
    show ofRat (9 + 8) = _
    rw [show (9 : ℚ) + 8 = 17 by norm_num]; exact ofRat_17
  have h2 : add (finite 17) (finite 9) = finite 26 := by
    show ofRat (17 + 9) = _
    rw [show (17 : ℚ) + 9 = 26 by norm_num]; exact ofRat_26
  have h3 : divLit (finite 26) 3 = finite (4878899596318037 / 562949953421312) := ofRat_26_thirds
  have h4 : divLit (finite 3) 2 = finite (3 / 2) := ofRat_three_halves
  have h5 : sub (finite (4878899596318037 / 562949953421312)) (finite (3 / 2))
      = finite (4034474666186069 / 562949953421312) := ofRat_mentalRaw
  have h6 : mul (finite (4034474666186069 / 562949953421312)) (finite 10)
      = finite (2521546666366293 / 35184372088832) := ofRat_mentalRaw_times_ten
  have h7 : jsMax (finite 0) (jsMin (finite 100) (finite (2521546666366293 / 35184372088832)))
      = finite (2521546666366293 / 35184372088832) := by
    show finite (max 0 (min 100 _)) = _
    rw [min_eq_right (by norm_num), max_eq_right (by norm_num)]
  rw [h1, h2, h3, h4, h5, h6, h7,
    toFixed1_of_floor _ 717 (by norm_num) (by norm_num) (by norm_num) (by norm_num)]
  norm_num

end Double

namespace Evaluation
open Double

/-- The value of `calcMetrics` on the input of the spec's scenario. -/
theorem calcMetrics_scenario :
    calcMetrics scenarioInput = ⟨finite 42, finite 80, ofRat (717 / 10), finite 72⟩ := by
  show Metrics.mk _ _ _ _ = _
  congr 1
  · exact Double.physicalLoad_scenario
  · exact Double.techScore_scenario
  · exact Double.mentalScore_scenario
  · exact Double.sessionVolume_scenario

/-- Claim C1, as the code has it, in the double-precision arithmetic the code runs in.  For
every input, whatever Numbers its fields are, `calcMetrics` returns `physicalLoad` the
rounding to one decimal place of the double `rpe * duration / 10`, `techScore` the double
`technique * 10` without rounding, `mentalScore` the rounding to one decimal place of
`clamp(((focus + confidence + motivation) / 3 - stress / 2) * 10, 0, 100)` and
`sessionVolume` the rounding to one decimal place of the double `duration * attempts / 10`,
every operator being the operator on doubles; on the input of the scenario it returns
`physicalLoad` 42, `techScore` 80, `mentalScore` the double written `71.7` and
`sessionVolume` 72. -/
theorem calcMetrics_formulas_and_scenario :
    (∀ i : MetricsInput,
      IsRound1 (divLit (mul i.rpe i.duration) 10) (calcMetrics i).physicalLoad ∧
      (calcMetrics i).techScore = mul i.technique (finite 10) ∧
      IsRound1
        (clamp (mul (sub (divLit (add (add i.focus i.confidence) i.motivation) 3)
          (divLit i.stress 2)) (finite 10)) 0 100)
        (calcMetrics i).mentalScore ∧
      IsRound1 (divLit (mul i.duration i.attempts) 10) (calcMetrics i).sessionVolume) ∧
    calcMetrics scenarioInput = ⟨finite 42, finite 80, ofRat (717 / 10), finite 72⟩ := by
  refine ⟨fun i => ⟨toFixed1_isRound1 _, rfl, ?_, toFixed1_isRound1 _⟩, calcMetrics_scenario⟩
  rw [← max_min_eq_clamp]
  exact toFixed1_isRound1 _

/-- Claim C1, the value it gets wrong: on the input of the scenario the `mentalScore` that
`calcMetrics` returns is the double written `71.7`, which is not the double written `68.3`
that the claim announces. -/
theorem calcMetrics_scenario_mentalScore_not_68_3 :
    (calcMetrics scenarioInput).mentalScore = ofRat (717 / 10) ∧
    (calcMetrics scenarioInput).mentalScore ≠ ofRat (683 / 10) := by
  have h : (calcMetrics scenarioInput).mentalScore = ofRat (717 / 10) := by
    rw [calcMetrics_scenario]
  refine ⟨h, ?_⟩
  rw [h, Double.ofRat_717_tenths, Double.ofRat_683_tenths]
  intro hc
  injection hc with hc
  norm_num at hc

/-- The bound of claim C2 at an input of extreme size. -/
theorem calcMetrics_mentalScore_mem_Icc_witness :
    IsFiniteDouble extremeInput.focus ∧ IsFiniteDouble extremeInput.confidence ∧
    IsFiniteDouble extremeInput.motivation ∧ IsFiniteDouble extremeInput.stress ∧
    ∃ m : ℚ, (calcMetrics extremeInput).mentalScore = finite m ∧ 0 ≤ m ∧ m ≤ 100 :=
  have hp : IsFiniteDouble (finite (2 ^ 1023)) := ⟨_, rfl, by norm_num [abs_of_pos]⟩
  have hn : IsFiniteDouble (finite (-(2 ^ 1023))) := ⟨_, rfl, by norm_num [abs_of_pos]⟩
  ⟨hp, hp, hp, hn, calcMetrics_mentalScore_mem_Icc extremeInput hp hp hp hn⟩


end Evaluation

namespace Double

theorem roundHalfEven_tie_odd (y : ℚ) (n : ℤ) (hy : y = n + 1 / 2) (hodd : n % 2 = 1) :
    roundHalfEven y = n + 1 := by
  subst hy
  have hf : ⌊(n : ℚ) + 1 / 2⌋ = n := by
    rw [Int.floor_eq_iff]
    constructor <;> linarith
  unfold roundHalfEven
  simp only [floor_eq, hf]
  rw [if_neg (by norm_num), if_neg (by norm_num), if_neg (by omega)]

/-- A certificate for a tie: `x` lies half-way between the odd `n`-th grid point and the
next, and goes to the next. -/
theorem ofRat_tie_odd (x r : ℚ) (e n : ℤ) (he : -1022 ≤ e) (h1 : (2 : ℚ) ^ e ≤ |x|)
    (h2 : |x| < (2 : ℚ) ^ (e + 1)) (h : x / (2 : ℚ) ^ (e - 52) = n + 1 / 2) (hodd : n % 2 = 1)
    (hr : r = (n + 1 : ℤ) * (2 : ℚ) ^ (e - 52)) (hlt : |r| < (2 : ℚ) ^ 1024) :
    ofRat x = finite r := by
  have hq : roundQ x = r := by
    unfold roundQ ulp
    rw [binade_eq x e he h1 h2, roundHalfEven_tie_odd _ n h hodd, hr]
  unfold ofRat
  rw [hq]
  rw [abs_lt] at hlt
  rw [if_neg (by linarith [hlt.2]), if_neg (by linarith [hlt.1])]

theorem ofRat_quarter : ofRat (1 / 4) = finite (1 / 4) :=
  ofRat_exact (1 / 4) (-2) 4503599627370496 (by norm_num) (by norm_num [abs_of_pos])
    (by norm_num [abs_of_pos]) (by norm_num) (by norm_num [abs_of_pos])

theorem physicalLoad_rounding :
    toFixed1 (divLit (mul (finite 3) (finite (3752999689475413 / 4503599627370496))) 10)
      = ofRat (3 / 10) := by
  have h1 : mul (finite 3) (finite (3752999689475413 / 4503599627370496)) = finite (5 / 2) :=
    ofRat_tie_odd _ _ 1 5629499534213119 (by norm_num) (by norm_num [abs_of_pos])
      (by norm_num [abs_of_pos]) (by norm_num) (by norm_num) (by norm_num)
      (by norm_num [abs_of_pos])
  have h2 : divLit (finite (5 / 2)) 10 = finite (1 / 4) := by
    show ofRat (5 / 2 / 10) = _
    rw [show (5 : ℚ) / 2 / 10 = 1 / 4 by norm_num]; exact ofRat_quarter
  rw [h1, h2, toFixed1_of_floor _ 3 (by norm_num) (by norm_num) (by norm_num) (by norm_num)]
  norm_num

end Double

namespace Evaluation
open Double

/-- The formulas of `calcMetrics` are formulas on doubles and not on real numbers: for
`rpe = 3` and `duration = 0.8333333333333333` the double product is `2.5` (a tie, rounded
to even), so `physicalLoad` is `0.3`, while the exact quotient is below `0.25` and its
rounding to one decimal place is `0.2`. -/
theorem calcMetrics_rounds_the_product :
    (calcMetrics roundingInput).physicalLoad = ofRat (3 / 10) ∧
    |(2 : ℚ) / 10 - 3 * (3752999689475413 / 4503599627370496) / 10| ≤ 1 / 20 ∧
    ¬ |(3 : ℚ) / 10 - 3 * (3752999689475413 / 4503599627370496) / 10| ≤ 1 / 20 := by
  refine ⟨Double.physicalLoad_rounding, ?_, ?_⟩
  · rw [abs_le]; constructor <;> norm_num
  · rw [abs_le]; norm_num

end Evaluation

namespace DataTab

theorem inheritedGet_of_plain {k : Str} (hk : PlainCategory k) :
    inheritedGet k = JSVal.undefined := by
  unfold inheritedGet
  rw [if_neg hk.1, if_neg hk.2.1, if_neg hk.2.2]

theorem objSet_of_plain {k : Str} (hk : PlainCategory k) (m : JSObject) (v : JSVal) :
    objSet m k v = ownSet m k v := by
  unfold objSet
  rw [if_neg hk.2.2]

/-- One pass of the loop body on a plain category adds the increment to the sum. -/
theorem sumValues_ownSet (nts : ℚ → Str) (fts : Str → Str) (k : Str) (d : ℚ)
    (hk : PlainCategory k) :
    ∀ (m : JSObject) (t : ℚ), sumValues m = some t →
      sumValues (ownSet m k (orZeroPlus nts fts (objGet m k) d)) = some (t + d) := by
  intro m
  induction m with
  | nil =>
    intro t ht
    simp only [sumValues, Option.some.injEq] at ht
    subst ht
    simp [objGet, ownGet, inheritedGet_of_plain hk, orZeroPlus, ownSet, sumValues]
  | cons kv rest ih =>
    intro t ht
    obtain ⟨k', v'⟩ := kv
    cases v' with
    | num q =>
      simp only [sumValues, Option.map_eq_some'] at ht
      obtain ⟨t', ht', rfl⟩ := ht
      by_cases hkk : k' = k
      · subst hkk
        by_cases hq : q = 0
        · simp [objGet, ownGet, orZeroPlus, ownSet, sumValues, ht', hq]
          ring
        · simp [objGet, ownGet, orZeroPlus, ownSet, sumValues, ht', hq]
          ring
      · have hget : objGet ((k', JSVal.num q) :: rest) k = objGet rest k := by
          simp [objGet, ownGet, hkk]
        rw [hget]
        simp only [ownSet, if_neg hkk, sumValues, ih t' ht', Option.map_some']
        congr 1
        ring
    | str s => simp [sumValues] at ht
    | fn name => simp [sumValues] at ht
    | objectPrototype => simp [sumValues] at ht
    | undefined => simp [sumValues] at ht

theorem sumValues_blocks (nts : ℚ → Str) (fts : Str → Str) (inc : Block → ℚ) :
    ∀ (bs : List Block) (m : JSObject) (t : ℚ),
      (∀ b ∈ bs, PlainCategory b.category) → sumValues m = some t →
      sumValues (bs.foldl (fun map b =>
        objSet map b.category (orZeroPlus nts fts (objGet map b.category) (inc b))) m)
        = some (t + (bs.map inc).sum) := by
  intro bs
  induction bs with
  | nil => intro m t _ ht; simpa using ht
  | cons b bs ih =>
    intro m t hp ht
    have hb : PlainCategory b.category := hp b (List.mem_cons_self _ _)
    have h1 := sumValues_ownSet nts fts b.category (inc b) hb m t ht
    rw [← objSet_of_plain hb] at h1
    have h2 := ih _ _ (fun x hx => hp x (List.mem_cons_of_mem _ hx)) h1
    simp only [List.foldl_cons, List.map_cons, List.sum_cons]
    rw [h2]
    congr 1
    ring

theorem sumValues_workouts (nts : ℚ → Str) (fts : Str → Str) (inc : Block → ℚ) :
    ∀ (ws : List Workout) (m : JSObject) (t : ℚ),
      (∀ w ∈ ws, ∀ b ∈ w.blocks, PlainCategory b.category) → sumValues m = some t →
      sumValues (ws.foldl (fun map w => w.blocks.foldl (fun map b =>
        objSet map b.category (orZeroPlus nts fts (objGet map b.category) (inc b))) map) m)
        = some (t + (ws.map (fun w => (w.blocks.map inc).sum)).sum) := by
  intro ws
  induction ws with
  | nil => intro m t _ ht; simpa using ht
  | cons w ws ih =>
    intro m t hp ht
    have h1 := sumValues_blocks nts fts inc w.blocks m t (hp w (List.mem_cons_self _ _)) ht
    have h2 := ih _ _ (fun x hx => hp x (List.mem_cons_of_mem _ hx)) h1
    simp only [List.foldl_cons, List.map_cons, List.sum_cons]
    rw [h2]
    congr 1
    ring

theorem sum_ones_eq_totalBlocks (ws : List Workout) :
    (ws.map (fun w => (w.blocks.map (fun _ => (1 : ℚ))).sum)).sum = totalBlocks ws := by
  unfold totalBlocks
  induction ws with
  | nil => simp
  | cons w ws ih =>
    have h1 : (w.blocks.map (fun _ => (1 : ℚ))).sum = w.blocks.length := by simp
    simp only [List.map_cons, List.sum_cons, Nat.cast_add, ih, h1]

/-- When no category is the name of a property of `Object.prototype`, the values of the
mapping are numbers and sum to the number of blocks (`'count'`) and to the minutes of the
blocks (`'minutes'`). -/
theorem countByCategory_sum_of_plain (nts : ℚ → Str) (fts : Str → Str) (ws : List Workout)
    (hp : ∀ w ∈ ws, ∀ b ∈ w.blocks, PlainCategory b.category) :
    sumValues (countByCategory nts fts ws "count".toList) = some (totalBlocks ws) ∧
    sumValues (countByCategory nts fts ws "minutes".toList) = some (totalMinutes ws) := by
  constructor
  · have h := sumValues_workouts nts fts (fun _ => 1) ws [] 0 hp rfl
    have hf : ("count".toList = "minutes".toList) = False := by decide
    unfold countByCategory
    simp only [hf, if_false]
    rw [h, zero_add, sum_ones_eq_totalBlocks]
  · have h := sumValues_workouts nts fts (fun b => b.minutes) ws [] 0 hp rfl
    unfold countByCategory
    simp only [if_true]
    rw [h, zero_add]
    rfl

/-- Claim C3 on the code.  For the workout whose only block has the category
`constructor`, `countByCategory` returns a mapping whose single value is a string (the text
of the built-in function `Object` followed by the increment), under `'count'` and under
`'minutes'` alike: the values are not numbers and have no sum, while there is 1 block of
10 minutes.  For the category `__proto__` the mapping is empty, so its values sum to 0
while there is 1 block. -/
theorem countByCategory_inherited_property_names (nts : ℚ → Str) (fts : Str → Str) :
    countByCategory nts fts [constructorWorkout] "count".toList =
        [("constructor".toList, JSVal.str (fts "Object".toList ++ nts 1))] ∧
    sumValues (countByCategory nts fts [constructorWorkout] "count".toList) = none ∧
    totalBlocks [constructorWorkout] = 1 ∧
    countByCategory nts fts [constructorWorkout] "minutes".toList =
        [("constructor".toList, JSVal.str (fts "Object".toList ++ nts 10))] ∧
    sumValues (countByCategory nts fts [constructorWorkout] "minutes".toList) = none ∧
    totalMinutes [constructorWorkout] = 10 ∧
    countByCategory nts fts [protoWorkout] "count".toList = [] ∧
    sumValues (countByCategory nts fts [protoWorkout] "count".toList) = some 0 ∧
    totalBlocks [protoWorkout] = 1 := by
  refine ⟨rfl, rfl, ?_, rfl, rfl, ?_, rfl, rfl, ?_⟩
  · simp [totalBlocks, constructorWorkout]
  · simp [totalMinutes, constructorWorkout, constructorBlock]
  · simp [totalBlocks, protoWorkout]

end DataTab

namespace Storage

theorem getItemOrEmptyArray_ne_nil (ls : LocalStorage) (key : Str) :
    getItemOrEmptyArray ls key ≠ [] := by
  unfold getItemOrEmptyArray
  cases h : getItem ls key with
  | none => simp
  | some s =>
    by_cases hs : s = []
    · simp [hs]
    · simp [hs]

/-- Every call of `load` returns: the value parsed, or the empty array. -/
theorem load_eq {R : Type} (c : JSONCodec R) (ls : LocalStorage) (key : Str) :
    load c ls key = .ok (match c.parse (getItemOrEmptyArray ls key) with
      | .ok v => v
      | .error _ => []) := by
  unfold load
  cases c.parse (getItemOrEmptyArray ls key) <;> rfl

theorem stringify_ne_nil {R : Type} (c : JSONCodec R) (data : List R) :
    stringify c data ≠ [] := by
  simp [stringify]

theorem getItem_setItem_same (ls : LocalStorage) (key value : Str) :
    getItem (setItem ls key value) key = some value := by
  simp [getItem, setItem]

theorem getItem_setItem_of_ne (ls : LocalStorage) {key k : Str} (value : Str) (h : k ≠ key) :
    getItem (setItem ls key value) k = getItem ls k := by
  simp [getItem, setItem, h]

theorem load_save_same {R : Type} (c : JSONCodec R) (ls : LocalStorage) (key : Str)
    (data : List R) :
    load c (save c ls key data) key =
      .ok (match c.parse (stringify c data) with
        | .ok v => v
        | .error _ => []) := by
  rw [load_eq]
  have : getItemOrEmptyArray (save c ls key data) key = stringify c data := by
    unfold getItemOrEmptyArray save
    rw [getItem_setItem_same]
    simp [stringify_ne_nil]
  rw [this]

theorem load_save_of_roundtrip {R : Type} (c : JSONCodec R) (ls : LocalStorage) (key : Str)
    (data : List R) (hrt : c.parse (stringify c data) = .ok data) :
    load c (save c ls key data) key = .ok data := by
  rw [load_save_same, hrt]

theorem load_save_of_ne {R : Type} (c : JSONCodec R) (ls : LocalStorage) {key k : Str}
    (data : List R) (h : k ≠ key) :
    load c (save c ls key data) k = load c ls k := by
  unfold load getItemOrEmptyArray save
  rw [getItem_setItem_of_ne ls _ h]

/-- Claim C9.  For every key and every state of the store, `load` returns a value and never
an exception; and, `JSON.parse` reading `[]` as the empty array, it returns the empty array
whenever nothing is stored under the key or the stored text is rejected by `JSON.parse`. -/
theorem load_fails_soft {R : Type} (c : JSONCodec R) :
    (∀ (ls : LocalStorage) (key : Str), ∃ v, load c ls key = .ok v) ∧
    (c.parse "[]".toList = .ok [] →
      ∀ (ls : LocalStorage) (key : Str),
        (getItem ls key = none ∨ ∃ s e, getItem ls key = some s ∧ c.parse s = .error e) →
        load c ls key = .ok []) := by
  refine ⟨fun ls key => ⟨_, load_eq c ls key⟩, fun hempty ls key h => ?_⟩
  have hempty' : c.parse ['[', ']'] = .ok [] := hempty
  rcases h with h | ⟨s, e, hs, he⟩
  · simp [load, getItemOrEmptyArray, h, hempty']
  · by_cases hnil : s = []
    · simp [load, getItemOrEmptyArray, hs, hnil, hempty']
    · simp [load, getItemOrEmptyArray, hs, hnil, he]

/-- Claim C9 on the sample codec: nothing stored, and a stored text that is not JSON. -/
theorem load_fails_soft_witness :
    Sample.codec.parse "[]".toList = .ok [] ∧
    load Sample.codec emptyStorage KEYS.workouts = .ok [] ∧
    load Sample.codec (setItem emptyStorage KEYS.workouts "[oops".toList) KEYS.workouts
      = .ok [] :=
  ⟨rfl,
   (load_fails_soft Sample.codec).2 rfl emptyStorage KEYS.workouts (Or.inl rfl),
   (load_fails_soft Sample.codec).2 rfl _ KEYS.workouts
     (Or.inr ⟨"[oops".toList, JSError.syntaxError, rfl, rfl⟩)⟩

end Storage

/-! ### The JSON round trip -/

namespace JSON

theorem char_eq_of_toNat {c : Char} {n : ℕ} (h : c.toNat = n) : c = Char.ofNat n := by
  rw [← h]; exact (Char.ofNat_toNat c).symm

theorem readString_dquote (rest : Str) : readString (dquote :: rest) = some ([], rest) := by
  rw [readString.eq_def]
  simp only [if_true]

theorem readString_literal (c : Char) (rest : Str) (h1 : c ≠ dquote) (h2 : c ≠ backslash)
    (h3 : ¬ c.toNat < 32) :
    readString (c :: rest) = (readString rest).map (fun p => (c :: p.1, p.2)) := by
  rw [readString.eq_def]
  simp only [if_neg h1, if_neg h2, if_neg h3]

theorem readString_escape (e ch : Char) (rest : Str) (he : e ≠ 'u')
    (hch : unescape e = some ch) :
    readString (backslash :: e :: rest) = (readString rest).map (fun p => (ch :: p.1, p.2)) := by
  have hb : backslash ≠ dquote := by decide
  rw [readString.eq_def]
  simp only [if_neg hb, if_true, if_neg he, hch]

theorem readString_unicode (h1 h2 h3 h4 : Char) (n : ℕ) (rest : Str)
    (hn : hexValue4 h1 h2 h3 h4 = some n) (hs : n < 55296 ∨ 57343 < n) :
    readString (backslash :: 'u' :: h1 :: h2 :: h3 :: h4 :: rest) =
      (readString rest).map (fun p => (Char.ofNat n :: p.1, p.2)) := by
  have hb : backslash ≠ dquote := by decide
  rw [readString.eq_def]
  simp only [if_neg hb, if_true, hn, if_pos hs]

/-- Reading back the text written for one character of a string. -/
theorem readString_escapeChar (c : Char) (rest : Str) :
    readString (escapeChar c ++ rest) = (readString rest).map (fun p => (c :: p.1, p.2)) := by
  unfold escapeChar
  by_cases h1 : c = dquote
  · subst h1
    rw [if_pos rfl]
    exact readString_escape dquote dquote rest (by decide) (by decide)
  by_cases h2 : c = backslash
  · subst h2
    rw [if_neg h1, if_pos rfl]
    exact readString_escape backslash backslash rest (by decide) (by decide)
  rw [if_neg h1, if_neg h2]
  by_cases h32 : c.toNat < 32
  · have hc := char_eq_of_toNat (rfl : c.toNat = c.toNat)
    generalize hn : c.toNat = n at hc h32
    subst hc
    clear h1 h2 hn
    interval_cases n <;> first
      | exact readString_escape 'b' _ rest (by decide) (by decide)
      | exact readString_escape 't' _ rest (by decide) (by decide)
      | exact readString_escape 'n' _ rest (by decide) (by decide)
      | exact readString_escape 'f' _ rest (by decide) (by decide)
      | exact readString_escape 'r' _ rest (by decide) (by decide)
      | exact readString_unicode _ _ _ _ _ rest (by decide) (by decide)
  · have h8 : c.toNat ≠ 8 := by omega
    have h9 : c.toNat ≠ 9 := by omega
    have h10 : c.toNat ≠ 10 := by omega
    have h12 : c.toNat ≠ 12 := by omega
    have h13 : c.toNat ≠ 13 := by omega
    rw [if_neg h8, if_neg h9, if_neg h10, if_neg h12, if_neg h13, if_neg h32]
    exact readString_literal c rest h1 h2 h32

/-- Reading back the text written for a string, after its opening quote. -/
theorem readString_body (rest : Str) :
    ∀ s : Str, readString (s.flatMap escapeChar ++ dquote :: rest) = some (s, rest) := by
  intro s
  induction s with
  | nil => exact readString_dquote rest
  | cons c cs ih =>
    rw [List.flatMap_cons, List.append_assoc, readString_escapeChar, ih]
    rfl

theorem quote_append (s rest : Str) :
    quote s ++ rest = dquote :: (s.flatMap escapeChar ++ dquote :: rest) := by
  simp [quote]


theorem skipWs_cons (c : Char) (cs : Str) (h : isWhitespace c = false) :
    skipWs (c :: cs) = c :: cs := by
  simp [skipWs, h]

theorem readNumber_head (c : Char) (cs : Str) (p : Double × Str)
    (h : readNumber (c :: cs) = some p) : c = '-' ∨ isDigit c = true := by
  by_cases hm : c = '-'
  · exact Or.inl hm
  · right
    by_contra hd
    have h0 : c ≠ '0' := by
      intro h0; subst h0; exact hd (by decide)
    have : readInt (c :: cs) = none := by
      simp [readInt, h0, hd]
    simp [readNumber, hm, readUnsignedNumber, this] at h

theorem readNumber_delimiter (d : Char) (rest : Str) (hd : IsDelimiter d) :
    readNumber (d :: rest) = none := by
  cases h : readNumber (d :: rest) with
  | none => rfl
  | some p =>
    exfalso
    have := readNumber_head d rest p h
    rcases hd with hd | hd | hd <;> subst hd <;> revert this <;> decide

/-- The text of a number under the contract begins with a minus sign or a digit. -/
theorem numText_head (numText : ℚ → Str) (q : ℚ) (h : NumberContract numText q) :
    ∃ c cs, numText q = c :: cs ∧ (c = '-' ∨ isDigit c = true) := by
  have h1 := h ',' [] (Or.inl rfl)
  cases ht : numText q with
  | nil =>
    rw [ht] at h1
    rw [List.nil_append, readNumber_delimiter ',' [] (Or.inl rfl)] at h1
    cases h1
  | cons c cs =>
    rw [ht] at h1
    exact ⟨c, cs, rfl, readNumber_head c _ _ h1⟩

theorem parseValue_null (fuel : ℕ) (rest : Str) :
    parseValue (fuel + 1) ("null".toList ++ rest) = some (Value.null, rest) := by
  simp [parseValue, skipWs, isWhitespace, expect]

theorem parseValue_true (fuel : ℕ) (rest : Str) :
    parseValue (fuel + 1) ("true".toList ++ rest) = some (Value.bool true, rest) := by
  simp [parseValue, skipWs, isWhitespace, expect]

theorem parseValue_false (fuel : ℕ) (rest : Str) :
    parseValue (fuel + 1) ("false".toList ++ rest) = some (Value.bool false, rest) := by
  simp [parseValue, skipWs, isWhitespace, expect]

theorem parseValue_str (fuel : ℕ) (s rest : Str) :
    parseValue (fuel + 1) (quote s ++ rest) = some (Value.str s, rest) := by
  rw [quote_append, parseValue, skipWs_cons _ _ (by decide)]
  simp only [show dquote ≠ 'n' by decide, show dquote ≠ 't' by decide,
    show dquote ≠ 'f' by decide, if_false, if_true, readString_body]
  rfl

theorem parseValue_num (numText : ℚ → Str) (fuel : ℕ) (q : ℚ) (d : Char) (rest : Str)
    (h : NumberContract numText q) (hd : IsDelimiter d) :
    parseValue (fuel + 1) (numText q ++ d :: rest) =
      some (Value.num (Double.finite q), d :: rest) := by
  obtain ⟨c, cs, hc, hhead⟩ := numText_head numText q h
  have hread := h d rest hd
  rw [hc] at hread ⊢
  have hws : isWhitespace c = false := by
    rcases hhead with h | h
    · subst h; decide
    · unfold isDigit at h
      unfold isWhitespace
      simp only [Bool.and_eq_true, decide_eq_true_eq] at h
      simp only [Bool.or_eq_false_iff, decide_eq_false_iff_not]
      omega
  have hne : ∀ x : Char,
      (x = 'n' ∨ x = 't' ∨ x = 'f' ∨ x = dquote ∨ x = '[' ∨ x = lbrace) → c ≠ x := by
    intro x hx hcx
    subst hcx
    rcases hhead with h | h
    · subst h; revert hx; decide
    · rcases hx with hx | hx | hx | hx | hx | hx <;> subst hx <;> revert h <;> decide
  rw [List.cons_append, parseValue, skipWs_cons _ _ hws]
  simp only [if_neg (hne 'n' (by simp)), if_neg (hne 't' (by simp)), if_neg (hne 'f' (by simp)),
    if_neg (hne dquote (by simp)), if_neg (hne '[' (by simp)), if_neg (hne lbrace (by simp))]
  rw [List.cons_append] at hread
  rw [hread]
  rfl


theorem Props.ofList_toList : ∀ ps : Props, Props.ofList ps.toList = ps
  | Props.nil => rfl
  | Props.cons k v ps => by
    simp only [Props.toList, Props.ofList]
    rw [Props.ofList_toList ps]

theorem Values.toList_ofList : ∀ l : List Value, (Values.ofList l).toList = l
  | [] => rfl
  | x :: xs => by
    simp only [Values.ofList, Values.toList]
    rw [Values.toList_ofList xs]

theorem insertIndex_append (k : Str) (v : Value) :
    ∀ acc : List (Str × Value),
      (∀ p ∈ acc, isArrayIndex p.1 = true ∧ digitsValue p.1 < digitsValue k) →
      insertIndex k v acc = acc ++ [(k, v)] := by
  intro acc
  induction acc with
  | nil => intro _; rfl
  | cons p ps ih =>
    intro h
    have hp := h p (List.mem_cons_self _ _)
    have ih' := ih (fun x hx => h x (List.mem_cons_of_mem _ hx))
    simp [insertIndex, hp.1, hp.2, ih']

theorem setProp_append (acc : List (Str × Value)) (k : Str) (v : Value)
    (h : ∀ p ∈ acc, KeyBefore p.1 k) : setProp acc k v = acc ++ [(k, v)] := by
  unfold setProp
  have hany : acc.any (fun p => decide (p.1 = k)) = false := by
    rw [List.any_eq_false]
    intro p hp
    simpa using (h p hp).1
  rw [hany]
  simp only [Bool.false_eq_true, if_false]
  by_cases hk : isArrayIndex k = true
  · rw [if_pos hk]
    exact insertIndex_append k v acc (fun p hp => (h p hp).2 hk)
  · rw [if_neg hk]

theorem foldl_setProp :
    ∀ (l acc : List (Str × Value)), ((acc ++ l).map (fun p => p.1)).Pairwise KeyBefore →
      l.foldl (fun acc p => setProp acc p.1 p.2) acc = acc ++ l := by
  intro l
  induction l with
  | nil => intro acc _; simp
  | cons p ps ih =>
    intro acc h
    have hstep : setProp acc p.1 p.2 = acc ++ [p] := by
      apply setProp_append
      intro a ha
      rw [List.map_append, List.pairwise_append] at h
      exact h.2.2 a.1 (List.mem_map_of_mem _ ha) p.1
        (List.mem_map_of_mem _ (List.mem_cons_self _ _))
    rw [List.foldl_cons, hstep, ih]
    · simp
    · simpa using h

/-- Properties listed in the object's own order are the object built from them. -/
theorem buildObject_eq (ps : Props) (h : ps.keys.Pairwise KeyBefore) : buildObject ps = ps := by
  unfold buildObject
  rw [foldl_setProp ps.toList [] (by simpa [Props.keys] using h)]
  simpa using Props.ofList_toList ps

theorem parseValue_arr_nil (fuel : ℕ) (rest : Str) :
    parseValue (fuel + 1) ('[' :: ([] ++ ']' :: rest)) = some (Value.arr Values.nil, rest) := by
  rw [parseValue, skipWs_cons _ _ (by decide)]
  simp only [show ('[' : Char) ≠ 'n' by decide, show ('[' : Char) ≠ 't' by decide,
    show ('[' : Char) ≠ 'f' by decide, show ('[' : Char) ≠ dquote by decide, if_false, if_true]
  rw [List.nil_append, skipWs_cons _ _ (by decide)]
  simp only [if_true]

theorem parseValue_arr_cons (fuel : ℕ) (c : Char) (cs rest : Str) (xs : Values)
    (hws : isWhitespace c = false) (hc : c ≠ ']')
    (h : parseElements fuel (c :: cs) = some (xs, rest)) :
    parseValue (fuel + 1) ('[' :: c :: cs) = some (Value.arr xs, rest) := by
  rw [parseValue, skipWs_cons _ _ (by decide)]
  simp only [show ('[' : Char) ≠ 'n' by decide, show ('[' : Char) ≠ 't' by decide,
    show ('[' : Char) ≠ 'f' by decide, show ('[' : Char) ≠ dquote by decide, if_false, if_true]
  rw [skipWs_cons _ _ hws]
  simp only [if_neg hc, h]
  rfl

theorem parseValue_obj_nil (fuel : ℕ) (rest : Str) :
    parseValue (fuel + 1) (lbrace :: ([] ++ rbrace :: rest)) =
      some (Value.obj Props.nil, rest) := by
  rw [parseValue, skipWs_cons _ _ (by decide)]
  simp only [show lbrace ≠ 'n' by decide, show lbrace ≠ 't' by decide,
    show lbrace ≠ 'f' by decide, show lbrace ≠ dquote by decide,
    show lbrace ≠ '[' by decide, if_false, if_true]
  rw [List.nil_append, skipWs_cons _ _ (by decide)]
  simp only [if_true]

theorem parseValue_obj_cons (fuel : ℕ) (cs rest : Str) (ps : Props)
    (hord : ps.keys.Pairwise KeyBefore)
    (h : parseMembers fuel (dquote :: cs) = some (ps, rest)) :
    parseValue (fuel + 1) (lbrace :: dquote :: cs) = some (Value.obj ps, rest) := by
  rw [parseValue, skipWs_cons _ _ (by decide)]
  simp only [show lbrace ≠ 'n' by decide, show lbrace ≠ 't' by decide,
    show lbrace ≠ 'f' by decide, show lbrace ≠ dquote by decide,
    show lbrace ≠ '[' by decide, if_false, if_true]
  rw [skipWs_cons _ _ (by decide)]
  simp only [show dquote ≠ rbrace by decide, if_false, h, Option.map_some', buildObject_eq ps hord]

theorem parseElements_last (fuel : ℕ) (s rest : Str) (v : Value)
    (h : parseValue fuel s = some (v, ']' :: rest)) :
    parseElements (fuel + 1) s = some (Values.cons v Values.nil, rest) := by
  rw [parseElements, h]
  simp only [skipWs_cons _ _ (show isWhitespace ']' = false by decide),
    show (']' : Char) ≠ ',' by decide, if_false, if_true]

theorem parseElements_more (fuel : ℕ) (s s2 rest : Str) (v : Value) (xs : Values)
    (h : parseValue fuel s = some (v, ',' :: s2))
    (h2 : parseElements fuel s2 = some (xs, rest)) :
    parseElements (fuel + 1) s = some (Values.cons v xs, rest) := by
  rw [parseElements, h]
  simp only [skipWs_cons _ _ (show isWhitespace ',' = false by decide), if_true, h2,
    Option.map_some']

theorem parseMembers_last (fuel : ℕ) (k s rest : Str) (v : Value)
    (h : parseValue fuel s = some (v, rbrace :: rest)) :
    parseMembers (fuel + 1) (quote k ++ ':' :: s) = some (Props.cons k v Props.nil, rest) := by
  rw [quote_append, parseMembers, skipWs_cons _ _ (by decide)]
  simp only [if_true, readString_body, skipWs_cons _ _ (show isWhitespace ':' = false by decide),
    h, skipWs_cons _ _ (show isWhitespace rbrace = false by decide),
    show rbrace ≠ ',' by decide, if_false]

theorem parseMembers_more (fuel : ℕ) (k s s2 rest : Str) (v : Value) (ps : Props)
    (h : parseValue fuel s = some (v, ',' :: s2))
    (h2 : parseMembers fuel s2 = some (ps, rest)) :
    parseMembers (fuel + 1) (quote k ++ ':' :: s) = some (Props.cons k v ps, rest) := by
  rw [quote_append, parseMembers, skipWs_cons _ _ (by decide)]
  simp only [if_true, readString_body, skipWs_cons _ _ (show isWhitespace ':' = false by decide),
    h, skipWs_cons _ _ (show isWhitespace ',' = false by decide), h2, Option.map_some']


theorem stringifyValue_head (nt : ℚ → Str) (v : Value) (hs : v.Storable nt) :
    ∃ c cs, stringifyValue nt v = c :: cs ∧ isWhitespace c = false ∧ c ≠ ']' := by
  cases v with
  | null => exact ⟨'n', "ull".toList, rfl, by decide, by decide⟩
  | bool b =>
    cases b
    · exact ⟨'f', "alse".toList, rfl, by decide, by decide⟩
    · exact ⟨'t', "rue".toList, rfl, by decide, by decide⟩
  | num d =>
    cases d with
    | finite q =>
      obtain ⟨c, cs, hc, hhead⟩ := numText_head nt q hs
      refine ⟨c, cs, by simpa [stringifyValue] using hc, ?_, ?_⟩
      · rcases hhead with h | h
        · subst h; decide
        · unfold isDigit at h
          unfold isWhitespace
          simp only [Bool.and_eq_true, decide_eq_true_eq] at h
          simp only [Bool.or_eq_false_iff, decide_eq_false_iff_not]
          omega
      · intro hc2
        subst hc2
        rcases hhead with h | h <;> revert h <;> decide
    | posInf => exact absurd hs (by simp [Value.Storable])
    | negInf => exact absurd hs (by simp [Value.Storable])
    | nan => exact absurd hs (by simp [Value.Storable])
  | str s => exact ⟨dquote, _, rfl, by decide, by decide⟩
  | arr items => exact ⟨'[', _, by rw [stringifyValue], by decide, by decide⟩
  | obj props => exact ⟨lbrace, _, by rw [stringifyValue], by decide, by decide⟩

theorem stringifyMembers_head (nt : ℚ → Str) (k : Str) (v : Value) (ps : Props) :
    ∃ cs, stringifyMembers nt (Props.cons k v ps) = dquote :: cs := by
  cases ps with
  | nil => exact ⟨_, by rw [stringifyMembers, quote, List.cons_append]⟩
  | cons k2 v2 ps => exact ⟨_, by rw [stringifyMembers, quote, List.cons_append]⟩

theorem stringifyElements_head (nt : ℚ → Str) (x : Value) (xs : Values) (hs : x.Storable nt) :
    ∃ c cs, stringifyElements nt (Values.cons x xs) = c :: cs ∧ isWhitespace c = false ∧
      c ≠ ']' := by
  obtain ⟨c, cs, hc, hws, hne⟩ := stringifyValue_head nt x hs
  cases xs with
  | nil => exact ⟨c, cs, by rw [stringifyElements, hc], hws, hne⟩
  | cons y ys => exact ⟨c, _, by rw [stringifyElements, hc, List.cons_append], hws, hne⟩

/-! The text of a storable value reads back as the value, in front of a delimiter; the
texts of the elements of an array and of the properties of an object read back up to the
closing bracket and brace.  The length of the text is fuel enough. -/

mutual
theorem parseValue_stringify (nt : ℚ → Str) :
    ∀ (v : Value) (fuel : ℕ) (d : Char) (rest : Str), v.Storable nt →
      (stringifyValue nt v).length ≤ fuel → IsDelimiter d →
      parseValue fuel (stringifyValue nt v ++ d :: rest) = some (v, d :: rest)
  | Value.null, fuel, d, rest, _, hf, _ => by
    obtain ⟨f, rfl⟩ : ∃ f, fuel = f + 1 := ⟨fuel - 1, by simp [stringifyValue] at hf; omega⟩
    exact parseValue_null f _
  | Value.bool true, fuel, d, rest, _, hf, _ => by
    obtain ⟨f, rfl⟩ : ∃ f, fuel = f + 1 := ⟨fuel - 1, by simp [stringifyValue] at hf; omega⟩
    exact parseValue_true f _
  | Value.bool false, fuel, d, rest, _, hf, _ => by
    obtain ⟨f, rfl⟩ : ∃ f, fuel = f + 1 := ⟨fuel - 1, by simp [stringifyValue] at hf; omega⟩
    exact parseValue_false f _
  | Value.num (Double.finite q), fuel, d, rest, hs, hf, hd => by
    obtain ⟨c, cs, hc, -⟩ := numText_head nt q hs
    obtain ⟨f, rfl⟩ : ∃ f, fuel = f + 1 :=
      ⟨fuel - 1, by simp [stringifyValue, hc] at hf; omega⟩
    exact parseValue_num nt f q d rest hs hd
  | Value.num Double.posInf, _, _, _, hs, _, _ => absurd hs (by simp [Value.Storable])
  | Value.num Double.negInf, _, _, _, hs, _, _ => absurd hs (by simp [Value.Storable])
  | Value.num Double.nan, _, _, _, hs, _, _ => absurd hs (by simp [Value.Storable])
  | Value.str s, fuel, d, rest, _, hf, _ => by
    obtain ⟨f, rfl⟩ : ∃ f, fuel = f + 1 :=
      ⟨fuel - 1, by simp [stringifyValue, quote] at hf; omega⟩
    exact parseValue_str f s _
  | Value.arr Values.nil, fuel, d, rest, _, hf, _ => by
    obtain ⟨f, rfl⟩ : ∃ f, fuel = f + 1 :=
      ⟨fuel - 1, by simp [stringifyValue] at hf; omega⟩
    have := parseValue_arr_nil f (d :: rest)
    simpa [stringifyValue, stringifyElements] using this
  | Value.arr (Values.cons x xs), fuel, d, rest, hs, hf, _ => by
    obtain ⟨f, rfl⟩ : ∃ f, fuel = f + 1 :=
      ⟨fuel - 1, by simp [stringifyValue] at hf; omega⟩
    have hE := parseElements_stringify nt (Values.cons x xs) f (d :: rest)
      (by simp) (by simpa [Value.Storable] using hs)
      (by simp [stringifyValue] at hf; omega)
    have hsx : x.Storable nt := by
      simp only [Value.Storable, Values.Storable] at hs
      exact hs.1
    obtain ⟨c, cs, hc, hws, hne⟩ := stringifyElements_head nt x xs hsx
    rw [hc] at hE
    rw [stringifyValue, hc]
    exact parseValue_arr_cons f c _ (d :: rest) _ hws hne (by simpa using hE)
  | Value.obj Props.nil, fuel, d, rest, _, hf, _ => by
    obtain ⟨f, rfl⟩ : ∃ f, fuel = f + 1 :=
      ⟨fuel - 1, by simp [stringifyValue] at hf; omega⟩
    have := parseValue_obj_nil f (d :: rest)
    simpa [stringifyValue, stringifyMembers] using this
  | Value.obj (Props.cons k v ps), fuel, d, rest, hs, hf, _ => by
    obtain ⟨f, rfl⟩ : ∃ f, fuel = f + 1 :=
      ⟨fuel - 1, by simp [stringifyValue] at hf; omega⟩
    simp only [Value.Storable] at hs
    have hM := parseMembers_stringify nt (Props.cons k v ps) f (d :: rest)
      (by simp) hs.1 (by simp [stringifyValue] at hf; omega)
    obtain ⟨cs, hc⟩ := stringifyMembers_head nt k v ps
    rw [hc] at hM
    rw [stringifyValue, hc]
    exact parseValue_obj_cons f _ (d :: rest) _ hs.2 (by simpa using hM)
theorem parseElements_stringify (nt : ℚ → Str) :
    ∀ (xs : Values) (fuel : ℕ) (rest : Str), xs ≠ Values.nil → xs.Storable nt →
      (stringifyElements nt xs).length < fuel →
      parseElements fuel (stringifyElements nt xs ++ ']' :: rest) = some (xs, rest)
  | Values.nil, _, _, hne, _, _ => absurd rfl hne
  | Values.cons x Values.nil, fuel, rest, _, hs, hf => by
    obtain ⟨f, rfl⟩ : ∃ f, fuel = f + 1 := ⟨fuel - 1, by omega⟩
    have hx := parseValue_stringify nt x f ']' rest hs.1
      (by simp [stringifyElements] at hf; omega) (Or.inr (Or.inl rfl))
    simp only [stringifyElements]
    exact parseElements_last f _ rest x hx
  | Values.cons x (Values.cons y ys), fuel, rest, _, hs, hf => by
    obtain ⟨f, rfl⟩ : ∃ f, fuel = f + 1 := ⟨fuel - 1, by omega⟩
    simp only [stringifyElements, List.length_append, List.length_cons] at hf
    have hx := parseValue_stringify nt x f ','
      (stringifyElements nt (Values.cons y ys) ++ ']' :: rest) hs.1
      (by omega) (Or.inl rfl)
    have hys := parseElements_stringify nt (Values.cons y ys) f rest (by simp) hs.2 (by omega)
    simp only [stringifyElements, List.append_assoc, List.cons_append]
    exact parseElements_more f _ _ rest x _ hx hys
theorem parseMembers_stringify (nt : ℚ → Str) :
    ∀ (ps : Props) (fuel : ℕ) (rest : Str), ps ≠ Props.nil → ps.Storable nt →
      (stringifyMembers nt ps).length < fuel →
      parseMembers fuel (stringifyMembers nt ps ++ rbrace :: rest) = some (ps, rest)
  | Props.nil, _, _, hne, _, _ => absurd rfl hne
  | Props.cons k v Props.nil, fuel, rest, _, hs, hf => by
    obtain ⟨f, rfl⟩ : ∃ f, fuel = f + 1 := ⟨fuel - 1, by omega⟩
    simp only [stringifyMembers, List.length_append, List.length_cons] at hf
    have hv := parseValue_stringify nt v f rbrace rest hs.1 (by omega) (Or.inr (Or.inr rfl))
    simp only [stringifyMembers, List.append_assoc, List.cons_append]
    exact parseMembers_last f k _ rest v hv
  | Props.cons k v (Props.cons k2 v2 ps), fuel, rest, _, hs, hf => by
    obtain ⟨f, rfl⟩ : ∃ f, fuel = f + 1 := ⟨fuel - 1, by omega⟩
    simp only [stringifyMembers, List.length_append, List.length_cons] at hf
    have hv := parseValue_stringify nt v f ','
      (stringifyMembers nt (Props.cons k2 v2 ps) ++ rbrace :: rest) hs.1
      (by omega) (Or.inl rfl)
    have hps := parseMembers_stringify nt (Props.cons k2 v2 ps) f rest (by simp) hs.2 (by omega)
    simp only [stringifyMembers, List.append_assoc, List.cons_append]
    exact parseMembers_more f k _ _ rest v _ hv hps
end


theorem stringifyElements_ofList (nt : ℚ → Str) :
    ∀ data : List Value,
      stringifyElements nt (Values.ofList data) =
        ([','] : Str).intercalate (data.map (stringifyValue nt))
  | [] => rfl
  | [x] => by simp [Values.ofList, stringifyElements, List.intercalate]
  | x :: y :: ys => by
    have ih := stringifyElements_ofList nt (y :: ys)
    simp only [Values.ofList] at ih ⊢
    rw [stringifyElements, ih]
    simp [List.intercalate, List.intersperse]

theorem stringify_eq (nt : ℚ → Str) (data : List Value) :
    Storage.stringify (codec nt) data = stringifyValue nt (Value.arr (Values.ofList data)) := by
  rw [stringifyValue, stringifyElements_ofList]
  rfl

theorem Values.storable_ofList (nt : ℚ → Str) :
    ∀ data : List Value, (∀ v ∈ data, v.Storable nt) → (Values.ofList data).Storable nt
  | [], _ => trivial
  | x :: xs, h =>
    ⟨h x (List.mem_cons_self _ _),
     Values.storable_ofList nt xs (fun v hv => h v (List.mem_cons_of_mem _ hv))⟩

/-- The text of an array of storable values reads back as the array. -/
theorem parse_stringify (nt : ℚ → Str) (data : List Value) (h : ∀ v ∈ data, v.Storable nt) :
    parse (stringifyValue nt (Value.arr (Values.ofList data))) =
      some (Value.arr (Values.ofList data)) := by
  have key : ∀ fuel, (stringifyElements nt (Values.ofList data)).length < fuel →
      parseValue (fuel + 1) (stringifyValue nt (Value.arr (Values.ofList data))) =
        some (Value.arr (Values.ofList data), []) := by
    intro fuel hf
    cases data with
    | nil => exact parseValue_arr_nil fuel []
    | cons x xs =>
      have hs := Values.storable_ofList nt (x :: xs) h
      have hE := parseElements_stringify nt (Values.ofList (x :: xs)) fuel []
        (by simp [Values.ofList]) hs hf
      simp only [Values.ofList] at hE hs ⊢
      obtain ⟨c, cs, hc, hws, hne⟩ := stringifyElements_head nt x (Values.ofList xs) hs.1
      rw [hc] at hE
      rw [stringifyValue, hc]
      exact parseValue_arr_cons fuel c _ [] _ hws hne (by simpa using hE)
  unfold parse
  rw [key _ (by rw [stringifyValue]; simp only [List.length_cons, List.length_append]; omega)]
  rfl

/-- The reader `JSON.parse` returns a sequence of storable records from the text
`JSON.stringify` writes for it. -/
theorem codec_roundtrip (nt : ℚ → Str) (data : List Value) (h : ∀ v ∈ data, v.Storable nt) :
    (codec nt).parse (Storage.stringify (codec nt) data) = .ok data := by
  rw [stringify_eq]
  show (match parse (stringifyValue nt (Value.arr (Values.ofList data))) with
      | some (Value.arr items) => Except.ok items.toList
      | some _ => Except.error JSError.typeError
      | none => Except.error JSError.syntaxError) = Except.ok data
  rw [parse_stringify nt data h]
  simp only [Values.toList_ofList]

end JSON

namespace Double

theorem ofRat_overflow (x : ℚ) (e n : ℤ) (he : -1022 ≤ e) (h1 : (2 : ℚ) ^ e ≤ |x|)
    (h2 : |x| < (2 : ℚ) ^ (e + 1)) (h : |x / (2 : ℚ) ^ (e - 52) - n| < 1 / 2)
    (hbig : (2 : ℚ) ^ 1024 ≤ n * (2 : ℚ) ^ (e - 52)) : ofRat x = posInf := by
  unfold ofRat
  rw [roundQ_eq x e n he h1 h2 h, if_pos hbig]

theorem ofRat_one : ofRat 1 = finite 1 :=
  ofRat_exact 1 0 4503599627370496 (by norm_num) (by norm_num) (by norm_num) (by norm_num)
    (by norm_num)

theorem ofRat_two : ofRat 2 = finite 2 :=
  ofRat_exact 2 1 4503599627370496 (by norm_num) (by norm_num) (by norm_num) (by norm_num)
    (by norm_num)

theorem ofRat_three : ofRat 3 = finite 3 :=
  ofRat_exact 3 1 6755399441055744 (by norm_num) (by norm_num) (by norm_num) (by norm_num)
    (by norm_num)

theorem ofRat_five : ofRat 5 = finite 5 :=
  ofRat_exact 5 2 5629499534213120 (by norm_num) (by norm_num) (by norm_num) (by norm_num)
    (by norm_num)

theorem ofRat_ten : ofRat 10 = finite 10 :=
  ofRat_exact 10 3 5629499534213120 (by norm_num) (by norm_num) (by norm_num) (by norm_num)
    (by norm_num)

theorem ofRat_decimal_of_two_pow_1023 :
    ofRat ((8 + 98846567431158 / 10 ^ 14) * 10 ^ (307 : ℤ)) = finite (2 ^ 1023) :=
  ofRat_eq _ _ 1023 4503599627370496 (by norm_num) (by norm_num [abs_of_pos])
    (by norm_num [abs_of_pos]) (by norm_num [abs_lt]) (by norm_num) (by norm_num [abs_of_pos])

theorem ofRat_two_pow_1024 : ofRat (2 * 2 ^ 1023) = posInf :=
  ofRat_overflow _ 1024 4503599627370496 (by norm_num) (by norm_num [abs_of_pos])
    (by norm_num [abs_of_pos]) (by norm_num) (by norm_num)

end Double

namespace Sample
open JSON Double

theorem numberText_zero : numberText 0 = ['0'] := by
  rw [numberText, if_neg (by norm_num)]; rfl

theorem numberText_one : numberText 1 = ['1'] := by
  rw [numberText, if_neg (by norm_num)]; rfl

theorem numberText_two : numberText 2 = ['2'] := by
  rw [numberText, if_neg (by norm_num)]; rfl

theorem numberText_three : numberText 3 = ['3'] := by
  rw [numberText, if_neg (by norm_num)]; rfl

theorem numberText_five : numberText 5 = ['5'] := by
  rw [numberText, if_neg (by norm_num)]; rfl

theorem numberText_ten : numberText 10 = ['1', '0'] := by
  rw [numberText, if_neg (by norm_num)]; rfl

theorem numberText_two_pow_1023 :
    numberText (2 ^ 1023) = "8.98846567431158e+307".toList := by
  rw [numberText, if_pos rfl]

theorem contract_zero : NumberContract numberText 0 := by
  intro d rest hd
  rw [numberText_zero]
  rcases hd with h | h | h <;> subst h <;>
    simp [readNumber, readUnsignedNumber, readInt, takeDigits, isDigit, readFrac, readExp,
      digitsValue, rbrace, ofRat_zero]

theorem contract_one : NumberContract numberText 1 := by
  intro d rest hd
  rw [numberText_one]
  rcases hd with h | h | h <;> subst h <;>
    simp [readNumber, readUnsignedNumber, readInt, takeDigits, isDigit, readFrac, readExp,
      digitsValue, rbrace, ofRat_one]

theorem contract_two : NumberContract numberText 2 := by
  intro d rest hd
  rw [numberText_two]
  rcases hd with h | h | h <;> subst h <;>
    simp [readNumber, readUnsignedNumber, readInt, takeDigits, isDigit, readFrac, readExp,
      digitsValue, rbrace, ofRat_two]

theorem contract_three : NumberContract numberText 3 := by
  intro d rest hd
  rw [numberText_three]
  rcases hd with h | h | h <;> subst h <;>
    simp [readNumber, readUnsignedNumber, readInt, takeDigits, isDigit, readFrac, readExp,
      digitsValue, rbrace, ofRat_three]

theorem contract_five : NumberContract numberText 5 := by
  intro d rest hd
  rw [numberText_five]
  rcases hd with h | h | h <;> subst h <;>
    simp [readNumber, readUnsignedNumber, readInt, takeDigits, isDigit, readFrac, readExp,
      digitsValue, rbrace, ofRat_five]

theorem contract_ten : NumberContract numberText 10 := by
  intro d rest hd
  rw [numberText_ten]
  rcases hd with h | h | h <;> subst h <;>
    simp [readNumber, readUnsignedNumber, readInt, takeDigits, isDigit, readFrac, readExp,
      digitsValue, rbrace, ofRat_ten]

theorem contract_two_pow_1023 : NumberContract numberText (2 ^ 1023) := by
  intro d rest hd
  rw [numberText_two_pow_1023]
  rcases hd with h | h | h <;> subst h <;>
    simp [readNumber, readUnsignedNumber, readInt, takeDigits, isDigit, readFrac, readExp,
      readExpDigits, digitsValue, rbrace] <;>
    exact ofRat_decimal_of_two_pow_1023

/-- The metrics of `overflowInput`: the product `rpe * duration` is `2 ^ 1024`, which is
beyond the doubles, so `physicalLoad` is `Infinity`. -/
theorem calcMetrics_overflowInput :
    Evaluation.calcMetrics overflowInput = ⟨posInf, finite 0, finite 0, finite 0⟩ := by
  have hmul : mul (finite 2) (finite (2 ^ 1023)) = posInf := ofRat_two_pow_1024
  have h0 : mul (finite 0) (finite 10) = finite 0 := by
    show ofRat (0 * 10) = _
    rw [zero_mul]; exact ofRat_zero
  have h1 : add (finite 0) (finite 0) = finite 0 := by
    show ofRat (0 + 0) = _
    rw [add_zero]; exact ofRat_zero
  have h2 : divLit (finite 0) 3 = finite 0 := by
    show ofRat (0 / 3) = _
    rw [zero_div]; exact ofRat_zero
  have h3 : divLit (finite 0) 2 = finite 0 := by
    show ofRat (0 / 2) = _
    rw [zero_div]; exact ofRat_zero
  have h4 : sub (finite 0) (finite 0) = finite 0 := by
    show ofRat (0 + -0) = _
    rw [neg_zero, add_zero]; exact ofRat_zero
  have h5 : jsMax (finite 0) (jsMin (finite 100) (finite 0)) = finite 0 := by
    show finite (max 0 (min 100 0)) = _
    norm_num
  have h6 : toFixed1 (finite 0) = finite 0 := by
    rw [toFixed1_of_floor 0 0 (by norm_num) (by norm_num) (by norm_num) (by norm_num)]
    norm_num [ofRat_zero]
  have h7 : mul (finite (2 ^ 1023)) (finite 0) = finite 0 := by
    show ofRat (2 ^ 1023 * 0) = _
    rw [mul_zero]; exact ofRat_zero
  have h8 : divLit (finite 0) 10 = finite 0 := by
    show ofRat (0 / 10) = _
    rw [zero_div]; exact ofRat_zero
  show Evaluation.Metrics.mk _ _ _ _ = _
  simp only [overflowInput, hmul, h0, h1, h2, h3, h4, h5, h6, h7, h8]
  rfl

end Sample

namespace JSON

theorem ofBlock_storable (nt : ℚ → Str) (b : Block)
    (h : NumberContract nt b.qty ∧ NumberContract nt b.minutes) : (ofBlock b).Storable nt := by
  have hk : List.Pairwise KeyBefore ["id".toList, "category".toList, "qty".toList,
      "intensityType".toList, "intensityValue".toList, "minutes".toList, "notes".toList] := by
    decide
  refine ⟨?_, hk⟩
  simp only [Props.ofList, Props.Storable, Value.Storable, and_true, true_and]
  exact h

theorem blocks_storable (nt : ℚ → Str) :
    ∀ bs : List Block, (∀ b ∈ bs, NumberContract nt b.qty ∧ NumberContract nt b.minutes) →
      (Values.ofList (bs.map ofBlock)).Storable nt
  | [], _ => trivial
  | b :: bs, h =>
    ⟨ofBlock_storable nt b (h b (List.mem_cons_self _ _)),
     blocks_storable nt bs (fun x hx => h x (List.mem_cons_of_mem _ hx))⟩

/-- A workout whose quantities and minutes the platform writes as texts that read back is
storable. -/
theorem ofWorkout_storable (nt : ℚ → Str) (w : Workout)
    (h : ∀ b ∈ w.blocks, NumberContract nt b.qty ∧ NumberContract nt b.minutes) :
    (ofWorkout w).Storable nt := by
  have hk : List.Pairwise KeyBefore ["id".toList, "createdAt".toList, "date".toList,
      "athlete".toList, "goal".toList, "blocks".toList] := by
    decide
  refine ⟨?_, hk⟩
  simp only [Props.ofList, Props.Storable, Value.Storable, and_true, true_and]
  exact blocks_storable nt w.blocks h

end JSON

namespace Sample
open JSON Double

theorem workoutA_storable : (ofWorkout workoutA).Storable numberText := by
  apply ofWorkout_storable
  intro b hb
  simp only [workoutA, List.mem_cons, List.mem_singleton, List.not_mem_nil, or_false] at hb
  rcases hb with rfl | rfl
  · exact ⟨contract_three, contract_ten⟩
  · exact ⟨contract_one, contract_five⟩

theorem workoutB_storable : (ofWorkout workoutB).Storable numberText :=
  ofWorkout_storable _ _ (fun b hb => by simp [workoutB] at hb)

theorem overflowEvaluationLoaded_storable : overflowEvaluationLoaded.Storable numberText := by
  refine ⟨?_, by decide⟩
  simp only [Props.ofList, Props.Storable, Value.Storable, and_true, true_and]
  exact ⟨contract_two_pow_1023, contract_zero, contract_two, contract_zero, contract_zero,
    contract_zero, contract_zero, contract_zero, contract_zero, contract_zero, contract_zero⟩

theorem stringify_overflowEvaluation :
    Storage.stringify (JSON.codec numberText) [overflowEvaluation] =
      Storage.stringify (JSON.codec numberText) [overflowEvaluationLoaded] := by
  unfold overflowEvaluation
  rw [calcMetrics_overflowInput]
  rfl

theorem overflowEvaluation_ne : overflowEvaluationLoaded ≠ overflowEvaluation := by
  unfold overflowEvaluation
  rw [calcMetrics_overflowInput]
  intro h
  simp [overflowEvaluationLoaded, evaluationRecord, Props.ofList] at h

end Sample

namespace JSON

theorem digitChar_spec (d : ℕ) (hd : d < 10) :
    isDigit (Char.ofNat (48 + d)) = true ∧ (Char.ofNat (48 + d)).toNat - 48 = d ∧
    (d ≠ 0 → Char.ofNat (48 + d) ≠ '0') ∧ Char.ofNat (48 + d) ≠ '-' := by
  interval_cases d <;> decide

theorem naturalText_isDigit (n : ℕ) : ∀ c ∈ naturalText n, isDigit c = true := by
  intro c hc
  unfold naturalText at hc
  split_ifs at hc with h0
  · rw [List.mem_singleton] at hc
    subst hc; decide
  · obtain ⟨d, hd, rfl⟩ := List.mem_map.mp hc
    exact (digitChar_spec d (Nat.digits_lt_base (by norm_num) (List.mem_reverse.mp hd))).1

theorem digitsValue_map (L : List ℕ) (h : ∀ d ∈ L, d < 10) :
    digitsValue (L.reverse.map (fun d => Char.ofNat (48 + d))) = Nat.ofDigits 10 L := by
  unfold digitsValue
  rw [List.foldl_map, List.foldl_reverse]
  induction L with
  | nil => rfl
  | cons d L ih =>
    rw [List.foldr_cons, ih (fun x hx => h x (List.mem_cons_of_mem _ hx)), Nat.ofDigits_cons,
      (digitChar_spec d (h d (List.mem_cons_self _ _))).2.1]
    ring

theorem digitsValue_naturalText (n : ℕ) : digitsValue (naturalText n) = n := by
  unfold naturalText
  split_ifs with h0
  · subst h0; rfl
  · rw [digitsValue_map _ (fun d hd => Nat.digits_lt_base (by norm_num) hd), Nat.ofDigits_digits]

theorem naturalText_head (n : ℕ) :
    ∃ c cs, naturalText n = c :: cs ∧ isDigit c = true ∧ c ≠ '-' ∧
      (c = '0' → n = 0 ∧ cs = []) := by
  unfold naturalText
  split_ifs with h0
  · exact ⟨'0', [], rfl, by decide, by decide, fun _ => ⟨h0, rfl⟩⟩
  · have hne : Nat.digits 10 n ≠ [] := Nat.digits_ne_nil_iff_ne_zero.mpr h0
    have hlast := Nat.getLast_digit_ne_zero 10 h0
    have hrev : (Nat.digits 10 n).reverse =
        (Nat.digits 10 n).getLast hne :: (Nat.digits 10 n).dropLast.reverse := by
      conv_lhs => rw [← List.dropLast_append_getLast hne]
      simp
    have hlt : (Nat.digits 10 n).getLast hne < 10 :=
      Nat.digits_lt_base (by norm_num) (List.getLast_mem hne)
    have hs := digitChar_spec _ hlt
    refine ⟨Char.ofNat (48 + (Nat.digits 10 n).getLast hne),
      (Nat.digits 10 n).dropLast.reverse.map (fun d => Char.ofNat (48 + d)), ?_, hs.1,
      hs.2.2.2, ?_⟩
    · rw [hrev, List.map_cons]
    · intro hc
      exact absurd hc (hs.2.2.1 hlast)

theorem takeDigits_append (d : Char) (rest : Str) (hd : isDigit d = false) :
    ∀ s : Str, (∀ c ∈ s, isDigit c = true) → takeDigits (s ++ d :: rest) = (s, d :: rest) := by
  intro s
  induction s with
  | nil => intro _; simp [takeDigits, hd]
  | cons c cs ih =>
    intro h
    have hc := h c (List.mem_cons_self _ _)
    have ih' := ih (fun x hx => h x (List.mem_cons_of_mem _ hx))
    simp [takeDigits, hc, ih']

theorem IsDelimiter.not_number {d : Char} (hd : IsDelimiter d) :
    isDigit d = false ∧ d ≠ '.' ∧ d ≠ 'e' ∧ d ≠ 'E' := by
  rcases hd with h | h | h <;> subst h <;> decide

theorem readUnsignedNumber_naturalText (n : ℕ) (d : Char) (rest : Str) (hd : IsDelimiter d) :
    readUnsignedNumber (naturalText n ++ d :: rest) = some ((n : ℚ), d :: rest) := by
  obtain ⟨hdig, hdot, he, hE⟩ := hd.not_number
  have htake := takeDigits_append d rest hdig (naturalText n) (naturalText_isDigit n)
  obtain ⟨c, cs, hc, hcd, -, hzero⟩ := naturalText_head n
  have hint : readInt (naturalText n ++ d :: rest) = some (n, d :: rest) := by
    rw [hc] at htake ⊢
    rw [List.cons_append] at htake ⊢
    by_cases h0 : c = '0'
    · obtain ⟨hn, hcs⟩ := hzero h0
      subst hn hcs h0
      simp [readInt]
    · have hv := digitsValue_naturalText n
      rw [hc] at hv
      simp only [readInt, if_neg h0, hcd, if_true, htake, hv]
  have hfrac : readFrac (d :: rest) = some (0, 0, d :: rest) := by
    unfold readFrac
    split
    · rename_i heq
      exact absurd (List.cons.inj heq).1 hdot
    · rfl
  have hexp : readExp (d :: rest) = some (0, d :: rest) := by
    simp [readExp, he, hE]
  simp [readUnsignedNumber, hint, hfrac, hexp]

theorem readNumber_wholeText (z : ℤ) (d : Char) (rest : Str) (hd : IsDelimiter d) :
    readNumber (wholeText z ++ d :: rest) = some (Double.ofRat z, d :: rest) := by
  unfold wholeText
  split_ifs with hz
  · rw [List.cons_append, readNumber]
    simp only [if_true, readUnsignedNumber_naturalText _ d rest hd, Option.map_some']
    congr 2
    have : ((z.natAbs : ℤ) : ℚ) = -(z : ℚ) := by
      rw [Int.ofNat_natAbs_of_nonpos hz.le]; push_cast; ring
    have h2 : ((z.natAbs : ℕ) : ℚ) = ((z.natAbs : ℤ) : ℚ) := (Int.cast_natCast _).symm
    rw [h2, this, neg_neg]
  · obtain ⟨c, cs, hc, -, hminus, -⟩ := naturalText_head z.natAbs
    have h := readUnsignedNumber_naturalText z.natAbs d rest hd
    rw [hc] at h ⊢
    rw [List.cons_append] at h ⊢
    rw [readNumber]
    simp only [if_neg hminus, h, Option.map_some']
    congr 2
    have h2 : ((z.natAbs : ℕ) : ℚ) = ((z.natAbs : ℤ) : ℚ) := (Int.cast_natCast _).symm
    rw [h2, Int.natAbs_of_nonneg (not_lt.mp hz)]


end JSON

namespace Double

/-- Every integer up to `2 ^ 53` in magnitude is a double. -/
theorem ofRat_intCast (z : ℤ) (hz : |z| ≤ 2 ^ 53) : ofRat (z : ℚ) = finite (z : ℚ) := by
  by_cases h0 : z = 0
  · subst h0
    simpa using ofRat_zero
  have hn0 : z.natAbs ≠ 0 := Int.natAbs_ne_zero.mpr h0
  have habs : |(z : ℚ)| = (z.natAbs : ℚ) := by
    rw [← Int.cast_abs, Int.abs_eq_natAbs, Int.cast_natCast]
  have hle : z.natAbs ≤ 2 ^ 53 := by
    have : (z.natAbs : ℤ) ≤ 2 ^ 53 := by rw [← Int.abs_eq_natAbs]; exact hz
    exact_mod_cast this
  have hlt1024 : |(z : ℚ)| < (2 : ℚ) ^ 1024 := by
    rw [habs]
    calc (z.natAbs : ℚ) ≤ ((2 ^ 53 : ℕ) : ℚ) := by exact_mod_cast hle
      _ < (2 : ℚ) ^ 1024 := by norm_num
  have h1 : 2 ^ Nat.log 2 z.natAbs ≤ z.natAbs := Nat.pow_log_le_self 2 hn0
  have h2 : z.natAbs < 2 ^ (Nat.log 2 z.natAbs + 1) := Nat.lt_pow_succ_log_self (by norm_num) _
  have he : Nat.log 2 z.natAbs ≤ 53 := by
    by_contra hc
    push_neg at hc
    have : 2 ^ 54 ≤ 2 ^ Nat.log 2 z.natAbs := Nat.pow_le_pow_right (by norm_num) hc
    omega
  have hq1 : (2 : ℚ) ^ ((Nat.log 2 z.natAbs : ℕ) : ℤ) ≤ |(z : ℚ)| := by
    rw [habs, zpow_natCast]
    exact_mod_cast h1
  have hq2 : |(z : ℚ)| < (2 : ℚ) ^ (((Nat.log 2 z.natAbs : ℕ) : ℤ) + 1) := by
    rw [habs]
    have : (((Nat.log 2 z.natAbs : ℕ) : ℤ) + 1) = ((Nat.log 2 z.natAbs + 1 : ℕ) : ℤ) := by
      push_cast; rfl
    rw [this, zpow_natCast]
    exact_mod_cast h2
  rcases Nat.lt_or_ge (Nat.log 2 z.natAbs) 53 with hlt | hge
  · refine ofRat_exact (z : ℚ) (Nat.log 2 z.natAbs : ℕ) (z * 2 ^ (52 - Nat.log 2 z.natAbs))
      (by omega) hq1 hq2 ?_ hlt1024
    have hsplit : (((Nat.log 2 z.natAbs : ℕ) : ℤ) - 52) =
        -((52 - Nat.log 2 z.natAbs : ℕ) : ℤ) := by
      omega
    rw [hsplit, zpow_neg, zpow_natCast]
    push_cast
    field_simp
  · have he53 : Nat.log 2 z.natAbs = 53 := le_antisymm he hge
    have hz53 : z.natAbs = 2 ^ 53 := by
      rw [he53] at h1
      omega
    rw [he53] at hq1 hq2
    rcases Int.natAbs_eq z with hzz | hzz
    · have : (z : ℚ) = 2 ^ 53 := by
        rw [hzz, hz53]; push_cast; rfl
      rw [this]
      exact ofRat_exact _ 53 4503599627370496 (by norm_num) (by norm_num) (by norm_num)
        (by norm_num) (by norm_num)
    · have : (z : ℚ) = -2 ^ 53 := by
        rw [hzz, hz53]; push_cast; rfl
      rw [this]
      exact ofRat_exact _ 53 (-4503599627370496) (by norm_num) (by norm_num) (by norm_num)
        (by norm_num) (by norm_num)

end Double

namespace JSON

/-- A platform that writes the integers by their decimal digits keeps the contract of the
number text for every integer up to `2 ^ 53` in magnitude. -/
theorem contract_of_whole (numText : ℚ → Str) (h : WritesWholeNumbers numText) (z : ℤ)
    (hz : |z| ≤ 2 ^ 53) : NumberContract numText z := by
  intro d rest hd
  rw [h z hz, readNumber_wholeText z d rest hd, Double.ofRat_intCast z hz]

/-- The workouts whose quantities and minutes are integers are storable on a platform that
writes the integers by their decimal digits. -/
theorem workouts_storable (numText : ℚ → Str) (h : WritesWholeNumbers numText)
    (ws : List Workout)
    (hw : ∀ w ∈ ws, ∀ b ∈ w.blocks, IsWholeDouble b.qty ∧ IsWholeDouble b.minutes) :
    ∀ v ∈ ws.map ofWorkout, v.Storable numText := by
  intro v hv
  obtain ⟨w, hmem, rfl⟩ := List.mem_map.mp hv
  apply ofWorkout_storable
  intro b hb
  obtain ⟨⟨z1, hq, hz1⟩, ⟨z2, hm, hz2⟩⟩ := hw w hmem b hb
  rw [hq, hm]
  exact ⟨contract_of_whole numText h z1 hz1, contract_of_whole numText h z2 hz2⟩

end JSON

namespace Sample
open JSON

theorem decimalText_writesWholeNumbers : WritesWholeNumbers decimalText := by
  intro z _
  unfold decimalText
  rw [Rat.intCast_num]

theorem sample_blocks_whole :
    ∀ w ∈ [workoutA, workoutB], ∀ b ∈ w.blocks,
      IsWholeDouble b.qty ∧ IsWholeDouble b.minutes := by
  intro w hw b hb
  simp only [List.mem_cons, List.mem_singleton, List.not_mem_nil, or_false] at hw
  rcases hw with rfl | rfl
  · simp only [workoutA, List.mem_cons, List.mem_singleton, List.not_mem_nil, or_false] at hb
    rcases hb with rfl | rfl
    · exact ⟨⟨3, by norm_num [blockA], by norm_num⟩, ⟨10, by norm_num [blockA], by norm_num⟩⟩
    · exact ⟨⟨1, by norm_num [blockB], by norm_num⟩, ⟨5, by norm_num [blockB], by norm_num⟩⟩
  · simp [workoutB] at hb

end Sample

namespace Storage
open JSON

/-- Claim C10, as the code has it.  For each of the three collections, and for every key,
after `save` of a sequence of storable records the next `load` returns exactly that
sequence (same records, same order, same fields), whatever the store held before.  A record
is storable when every number in it is finite; `JSON.stringify` and `JSON.parse` are the
texts and the reader of `JSON`, the text of a finite number being the platform's, which
reads back as the number.  In particular, on a platform that writes the integers by their
decimal digits, every sequence of workouts whose quantities and minutes are integers of at
most `2 ^ 53` in magnitude is loaded back as it was saved. -/
theorem save_then_load (numText : ℚ → Str) (ls : LocalStorage) :
    (∀ data : List Value, (∀ v ∈ data, v.Storable numText) →
      getWorkouts (codec numText) (saveWorkouts (codec numText) ls data) = .ok data ∧
      getFeedbacks (codec numText) (saveFeedbacks (codec numText) ls data) = .ok data ∧
      getEvaluations (codec numText) (saveEvaluations (codec numText) ls data) = .ok data ∧
      ∀ key : Str, load (codec numText) (save (codec numText) ls key data) key = .ok data) ∧
    (WritesWholeNumbers numText → ∀ ws : List Workout,
      (∀ w ∈ ws, ∀ b ∈ w.blocks, IsWholeDouble b.qty ∧ IsWholeDouble b.minutes) →
      getWorkouts (codec numText) (saveWorkouts (codec numText) ls (ws.map ofWorkout))
        = .ok (ws.map ofWorkout)) := by
  have key : ∀ data : List Value, (∀ v ∈ data, v.Storable numText) →
      ∀ k : Str, load (codec numText) (save (codec numText) ls k data) k = .ok data :=
    fun data h k => load_save_of_roundtrip _ ls k data (codec_roundtrip numText data h)
  refine ⟨fun data h => ⟨key data h _, key data h _, key data h _, key data h⟩,
    fun hnum ws hw => key _ (workouts_storable numText hnum ws hw) _⟩

/-- Claim C10 on two workouts, one with two blocks, saved over a store that held one
workout; and the same two workouts on a platform that writes the integers by their decimal
digits. -/
theorem save_then_load_witness :
    (∀ v ∈ [ofWorkout Sample.workoutA, ofWorkout Sample.workoutB],
      v.Storable Sample.numberText) ∧
    getWorkouts (codec Sample.numberText)
      (saveWorkouts (codec Sample.numberText)
        (saveWorkouts (codec Sample.numberText) emptyStorage [ofWorkout Sample.workoutB])
        [ofWorkout Sample.workoutA, ofWorkout Sample.workoutB])
      = .ok [ofWorkout Sample.workoutA, ofWorkout Sample.workoutB] ∧
    WritesWholeNumbers Sample.decimalText ∧
    getWorkouts (codec Sample.decimalText)
      (saveWorkouts (codec Sample.decimalText) emptyStorage
        ([Sample.workoutA, Sample.workoutB].map ofWorkout))
      = .ok ([Sample.workoutA, Sample.workoutB].map ofWorkout) :=
  have h : ∀ v ∈ [ofWorkout Sample.workoutA, ofWorkout Sample.workoutB],
      v.Storable Sample.numberText := by
    intro v hv
    simp only [List.mem_cons, List.mem_singleton, List.not_mem_nil, or_false] at hv
    rcases hv with rfl | rfl
    · exact Sample.workoutA_storable
    · exact Sample.workoutB_storable
  ⟨h, ((save_then_load Sample.numberText _).1 _ h).1, Sample.decimalText_writesWholeNumbers,
   (save_then_load Sample.decimalText _).2 Sample.decimalText_writesWholeNumbers _
     Sample.sample_blocks_whole⟩

/-- Claim C10, the case it gets wrong: the evaluation that `saveEvaluation` builds for `rpe`
2 and a duration of `2 ^ 1023` has `physicalLoad` `Infinity`; `save` writes it as `null`,
and the next `load` returns the record with `physicalLoad` `null`, which is not the record
that was saved. -/
theorem save_then_load_infinity :
    (Evaluation.calcMetrics Sample.overflowInput).physicalLoad = Double.posInf ∧
    getEvaluations (codec Sample.numberText)
      (saveEvaluations (codec Sample.numberText) emptyStorage [Sample.overflowEvaluation])
      = .ok [Sample.overflowEvaluationLoaded] ∧
    getEvaluations (codec Sample.numberText)
      (saveEvaluations (codec Sample.numberText) emptyStorage [Sample.overflowEvaluation])
      ≠ .ok [Sample.overflowEvaluation] := by
  have hload : getEvaluations (codec Sample.numberText)
      (saveEvaluations (codec Sample.numberText) emptyStorage [Sample.overflowEvaluation])
      = .ok [Sample.overflowEvaluationLoaded] := by
    have hrt := codec_roundtrip Sample.numberText [Sample.overflowEvaluationLoaded]
      (by
        intro v hv
        rw [List.mem_singleton] at hv
        rw [hv]; exact Sample.overflowEvaluationLoaded_storable)
    unfold getEvaluations saveEvaluations
    rw [load_save_same, Sample.stringify_overflowEvaluation, hrt]
  refine ⟨by rw [Sample.calcMetrics_overflowInput], hload, ?_⟩
  rw [hload]
  intro h
  have h2 : [Sample.overflowEvaluationLoaded] = [Sample.overflowEvaluation] := Except.ok.inj h
  exact Sample.overflowEvaluation_ne (List.head_eq_of_cons_eq h2)

end Storage

namespace DataTab

theorem replaceQuotes_eq_flatMap (s : Str) :
    replaceQuotes s = s.flatMap (fun ch => if ch = dquote then [dquote, dquote] else [ch]) := by
  induction s with
  | nil => rfl
  | cons c cs ih =>
    by_cases hc : c = dquote
    · simp [replaceQuotes, hc, ih, List.flatMap_cons]
    · simp [replaceQuotes, hc, ih, List.flatMap_cons]

theorem length_le_replaceQuotes (s : Str) : s.length ≤ (replaceQuotes s).length := by
  induction s with
  | nil => simp [replaceQuotes]
  | cons c cs ih =>
    by_cases hc : c = dquote
    · simp only [replaceQuotes, if_pos hc, List.length_cons]; omega
    · simp only [replaceQuotes, if_neg hc, List.length_cons]; omega

theorem contains_or_iff (s : Str) :
    (s.contains comma || s.contains dquote || s.contains newline) = true ↔ NeedsQuoting s := by
  simp [NeedsQuoting, or_assoc]

theorem csvEscape_of_needs (nts : ℚ → Str) (v : FieldVal) (h : NeedsQuoting (jsString nts v)) :
    csvEscape nts v = dquote :: (replaceQuotes (jsString nts v) ++ [dquote]) := by
  unfold csvEscape
  simp only
  rw [if_pos ((contains_or_iff _).mpr h)]

theorem csvEscape_of_not_needs (nts : ℚ → Str) (v : FieldVal)
    (h : ¬ NeedsQuoting (jsString nts v)) : csvEscape nts v = jsString nts v := by
  unfold csvEscape
  simp only
  rw [if_neg (fun hc => h ((contains_or_iff _).mp hc))]

theorem quoted_eq (s : Str) : quoted s = dquote :: (replaceQuotes s ++ [dquote]) := by
  simp [quoted, replaceQuotes_eq_flatMap]

theorem quoted_ne_self (s : Str) : quoted s ≠ s := by
  intro h
  have hl := congrArg List.length h
  rw [quoted_eq] at hl
  have := length_le_replaceQuotes s
  simp at hl
  omega

/-- Claim C4.  For every field value, `csvEscape` returns its string form wrapped in double
quotes with every internal double quote doubled when the string form contains a comma, a
double quote or a newline, and the string form itself, unchanged and unquoted, if and only
if it contains none of the three.  The string form of a string is the string, that of a
number is the text the platform writes for it, and that of `null` and of `undefined` is the
empty string, which is returned as it is. -/
theorem csvEscape_spec (nts : ℚ → Str) :
    (∀ s : Str,
      csvEscape nts (FieldVal.str s) = (if NeedsQuoting s then quoted s else s) ∧
      (csvEscape nts (FieldVal.str s) = s ↔ ¬ NeedsQuoting s)) ∧
    (∀ q : ℚ,
      csvEscape nts (FieldVal.num q) =
        (if NeedsQuoting (nts q) then quoted (nts q) else nts q) ∧
      (csvEscape nts (FieldVal.num q) = nts q ↔ ¬ NeedsQuoting (nts q))) ∧
    csvEscape nts FieldVal.null = [] ∧
    csvEscape nts FieldVal.undefined = [] := by
  have key : ∀ (v : FieldVal) (t : Str), jsString nts v = t →
      csvEscape nts v = (if NeedsQuoting t then quoted t else t) ∧
      (csvEscape nts v = t ↔ ¬ NeedsQuoting t) := by
    intro v t ht
    subst ht
    have h1 : csvEscape nts v =
        (if NeedsQuoting (jsString nts v) then quoted (jsString nts v) else jsString nts v) := by
      by_cases h : NeedsQuoting (jsString nts v)
      · rw [if_pos h, csvEscape_of_needs nts v h, quoted_eq]
      · rw [if_neg h, csvEscape_of_not_needs nts v h]
    refine ⟨h1, fun he => ?_, fun hn => csvEscape_of_not_needs nts v hn⟩
    intro hq
    rw [h1, if_pos hq] at he
    exact quoted_ne_self _ he
  refine ⟨fun s => key _ s rfl, fun q => key _ (nts q) rfl, ?_, ?_⟩
  · exact (key FieldVal.null [] rfl).2.mpr (by simp [NeedsQuoting])
  · exact (key FieldVal.undefined [] rfl).2.mpr (by simp [NeedsQuoting])

/-- Reading back a quoted field. -/
theorem parseQuoted_replaceQuotes (rest : Str) (hrest : ∀ d ds, rest = d :: ds → d ≠ dquote) :
    ∀ s : Str, parseQuoted (replaceQuotes s ++ dquote :: rest) = some (s, rest) := by
  intro s
  induction s with
  | nil =>
    cases rest with
    | nil => simp [replaceQuotes, parseQuoted]
    | cons d ds =>
      have hd := hrest d ds rfl
      simp [replaceQuotes, parseQuoted, hd]
  | cons c cs ih =>
    by_cases hc : c = dquote
    · subst hc
      simp [replaceQuotes, parseQuoted, ih]
    · have hstep : parseQuoted (c :: (replaceQuotes cs ++ dquote :: rest)) =
          (parseQuoted (replaceQuotes cs ++ dquote :: rest)).map (fun p => (c :: p.1, p.2)) := by
        rw [parseQuoted.eq_def]; simp only [if_neg hc]
      simp [replaceQuotes, hc, hstep, ih]

theorem parseUnquoted_append (rest : Str)
    (hrest : ∀ d ds, rest = d :: ds → IsSeparator d) :
    ∀ s : Str, comma ∉ s → newline ∉ s → carriageReturn ∉ s →
      parseUnquoted (s ++ rest) = (s, rest) := by
  intro s
  induction s with
  | nil =>
    intro _ _ _
    cases rest with
    | nil => simp [parseUnquoted]
    | cons d ds =>
      have hd : d = comma ∨ d = newline ∨ d = carriageReturn := hrest d ds rfl
      simp [parseUnquoted, hd]
  | cons c cs ih =>
    intro h1 h2 h3
    have hc1 : c ≠ comma := fun h => h1 (h ▸ List.mem_cons_self _ _)
    have hc2 : c ≠ newline := fun h => h2 (h ▸ List.mem_cons_self _ _)
    have hc3 : c ≠ carriageReturn := fun h => h3 (h ▸ List.mem_cons_self _ _)
    have ih' := ih (fun h => h1 (List.mem_cons_of_mem _ h)) (fun h => h2 (List.mem_cons_of_mem _ h))
      (fun h => h3 (List.mem_cons_of_mem _ h))
    simp [parseUnquoted, hc1, hc2, hc3, ih']

theorem parseUnquoted_snd_ne_nil : ∀ s : Str, carriageReturn ∈ s → (parseUnquoted s).2 ≠ [] := by
  intro s
  induction s with
  | nil => intro h; cases h
  | cons c cs ih =>
    intro h
    by_cases hc : c = comma ∨ c = newline ∨ c = carriageReturn
    · simp [parseUnquoted, hc]
    · have hcr : c ≠ carriageReturn := fun h => hc (Or.inr (Or.inr h))
      have hmem : carriageReturn ∈ cs := by
        rcases List.mem_cons.mp h with h | h
        · exact absurd h.symm hcr
        · exact h
      have := ih hmem
      simp only [parseUnquoted, if_neg hc]
      exact this

theorem parseField_csvEscape (nts : ℚ → Str) (s rest : Str)
    (hs : NeedsQuoting s ∨ carriageReturn ∉ s)
    (hrest : ∀ d ds, rest = d :: ds → IsSeparator d) :
    parseField (csvEscape nts (FieldVal.str s) ++ rest) = some (s, rest) := by
  by_cases h : NeedsQuoting (jsString nts (FieldVal.str s))
  · rw [csvEscape_of_needs nts _ h]
    have hr : ∀ d ds, rest = d :: ds → d ≠ dquote := by
      intro d ds hd
      rcases hrest d ds hd with h | h | h <;> rw [h] <;> decide
    have := parseQuoted_replaceQuotes rest hr s
    simpa [parseField, jsString] using this
  · rw [csvEscape_of_not_needs nts _ h]
    have hcr : carriageReturn ∉ s := by
      rcases hs with hs | hs
      · exact absurd hs h
      · exact hs
    simp only [jsString, NeedsQuoting, not_or] at h ⊢
    obtain ⟨h1, h2, h3⟩ := h
    have hu := parseUnquoted_append rest hrest s h1 h3 hcr
    cases s with
    | nil =>
      cases rest with
      | nil => simp [parseField]
      | cons d ds =>
        have hd : d ≠ dquote := by
          rcases hrest d ds rfl with h | h | h <;> rw [h] <;> decide
        simp only [List.nil_append] at hu ⊢
        simp [parseField, hd, hu]
    | cons c cs =>
      have hc : c ≠ dquote := fun h => h2 (h ▸ List.mem_cons_self _ _)
      simp only [List.cons_append] at hu ⊢
      simp [parseField, hc, hu]

theorem parseField_bare_carriageReturn (nts : ℚ → Str) (s : Str)
    (hq : ¬ NeedsQuoting s) (hcr : carriageReturn ∈ s) :
    parseField (csvEscape nts (FieldVal.str s)) ≠ some (s, []) := by
  rw [csvEscape_of_not_needs nts (FieldVal.str s) hq]
  simp only [jsString]
  cases s with
  | nil => cases hcr
  | cons c cs =>
    have hc : c ≠ dquote := fun h => hq (Or.inr (Or.inl (h ▸ List.mem_cons_self _ _)))
    simp only [parseField, if_neg hc]
    intro h
    have h2 := parseUnquoted_snd_ne_nil (c :: cs) hcr
    have : (parseUnquoted (c :: cs)).2 = [] := by
      have := Option.some.inj h
      rw [this]
    exact h2 this

/-- Claim C5, as the code has it.  Reading `csvEscape(s)` as one CSV field by the standard
rules gives back exactly `s`, with nothing left unread, if and only if `s` contains a comma,
a double quote or a line feed (then it is written quoted) or contains no carriage return;
for such an `s` the field is read back as `s` in front of every separator as well, the
unread text starting at that separator. -/
theorem csv_field_roundtrip (nts : ℚ → Str) (s : Str) :
    (parseField (csvEscape nts (FieldVal.str s)) = some (s, []) ↔
      (NeedsQuoting s ∨ carriageReturn ∉ s)) ∧
    ((NeedsQuoting s ∨ carriageReturn ∉ s) →
      ∀ (d : Char) (rest : Str), IsSeparator d →
        parseField (csvEscape nts (FieldVal.str s) ++ d :: rest) = some (s, d :: rest)) := by
  refine ⟨⟨fun h => ?_, fun h => ?_⟩, fun h d rest hd => ?_⟩
  · by_contra hn
    rw [not_or, not_not] at hn
    exact parseField_bare_carriageReturn nts s hn.1 hn.2 h
  · have := parseField_csvEscape nts s [] h (by intro d ds h; cases h)
    simpa using this
  · exact parseField_csvEscape nts s _ h (by intro d' ds h; cases h; exact hd)

/-- Claim C5 on a notes value with a comma and double quotes, alone and in front of a
comma. -/
theorem csv_field_roundtrip_witness :
    (NeedsQuoting Sample.blockA.notes ∨ carriageReturn ∉ Sample.blockA.notes) ∧
    parseField (csvEscape Sample.wholeNumberToString (FieldVal.str Sample.blockA.notes))
      = some (Sample.blockA.notes, []) ∧
    parseField (csvEscape Sample.wholeNumberToString (FieldVal.str Sample.blockA.notes)
        ++ comma :: "5".toList)
      = some (Sample.blockA.notes, comma :: "5".toList) :=
  ⟨Or.inl (by decide),
   (csv_field_roundtrip Sample.wholeNumberToString Sample.blockA.notes).1.mpr
     (Or.inl (by decide)),
   (csv_field_roundtrip Sample.wholeNumberToString Sample.blockA.notes).2
     (Or.inl (by decide)) comma "5".toList (Or.inl rfl)⟩

/-- Claim C5, the case it misses: `csvEscape` leaves `a`, carriage return, `b` unquoted,
and the field read back by the standard rules is `a`. -/
theorem csv_field_bare_carriageReturn :
    csvEscape Sample.wholeNumberToString (FieldVal.str Sample.bareReturnNotes) = Sample.bareReturnNotes ∧
    parseField (csvEscape Sample.wholeNumberToString (FieldVal.str Sample.bareReturnNotes))
      = some (['a'], [carriageReturn, 'b']) ∧
    parseField (csvEscape Sample.wholeNumberToString (FieldVal.str Sample.bareReturnNotes))
      ≠ some (Sample.bareReturnNotes, []) := by
  refine ⟨by decide, by decide, by decide⟩

theorem foldl_push_blocks (w : Workout) :
    ∀ (bs : List Block) (rows : List (List FieldVal)),
      bs.foldl (fun rows b => rows ++ [blockRow w b]) rows = rows ++ bs.map (blockRow w) := by
  intro bs
  induction bs with
  | nil => intro rows; simp
  | cons b bs ih => intro rows; simp [ih]

/-- The rows one workout contributes. -/
theorem workout_step (w : Workout) (rows : List (List FieldVal)) :
    (if w.blocks.length = 0 then rows ++ [emptyBlockRow w]
      else w.blocks.foldl (fun rows b => rows ++ [blockRow w b]) rows) =
    rows ++ (match w.blocks with
      | [] => [emptyBlockRow w]
      | b :: bs => (b :: bs).map (blockRow w)) := by
  cases hb : w.blocks with
  | nil => simp
  | cons b bs => simp [foldl_push_blocks]

theorem foldl_workouts :
    ∀ (ws : List Workout) (rows : List (List FieldVal)),
      ws.foldl (fun rows w =>
        if w.blocks.length = 0 then rows ++ [emptyBlockRow w]
        else w.blocks.foldl (fun rows b => rows ++ [blockRow w b]) rows) rows =
      rows ++ ws.flatMap (fun w =>
        match w.blocks with
        | [] => [emptyBlockRow w]
        | b :: bs => (b :: bs).map (blockRow w)) := by
  intro ws
  induction ws with
  | nil => intro rows; simp
  | cons w ws ih =>
    intro rows
    rw [List.foldl_cons, workout_step, ih, List.flatMap_cons, List.append_assoc]

theorem buildRows_eq_specRows (ws : List Workout) : buildRows ws = specRows ws := by
  unfold buildRows specRows
  rw [foldl_workouts]
  rfl

theorem specRows_length_eleven (ws : List Workout) : ∀ r ∈ specRows ws, r.length = 11 := by
  intro r hr
  unfold specRows at hr
  rcases List.mem_cons.mp hr with h | h
  · rw [h]; rfl
  · obtain ⟨w, _, hw⟩ := List.mem_flatMap.mp h
    cases hb : w.blocks with
    | nil =>
      rw [hb] at hw
      simp only [List.mem_singleton] at hw
      rw [hw]; rfl
    | cons b bs =>
      rw [hb] at hw
      obtain ⟨b', _, hb'⟩ := List.mem_map.mp hw
      rw [← hb']; rfl

theorem specRows_length (ws : List Workout) :
    (specRows ws).length =
      1 + (ws.map (fun w => if w.blocks.length = 0 then 1 else w.blocks.length)).sum := by
  unfold specRows
  rw [List.length_cons, Nat.add_comm]
  congr 1
  induction ws with
  | nil => rfl
  | cons w ws ih =>
    rw [List.flatMap_cons, List.length_append, ih, List.map_cons, List.sum_cons]
    congr 1
    cases hb : w.blocks with
    | nil => rfl
    | cons b bs => simp

theorem exportCSV_eq (c : Storage.JSONCodec Workout) (nts : ℚ → Str) (ls : Storage.LocalStorage)
    (ws : List Workout) (hload : Storage.getWorkouts c ls = .ok ws) :
    exportCSV c nts ls = .ok
      (if ws = [] then [Effect.toast "Sem treinos para exportar.".toList ToastKind.error]
       else [Effect.download "gripmetrics-workouts.csv".toList "text/csv".toList
               (csvText nts (buildRows ws)),
             Effect.toast "CSV exportado!".toList ToastKind.success]) := by
  unfold exportCSV
  rw [hload]
  cases ws with
  | nil => rfl
  | cons w ws => rfl

/-- Claim C6.  When the stored workouts are a non-empty list, `exportCSV` hands over the
text of the row table `buildRows`, and that table is the row of the names in
`workout_id,date,athlete,goal,block_id,category,qty,intensity_type,intensity_value,minutes,notes`
followed, workout by workout in stored order, by one row per block in block order, each made
of the workout's id, date, athlete and goal and then the block's id, category, qty,
intensityType, intensityValue, minutes and notes, or by one row of the four workout fields
and seven empty fields for a workout without blocks; every row has 11 fields, and a workout
with `N` blocks contributes `N` rows when `N ≥ 1` and one row when `N = 0`. -/
theorem exportCSV_row_table (c : Storage.JSONCodec Workout) (nts : ℚ → Str)
    (ls : Storage.LocalStorage) (ws : List Workout)
    (hload : Storage.getWorkouts c ls = .ok ws) (hne : ws ≠ []) :
    exportCSV c nts ls = .ok
      [Effect.download "gripmetrics-workouts.csv".toList "text/csv".toList
         (csvText nts (buildRows ws)),
       Effect.toast "CSV exportado!".toList ToastKind.success] ∧
    buildRows ws = specRows ws ∧
    (∀ r ∈ buildRows ws, r.length = 11) ∧
    (buildRows ws).length =
      1 + (ws.map (fun w => if w.blocks.length = 0 then 1 else w.blocks.length)).sum := by
  refine ⟨?_, buildRows_eq_specRows ws, ?_, ?_⟩
  · rw [exportCSV_eq c nts ls ws hload, if_neg hne]
  · rw [buildRows_eq_specRows]; exact specRows_length_eleven ws
  · rw [buildRows_eq_specRows]; exact specRows_length ws

/-- Claim C7.  `exportCSV` always returns; when the stored workouts are empty it shows one
`error` notification and hands over no file; a file is handed over, and a `success`
notification shown, if and only if there is at least one stored workout. -/
theorem exportCSV_guard (c : Storage.JSONCodec Workout) (nts : ℚ → Str)
    (ls : Storage.LocalStorage) :
    ∃ (ws : List Workout) (effects : List Effect),
      Storage.getWorkouts c ls = .ok ws ∧
      exportCSV c nts ls = .ok effects ∧
      effects =
        (if ws = [] then [Effect.toast "Sem treinos para exportar.".toList ToastKind.error]
         else [Effect.download "gripmetrics-workouts.csv".toList "text/csv".toList
                 (csvText nts (buildRows ws)),
               Effect.toast "CSV exportado!".toList ToastKind.success]) ∧
      ((∃ msg, Effect.toast msg ToastKind.error ∈ effects) ↔ ws = []) ∧
      ((∃ f m t, Effect.download f m t ∈ effects) ↔ ws ≠ []) ∧
      ((∃ msg, Effect.toast msg ToastKind.success ∈ effects) ↔ ws ≠ []) := by
  obtain ⟨ws, hws⟩ : ∃ ws, Storage.getWorkouts c ls = .ok ws := ⟨_, Storage.load_eq c ls _⟩
  refine ⟨ws, _, hws, exportCSV_eq c nts ls ws hws, rfl, ?_, ?_, ?_⟩
  all_goals by_cases h : ws = [] <;> simp [h]

/-- Claim C6 on the sample store: two stored workouts, one with two blocks and one with
none, give the header row and three more rows, written out cell by cell. -/
theorem exportCSV_row_table_witness :
    (Storage.getWorkouts Sample.codec Sample.storage = .ok [Sample.workoutA, Sample.workoutB] ∧
      [Sample.workoutA, Sample.workoutB] ≠ []) ∧
    buildRows [Sample.workoutA, Sample.workoutB] =
      [["workout_id", "date", "athlete", "goal", "block_id", "category", "qty",
          "intensity_type", "intensity_value", "minutes", "notes"].map
          (fun name => FieldVal.str name.toList),
       [FieldVal.str "w1".toList, FieldVal.str "2024-01-01".toList, FieldVal.str "Ana".toList,
        FieldVal.str "Grip".toList, FieldVal.str "b1".toList, FieldVal.str "pinch".toList,
        FieldVal.num 3, FieldVal.str "kg".toList, FieldVal.str "20".toList, FieldVal.num 10,
        FieldVal.str Sample.blockA.notes],
       [FieldVal.str "w1".toList, FieldVal.str "2024-01-01".toList, FieldVal.str "Ana".toList,
        FieldVal.str "Grip".toList, FieldVal.str "b2".toList, FieldVal.str "crush".toList,
        FieldVal.num 1, FieldVal.str "rpe".toList, FieldVal.str [], FieldVal.num 5,
        FieldVal.str []],
       [FieldVal.str "w2".toList, FieldVal.str "2024-01-02".toList, FieldVal.str "Bo".toList,
        FieldVal.str "Rest".toList, FieldVal.str [], FieldVal.str [], FieldVal.str [],
        FieldVal.str [], FieldVal.str [], FieldVal.str [], FieldVal.str []]] :=
  ⟨⟨rfl, by decide⟩,
   (exportCSV_row_table Sample.codec Sample.wholeNumberToString Sample.storage
      [Sample.workoutA, Sample.workoutB] rfl (by decide)).2.1.trans rfl⟩

end DataTab

namespace UI

theorem value36_eq_foldl (acc : ℕ) (s : Str) :
    value36 acc s =
      s.foldl (fun a ch => 36 * a + (if ch.toNat < 58 then ch.toNat - 48 else ch.toNat - 87))
        acc := by
  induction s generalizing acc with
  | nil => rfl
  | cons ch rest ih => simp [value36, ih]

theorem value36_append (acc : ℕ) (s t : Str) :
    value36 acc (s ++ t) = value36 (value36 acc s) t := by
  simp [value36_eq_foldl, List.foldl_append]

theorem digit36_spec (d : ℕ) (hd : d < 36) :
    IsDigit36 (digit36 d) ∧
    (if (digit36 d).toNat < 58 then (digit36 d).toNat - 48 else (digit36 d).toNat - 87) = d := by
  interval_cases d <;> decide

theorem toDigits36_acc (fuel : ℕ) :
    ∀ (n : ℕ) (acc : Str), toDigits36 fuel n acc = toDigits36 fuel n [] ++ acc := by
  induction fuel with
  | zero => intro n acc; rfl
  | succ fuel ih =>
    intro n acc
    unfold toDigits36
    by_cases h : n / 36 = 0
    · simp [h]
    · simp only [h, if_false]
      rw [ih (n / 36) (digit36 (n % 36) :: acc), ih (n / 36) [digit36 (n % 36)]]
      simp

theorem toDigits36_spec (fuel : ℕ) :
    ∀ n : ℕ, n < fuel →
      value36 0 (toDigits36 fuel n []) = n ∧ (∀ ch ∈ toDigits36 fuel n [], IsDigit36 ch) ∧
      toDigits36 fuel n [] ≠ [] := by
  induction fuel with
  | zero => intro n hn; omega
  | succ fuel ih =>
    intro n hn
    have hd := digit36_spec (n % 36) (Nat.mod_lt _ (by norm_num))
    unfold toDigits36
    by_cases h : n / 36 = 0
    · simp only [h, if_true]
      refine ⟨?_, ?_, by simp⟩
      · simp only [value36, hd.2]
        have := Nat.div_add_mod n 36
        omega
      · intro ch hch
        simp only [List.mem_singleton] at hch
        rw [hch]; exact hd.1
    · simp only [h, if_false]
      have hlt : n / 36 < fuel := by
        have := Nat.div_add_mod n 36
        omega
      obtain ⟨h1, h2, h3⟩ := ih (n / 36) hlt
      rw [toDigits36_acc]
      refine ⟨?_, ?_, by simp⟩
      · rw [value36_append, h1]
        simp only [value36, hd.2]
        exact Nat.div_add_mod n 36
      · intro ch hch
        rcases List.mem_append.mp hch with hc | hc
        · exact h2 ch hc
        · simp only [List.mem_singleton] at hc
          rw [hc]; exact hd.1

/-- The text of a whole number in base 36 is made of base-36 digits and denotes the number. -/
theorem natToString36_spec (n : ℕ) :
    value36 0 (natToString36 n) = n ∧ (∀ ch ∈ natToString36 n, IsDigit36 ch) ∧
    natToString36 n ≠ [] :=
  toDigits36_spec (n + 1) n (Nat.lt_succ_self n)

theorem slice_length_le (s : Str) (a b : ℕ) : (slice s a b).length ≤ b - a := by
  unfold slice
  simp only [List.length_drop, List.length_take]
  omega

theorem slice_random (fd : ℚ → Str) (r : ℚ) (hr : r ≠ 0) :
    slice (randomToString36 fd r) 2 7 = (fd r).take 5 := by
  unfold slice randomToString36
  rw [if_neg hr]
  simp

/-- Claim C11, as the code has it.  For every timestamp `now` and every draw `r`, `uid()`
is the base-36 text of `now` (made of base-36 digits that denote `now`, when `now` is not
negative), then a hyphen, then the characters at positions 2 to 6 of the base-36 text of
`r`: at most 5 characters, which for `r ≠ 0` are the first 5 digits the platform prints
after `0.`, exactly 5 of them when it prints at least 5, and none at all for `r = 0`. -/
theorem uid_spec (fd : ℚ → Str) (now : ℤ) (r : ℚ) :
    uid fd now r = intToString36 now ++ '-' :: slice (randomToString36 fd r) 2 7 ∧
    (now ≥ 0 → value36 0 (intToString36 now) = now.toNat ∧
      ∀ ch ∈ intToString36 now, IsDigit36 ch) ∧
    (slice (randomToString36 fd r) 2 7).length ≤ 5 ∧
    (r ≠ 0 → slice (randomToString36 fd r) 2 7 = (fd r).take 5) ∧
    (r ≠ 0 → 5 ≤ (fd r).length → (slice (randomToString36 fd r) 2 7).length = 5) ∧
    (r = 0 → slice (randomToString36 fd r) 2 7 = []) := by
  refine ⟨rfl, ?_, slice_length_le _ 2 7, slice_random fd r, ?_, ?_⟩
  · intro h
    have : intToString36 now = natToString36 now.toNat := by
      unfold intToString36
      rw [if_neg (not_lt.mpr h)]
    rw [this]
    exact ⟨(natToString36_spec _).1, (natToString36_spec _).2.1⟩
  · intro hr hlen
    rw [slice_random fd r hr, List.length_take]
    omega
  · intro hr
    subst hr
    rfl

theorem expansion36_zero (count : ℕ) : Sample.expansion36 count 0 = [] := by
  cases count <;> simp [Sample.expansion36]

theorem expansion36_succ (count : ℕ) (r : ℚ) (hr : r ≠ 0) :
    Sample.expansion36 (count + 1) r =
      digit36 (Rat.floor (r * 36)).toNat ::
        Sample.expansion36 count (r * 36 - ((Rat.floor (r * 36) : ℤ) : ℚ)) := by
  rw [Sample.expansion36, if_neg hr]

theorem floor_of (r : ℚ) (z : ℤ) (h1 : (z : ℚ) ≤ r) (h2 : r < z + 1) : Rat.floor r = z :=
  Int.floor_eq_iff.mpr ⟨h1, h2⟩

theorem expansion36_half : Sample.expansion36 11 (1 / 2) = ['i'] := by
  rw [expansion36_succ 10 _ (by norm_num), floor_of _ 18 (by norm_num) (by norm_num)]
  norm_num [expansion36_zero]
  decide

theorem expansion36_sample :
    (Sample.expansion36 11 (123456789 / 1073741824)).take 5 = "450f1".toList := by
  rw [expansion36_succ 10 _ (by norm_num), floor_of _ 4 (by norm_num) (by norm_num),
    expansion36_succ 9 _ (by norm_num), floor_of _ 5 (by norm_num) (by norm_num),
    expansion36_succ 8 _ (by norm_num), floor_of _ 0 (by norm_num) (by norm_num),
    expansion36_succ 7 _ (by norm_num), floor_of _ 15 (by norm_num) (by norm_num),
    expansion36_succ 6 _ (by norm_num), floor_of _ 1 (by norm_num) (by norm_num)]
  decide

/-- Claim C11 fails as written.  For the draw 0 the text of `r` is `0`, the suffix is
empty and `uid()` is `loyw3v28-`; for the draw 1/2 the text is `0.i` and the suffix is the
single character `i`; and with an ordinary draw there is a hyphen between the timestamp and
the 5 characters, so that `uid()` is never the timestamp followed directly by a suffix of
5 characters. -/
theorem uid_suffix_not_five_characters :
    uid Sample.platform.fracDigits36 1700000000000 0 = "loyw3v28-".toList ∧
    uid Sample.platform.fracDigits36 1700000000000 (1 / 2) = "loyw3v28-i".toList ∧
    uid Sample.platform.fracDigits36 1700000000000 (123456789 / 1073741824)
      = "loyw3v28-450f1".toList ∧
    intToString36 1700000000000 = "loyw3v28".toList ∧
    (¬ ∃ suffix : Str, suffix.length = 5 ∧
      uid Sample.platform.fracDigits36 1700000000000 0
        = intToString36 1700000000000 ++ suffix) ∧
    (¬ ∃ suffix : Str, suffix.length = 5 ∧
      uid Sample.platform.fracDigits36 1700000000000 (123456789 / 1073741824)
        = intToString36 1700000000000 ++ suffix) := by
  have h3 : intToString36 1700000000000 = "loyw3v28".toList := by decide
  have hfd : Sample.platform.fracDigits36 = Sample.expansion36 11 := rfl
  have h0 : uid Sample.platform.fracDigits36 1700000000000 0 = "loyw3v28-".toList := by
    decide
  have h1 : uid Sample.platform.fracDigits36 1700000000000 (1 / 2) = "loyw3v28-i".toList := by
    rw [uid, slice_random _ _ (by norm_num), h3, hfd, expansion36_half]
    rfl
  have h2 : uid Sample.platform.fracDigits36 1700000000000 (123456789 / 1073741824)
      = "loyw3v28-450f1".toList := by
    rw [uid, slice_random _ _ (by norm_num), h3, hfd, expansion36_sample]
    rfl
  refine ⟨h0, h1, h2, h3, ?_, ?_⟩
  · rintro ⟨suffix, hlen, h⟩
    rw [h0, h3] at h
    have h' : "loyw3v28".toList ++ ['-'] = "loyw3v28".toList ++ suffix := h
    have hs := List.append_cancel_left h'
    rw [← hs] at hlen
    simp at hlen
  · rintro ⟨suffix, hlen, h⟩
    rw [h2, h3] at h
    have h' : "loyw3v28".toList ++ "-450f1".toList = "loyw3v28".toList ++ suffix := h
    have hs := List.append_cancel_left h'
    rw [← hs] at hlen
    simp at hlen
/-- Claim C11 on a sample draw: the platform prints at least 5 digits after the point, and
the suffix has exactly 5 characters, the first 5 of those digits. -/
theorem uid_spec_witness :
    ((123456789 / 1073741824 : ℚ) ≠ 0 ∧
      5 ≤ (Sample.platform.fracDigits36 (123456789 / 1073741824)).length) ∧
    (slice (randomToString36 Sample.platform.fracDigits36 (123456789 / 1073741824)) 2 7).length
      = 5 := by
  have hr : (123456789 / 1073741824 : ℚ) ≠ 0 := by norm_num
  have hlen : 5 ≤ (Sample.platform.fracDigits36 (123456789 / 1073741824)).length := by
    have h := congrArg List.length expansion36_sample
    rw [List.length_take] at h
    have h5 : ("450f1".toList).length = 5 := rfl
    rw [h5] at h
    show 5 ≤ (Sample.expansion36 11 (123456789 / 1073741824)).length
    omega
  exact ⟨⟨hr, hlen⟩,
    (uid_spec Sample.platform.fracDigits36 1700000000000 (123456789 / 1073741824)).2.2.2.2.1
      hr hlen⟩

end UI

namespace Sample
open Storage

theorem decNat_encNat (n : ℕ) (rest : Str) : decNat (encNat n ++ rest) = some (n, rest) := by
  induction n with
  | zero => simp [encNat, decNat]
  | succ n ih =>
    have h : encNat (n + 1) ++ rest = '1' :: (encNat n ++ rest) := by
      simp [encNat, List.replicate_succ]
    rw [h, decNat, if_neg (by decide), if_pos rfl, ih]
    rfl

theorem decStr_encStr (s rest : Str) : decStr (encStr s ++ rest) = some (s, rest) := by
  unfold decStr encStr
  rw [List.append_assoc, decNat_encNat]
  simp

theorem decRat_encRat (q : ℚ) (rest : Str) : decRat (encRat q ++ rest) = some (q, rest) := by
  unfold encRat
  rw [List.cons_append, decRat, List.append_assoc, decNat_encNat]
  simp only [Option.some_bind, decNat_encNat, Option.map_some', Option.some.injEq,
    Prod.mk.injEq, and_true]
  by_cases h : q.num < 0
  · have hn' : (q.num.natAbs : ℚ) = -(q.num : ℚ) :=
      calc (q.num.natAbs : ℚ) = ((q.num.natAbs : ℤ) : ℚ) := (Int.cast_natCast _).symm
        _ = ((-q.num : ℤ) : ℚ) := by rw [Int.ofNat_natAbs_of_nonpos h.le]
        _ = -(q.num : ℚ) := Int.cast_neg _
    simp only [h, if_true, hn', neg_neg]
    exact Rat.num_div_den q
  · have hn' : (q.num.natAbs : ℚ) = (q.num : ℚ) :=
      calc (q.num.natAbs : ℚ) = ((q.num.natAbs : ℤ) : ℚ) := (Int.cast_natCast _).symm
        _ = (q.num : ℚ) := by rw [Int.natAbs_of_nonneg (not_lt.mp h)]
    have hc : ('+' = '-') = False := by decide
    simp only [h, if_false, hc, hn']
    exact Rat.num_div_den q

theorem decBlock_encBlock (b : Block) (rest : Str) :
    decBlock (encBlock b ++ rest) = some (b, rest) := by
  unfold decBlock encBlock
  simp only [List.append_assoc, decStr_encStr, decRat_encRat, Option.some_bind, Option.map_some']

theorem decBlocks_encBlocks (bs : List Block) (rest : Str) :
    decBlocks bs.length (encBlocks bs ++ rest) = some (bs, rest) := by
  induction bs with
  | nil => rfl
  | cons b bs ih =>
    simp only [List.length_cons, decBlocks, encBlocks, List.append_assoc, decBlock_encBlock,
      Option.some_bind, ih, Option.map_some']

theorem decWorkout_encWorkout (w : Workout) (rest : Str) :
    decWorkout (encWorkout w ++ rest) = some (w, rest) := by
  unfold decWorkout encWorkout
  simp only [List.append_assoc, decStr_encStr, decNat_encNat, decBlocks_encBlocks,
    Option.some_bind, Option.map_some']

theorem intercalate_cons_cons (sep x y : Str) (xs : List Str) :
    sep.intercalate (x :: y :: xs) = x ++ (sep ++ sep.intercalate (y :: xs)) := by
  simp [List.intercalate]

theorem decWorkouts_records (ws : List Workout) :
    ∀ (w : Workout) (fuel : ℕ),
      (([','] : Str).intercalate ((w :: ws).map encWorkout) ++ [']']).length ≤ fuel →
      decWorkouts fuel (([','] : Str).intercalate ((w :: ws).map encWorkout) ++ [']'])
        = some (w :: ws) := by
  induction ws with
  | nil =>
    intro w fuel hfuel
    have htext : ([','] : Str).intercalate ([w].map encWorkout) ++ [']']
        = encWorkout w ++ [']'] := by
      simp [List.intercalate]
    rw [htext] at hfuel ⊢
    cases fuel with
    | zero => simp at hfuel
    | succ fuel =>
      rw [decWorkouts, decWorkout_encWorkout]
      rfl
  | cons w2 ws ih =>
    intro w fuel hfuel
    have htext : ([','] : Str).intercalate ((w :: w2 :: ws).map encWorkout) ++ [']']
        = encWorkout w ++
          (',' :: (([','] : Str).intercalate ((w2 :: ws).map encWorkout) ++ [']'])) := by
      simp only [List.map_cons, intercalate_cons_cons, List.append_assoc, List.singleton_append,
        List.cons_append, List.nil_append]
    rw [htext] at hfuel ⊢
    cases fuel with
    | zero => simp at hfuel
    | succ fuel =>
      have hlen : (([','] : Str).intercalate ((w2 :: ws).map encWorkout) ++ [']']).length
          ≤ fuel := by
        simp only [List.length_append, List.length_cons] at hfuel ⊢
        omega
      rw [decWorkouts, decWorkout_encWorkout]
      simp only [Option.some_bind]
      rw [if_neg (by decide), if_pos trivial, ih w2 fuel hlen]
      rfl

theorem records_ne_bracket (w : Workout) (rest : Str) : encWorkout w ++ rest ≠ [']'] := by
  intro h
  have h1 := decWorkout_encWorkout w rest
  rw [h] at h1
  have h2 : decWorkout [']'] = none := by decide
  rw [h2] at h1
  cases h1

/-- The length-prefixed codec reads back every collection it writes. -/
theorem lengthPrefixedCodec_roundtrip (ws : List Workout) :
    lengthPrefixedCodec.parse (stringify lengthPrefixedCodec ws) = .ok ws := by
  show parseWorkouts ('[' :: (([','] : Str).intercalate (ws.map encWorkout) ++ [']'])) = .ok ws
  cases ws with
  | nil => rfl
  | cons w ws =>
    have hne : ([','] : Str).intercalate ((w :: ws).map encWorkout) ++ [']'] ≠ [']'] := by
      cases ws with
      | nil =>
        have : ([','] : Str).intercalate ([w].map encWorkout) = encWorkout w := by
          simp [List.intercalate]
        rw [this]; exact records_ne_bracket w _
      | cons w2 ws =>
        simp only [List.map_cons, intercalate_cons_cons, List.append_assoc]
        exact records_ne_bracket w _
    rw [parseWorkouts, if_pos rfl, if_neg hne, decWorkouts_records ws w _ le_rfl]

end Sample

namespace Trainer
open Storage

theorem filter_id_eq_erase (ws : List Workout) (id : Str) (w : Workout) (hw : w ∈ ws)
    (hid : w.id = id) (hnd : (ws.map (fun x => x.id)).Nodup) :
    ws.filter (fun x => x.id ≠ id) = ws.erase w := by
  have hinj := List.inj_on_of_nodup_map hnd
  rw [(List.Nodup.of_map _ hnd).erase_eq_filter]
  apply List.filter_congr
  intro x hx
  have : x.id = id ↔ x = w := by
    constructor
    · intro h; exact hinj hx hw (h.trans hid.symm)
    · intro h; rw [h, hid]
  by_cases hxw : x = w
  · simp [hxw, hid]
  · have hne : x.id ≠ id := fun h => hxw (this.mp h)
    simp [hxw, hne]

/-- Claim C8.  A confirmed `deleteWorkout(id)` on a store holding the workouts `ws` leaves
the store holding `ws` without the records whose id is `id` (the filtered list being one
that `JSON.parse` reads back): the remaining workouts are those of `ws` with another id,
unchanged and in the same relative order; when ids are unique and `w` has the id, exactly
`w` is removed; the other keys of the store are untouched. -/
theorem deleteWorkout_removes (c : JSONCodec Workout) (ls : LocalStorage) (id : Str)
    (ws : List Workout) (hload : getWorkouts c ls = .ok ws)
    (hrt : c.parse (stringify c (ws.filter (fun w => w.id ≠ id))) =
      .ok (ws.filter (fun w => w.id ≠ id))) :
    ∃ ls' : LocalStorage,
      deleteWorkout c true id ls =
        .ok (ls', [Effect.toast "Treino removido.".toList ToastKind.info]) ∧
      getWorkouts c ls' = .ok (ws.filter (fun w => w.id ≠ id)) ∧
      (ws.filter (fun w => w.id ≠ id)).Sublist ws ∧
      (∀ w, w ∈ ws.filter (fun w => w.id ≠ id) ↔ w ∈ ws ∧ w.id ≠ id) ∧
      (∀ w ∈ ws, w.id = id → (ws.map (fun x => x.id)).Nodup →
        ws.filter (fun x => x.id ≠ id) = ws.erase w) ∧
      (∀ key, key ≠ KEYS.workouts → getItem ls' key = getItem ls key) := by
  refine ⟨saveWorkouts c ls (ws.filter (fun w => w.id ≠ id)), ?_, ?_, ?_, ?_, ?_, ?_⟩
  · unfold deleteWorkout
    rw [hload]
    rfl
  · exact load_save_of_roundtrip c ls _ _ hrt
  · exact List.filter_sublist _
  · intro w; simp
  · intro w hw hid hnd
    exact filter_id_eq_erase ws id w hw hid hnd
  · intro key hkey
    exact getItem_setItem_of_ne ls _ hkey

/-- Claim C8 on the sample store: deleting `w1` leaves exactly the workout `w2`. -/
theorem deleteWorkout_removes_witness :
    (getWorkouts Sample.codec Sample.storage = .ok [Sample.workoutA, Sample.workoutB] ∧
      Sample.codec.parse (stringify Sample.codec
        ([Sample.workoutA, Sample.workoutB].filter (fun w => w.id ≠ "w1".toList)))
        = .ok ([Sample.workoutA, Sample.workoutB].filter (fun w => w.id ≠ "w1".toList))) ∧
    ∃ ls' : LocalStorage,
      deleteWorkout Sample.codec true "w1".toList Sample.storage =
        .ok (ls', [Effect.toast "Treino removido.".toList ToastKind.info]) ∧
      getWorkouts Sample.codec ls' = .ok [Sample.workoutB] := by
  refine ⟨⟨rfl, rfl⟩, ?_⟩
  obtain ⟨ls', h1, h2, _⟩ :=
    deleteWorkout_removes Sample.codec Sample.storage "w1".toList
      [Sample.workoutA, Sample.workoutB] rfl rfl
  exact ⟨ls', h1, h2.trans rfl⟩

theorem numberOr_ne_zero (x : Option ℚ) {dflt : ℚ} (hd : dflt ≠ 0) : numberOr x dflt ≠ 0 := by
  unfold numberOr
  cases x with
  | none => exact hd
  | some q =>
    by_cases hq : q = 0
    · simp [hq, hd]
    · simp [hq]

theorem numberOr_some_of_ne (q dflt : ℚ) (hq : q ≠ 0) : numberOr (some q) dflt = q := by
  simp [numberOr, hq]

theorem numberOr_zero_dflt (x : Option ℚ) :
    numberOr x 0 = (match x with | none => 0 | some q => q) := by
  unfold numberOr
  cases x with
  | none => rfl
  | some q =>
    by_cases hq : q = 0
    · simp [hq]
    · simp [hq]

/-- Claim C13, as the code has it.  The block that `addBlock` appends has `qty` equal to
`Number(quantity text)`, replaced by 1 when that is `NaN` or 0, so `qty` is never 0 and
is a positive integer whenever the text denotes one; and `minutes` equal to
`Number(minutes text)`, replaced by 0 when that is `NaN`, so `minutes` is not negative
whenever the text denotes a number that is not negative.  An empty input, for which
`Number` returns 0, gives the defaults 1 and 0. -/
theorem addBlock_block (p : Platform) (form : BlockForm) (m : Moment) (s : State) :
    (addBlock p form m s).pendingBlocks = s.pendingBlocks ++ [newBlock p form m] ∧
    (newBlock p form m).qty ≠ 0 ∧
    (p.toNumber form.qty = none → (newBlock p form m).qty = 1) ∧
    (p.toNumber form.qty = some 0 → (newBlock p form m).qty = 1) ∧
    (∀ q, p.toNumber form.qty = some q → q ≠ 0 → (newBlock p form m).qty = q) ∧
    (p.toNumber form.minutes = none → (newBlock p form m).minutes = 0) ∧
    (∀ q, p.toNumber form.minutes = some q → (newBlock p form m).minutes = q) ∧
    (∀ q, p.toNumber form.qty = some q → 0 < q → q.den = 1 →
      0 < (newBlock p form m).qty ∧ (newBlock p form m).qty.den = 1) ∧
    (∀ q, p.toNumber form.minutes = some q → 0 ≤ q → 0 ≤ (newBlock p form m).minutes) ∧
    (p.toNumber [] = some 0 → form.qty = [] → (newBlock p form m).qty = 1) ∧
    (p.toNumber [] = some 0 → form.minutes = [] → (newBlock p form m).minutes = 0) := by
  have hq : (newBlock p form m).qty = numberOr (p.toNumber form.qty) 1 := rfl
  have hm : (newBlock p form m).minutes = numberOr (p.toNumber form.minutes) 0 := rfl
  refine ⟨rfl, ?_, ?_, ?_, ?_, ?_, ?_, ?_, ?_, ?_, ?_⟩
  · rw [hq]; exact numberOr_ne_zero _ one_ne_zero
  · intro h; rw [hq, h]; rfl
  · intro h; rw [hq, h]; simp [numberOr]
  · intro q h hne; rw [hq, h]; exact numberOr_some_of_ne q 1 hne
  · intro h; rw [hm, h]; rfl
  · intro q h; rw [hm, h, numberOr_zero_dflt]
  · intro q h hpos hden
    rw [hq, h, numberOr_some_of_ne q 1 hpos.ne']
    exact ⟨hpos, hden⟩
  · intro q h hnn; rw [hm, h, numberOr_zero_dflt]; exact hnn
  · intro h0 he; rw [hq, he, h0]; simp [numberOr]
  · intro h0 he; rw [hm, he, h0]; simp [numberOr]

/-- Claim C13 on the sample form: the quantity text `3` denotes a positive integer and the
minutes text `10` a number that is not negative, and so do `qty` and `minutes` of the
block. -/
theorem addBlock_block_witness :
    (Sample.platform.toNumber Sample.blockForm.qty = some 3 ∧
      Sample.platform.toNumber Sample.blockForm.minutes = some 10) ∧
    (0 < (newBlock Sample.platform Sample.blockForm Sample.moment).qty ∧
      (newBlock Sample.platform Sample.blockForm Sample.moment).qty.den = 1) ∧
    0 ≤ (newBlock Sample.platform Sample.blockForm Sample.moment).minutes := by
  have hq : Sample.platform.toNumber Sample.blockForm.qty = some 3 := by
    have h : Sample.readDecimal "3".toList = some (false, 3, 0) := by decide
    show Sample.decimalToNumber "3".toList = some 3
    simp only [Sample.decimalToNumber, h, Option.map_some']
    norm_num
  have hm : Sample.platform.toNumber Sample.blockForm.minutes = some 10 := by
    have h : Sample.readDecimal "10".toList = some (false, 10, 0) := by decide
    show Sample.decimalToNumber "10".toList = some 10
    simp only [Sample.decimalToNumber, h, Option.map_some']
    norm_num
  have hall := addBlock_block Sample.platform Sample.blockForm Sample.moment initialState
  exact ⟨⟨hq, hm⟩, hall.2.2.2.2.2.2.2.1 3 hq (by norm_num) rfl,
    hall.2.2.2.2.2.2.2.2.1 10 hm (by norm_num)⟩

/-- Claim C13 fails as written.  With the quantity text `2.5` the appended block has `qty`
2.5, which is not an integer; with the quantity text `-3` it has `qty` -3, which is not
positive; with the minutes text `-5` it has `minutes` -5, which is negative. -/
theorem addBlock_qty_minutes_unchecked :
    (addBlock Sample.platform Sample.oddBlockForm Sample.moment initialState).pendingBlocks
      = [newBlock Sample.platform Sample.oddBlockForm Sample.moment] ∧
    (newBlock Sample.platform Sample.oddBlockForm Sample.moment).qty = 5 / 2 ∧
    ¬ (newBlock Sample.platform Sample.oddBlockForm Sample.moment).qty.den = 1 ∧
    (newBlock Sample.platform Sample.oddBlockForm Sample.moment).minutes = -5 ∧
    ¬ 0 ≤ (newBlock Sample.platform Sample.oddBlockForm Sample.moment).minutes ∧
    (newBlock Sample.platform Sample.negativeBlockForm Sample.moment).qty = -3 ∧
    ¬ 0 < (newBlock Sample.platform Sample.negativeBlockForm Sample.moment).qty := by
  have hq : Sample.decimalToNumber "2.5".toList = some (5 / 2) := by
    have h : Sample.readDecimal "2.5".toList = some (false, 25, 1) := by decide
    simp only [Sample.decimalToNumber, h, Option.map_some']
    norm_num
  have hm : Sample.decimalToNumber "-5".toList = some (-5) := by
    have h : Sample.readDecimal "-5".toList = some (true, 5, 0) := by decide
    simp only [Sample.decimalToNumber, h, Option.map_some']
    norm_num
  have hn : Sample.decimalToNumber "-3".toList = some (-3) := by
    have h : Sample.readDecimal "-3".toList = some (true, 3, 0) := by decide
    simp only [Sample.decimalToNumber, h, Option.map_some']
    norm_num
  have h1 : (newBlock Sample.platform Sample.oddBlockForm Sample.moment).qty = 5 / 2 := by
    show numberOr (Sample.decimalToNumber "2.5".toList) 1 = 5 / 2
    rw [hq]; norm_num [numberOr]
  have h2 : (newBlock Sample.platform Sample.oddBlockForm Sample.moment).minutes = -5 := by
    show numberOr (Sample.decimalToNumber "-5".toList) 0 = -5
    rw [hm]; norm_num [numberOr]
  have h3 : (newBlock Sample.platform Sample.negativeBlockForm Sample.moment).qty = -3 := by
    show numberOr (Sample.decimalToNumber "-3".toList) 1 = -3
    rw [hn]; norm_num [numberOr]
  refine ⟨rfl, h1, ?_, h2, ?_, h3, ?_⟩
  · rw [h1]
    have : ((5 : ℚ) / 2).den = 2 := by norm_num
    omega
  · rw [h2]; norm_num
  · rw [h3]; norm_num

theorem getWorkouts_saveWorkouts (c : JSONCodec Workout)
    (hlaw : ∀ ws, c.parse (stringify c ws) = .ok ws) (ls : LocalStorage) (ws : List Workout) :
    getWorkouts c (saveWorkouts c ls ws) = .ok ws :=
  load_save_of_roundtrip c ls _ ws (hlaw ws)

theorem getWorkouts_emptyStorage (c : JSONCodec Workout)
    (hlaw : ∀ ws, c.parse (stringify c ws) = .ok ws) :
    getWorkouts c emptyStorage = .ok [] := by
  have h := hlaw []
  have hs : stringify c ([] : List Workout) = getItemOrEmptyArray emptyStorage KEYS.workouts := rfl
  unfold getWorkouts
  rw [load_eq, ← hs, h]

theorem saveWorkout_rejected (c : JSONCodec Workout) (p : Platform) (form : WorkoutForm)
    (m : Moment) (s : State)
    (h : form.date = [] ∨ trim form.athlete = [] ∨ trim form.goal = [] ∨ s.pendingBlocks = []) :
    ∃ msg, saveWorkout c p form m s = .ok (s, [Effect.toast msg ToastKind.error]) := by
  unfold saveWorkout
  by_cases h1 : form.date = [] ∨ trim form.athlete = [] ∨ trim form.goal = []
  · exact ⟨"Preencha data, aluno e objetivo!".toList, by simp only [if_pos h1]; rfl⟩
  · have h2 : s.pendingBlocks = [] := by
      rcases h with h | h | h | h
      · exact absurd (Or.inl h) h1
      · exact absurd (Or.inr (Or.inl h)) h1
      · exact absurd (Or.inr (Or.inr h)) h1
      · exact h
    refine ⟨"Adicione ao menos um bloco!".toList, ?_⟩
    simp only [if_neg h1, h2, List.length_nil, if_true]
    rfl

theorem saveWorkout_accepted (c : JSONCodec Workout) (p : Platform) (form : WorkoutForm)
    (m : Moment) (s : State) (ws : List Workout) (hload : getWorkouts c s.storage = .ok ws)
    (h1 : ¬ (form.date = [] ∨ trim form.athlete = [] ∨ trim form.goal = []))
    (h2 : s.pendingBlocks ≠ []) :
    saveWorkout c p form m s = .ok
      ({ storage := saveWorkouts c s.storage (ws ++
          [{ id := UI.uid p.fracDigits36 m.now m.random, createdAt := m.isoTime,
             date := form.date, athlete := trim form.athlete, goal := trim form.goal,
             blocks := s.pendingBlocks }]),
         pendingBlocks := [] },
       [Effect.toast "Treino salvo com sucesso!".toList ToastKind.success]) := by
  unfold saveWorkout
  have h3 : ¬ s.pendingBlocks.length = 0 := fun h => h2 (List.length_eq_zero.mp h)
  simp only [if_neg h1, if_neg h3, hload]
  rfl

theorem step_preserves (c : JSONCodec Workout) (p : Platform)
    (hlaw : ∀ ws, c.parse (stringify c ws) = .ok ws) (s : State) (hs : StoredWellFormed c s) (a : Step) :
    ∃ s', step c p s a = .ok s' ∧ StoredWellFormed c s' := by
  obtain ⟨ws, hws, hwf⟩ := hs
  cases a with
  | addBlock form m => exact ⟨_, rfl, ws, hws, hwf⟩
  | removeBlock index => exact ⟨_, rfl, ws, hws, hwf⟩
  | saveWorkout form m =>
    by_cases h1 : form.date = [] ∨ trim form.athlete = [] ∨ trim form.goal = []
    · obtain ⟨msg, hmsg⟩ := saveWorkout_rejected c p form m s
        (by rcases h1 with h | h | h
            · exact Or.inl h
            · exact Or.inr (Or.inl h)
            · exact Or.inr (Or.inr (Or.inl h)))
      refine ⟨s, ?_, ws, hws, hwf⟩
      simp only [step, hmsg]; rfl
    · by_cases h2 : s.pendingBlocks = []
      · obtain ⟨msg, hmsg⟩ := saveWorkout_rejected c p form m s (Or.inr (Or.inr (Or.inr h2)))
        refine ⟨s, ?_, ws, hws, hwf⟩
        simp only [step, hmsg]; rfl
      · have hacc := saveWorkout_accepted c p form m s ws hws h1 h2
        refine ⟨_, by simp only [step, hacc]; rfl, _, getWorkouts_saveWorkouts c hlaw _ _, ?_⟩
        intro w hw
        rcases List.mem_append.mp hw with hw | hw
        · exact hwf w hw
        · simp only [List.mem_singleton] at hw
          subst hw
          simp only [not_or] at h1
          exact ⟨h1.1, h1.2.1, h1.2.2, h2⟩
  | deleteWorkout confirmed id =>
    cases confirmed with
    | false => exact ⟨s, rfl, ws, hws, hwf⟩
    | true =>
      refine ⟨{ s with storage := saveWorkouts c s.storage (ws.filter (fun w => w.id ≠ id)) },
        ?_, _, getWorkouts_saveWorkouts c hlaw _ _, ?_⟩
      · simp only [step, deleteWorkout, hws]; rfl
      · intro w hw
        exact hwf w (List.mem_of_mem_filter hw)

theorem run_preserves (c : JSONCodec Workout) (p : Platform)
    (hlaw : ∀ ws, c.parse (stringify c ws) = .ok ws) (steps : List Step) :
    ∀ s : State, StoredWellFormed c s → ∃ s', run c p steps s = .ok s' ∧ StoredWellFormed c s' := by
  induction steps with
  | nil => intro s hs; exact ⟨s, rfl, hs⟩
  | cons a rest ih =>
    intro s hs
    obtain ⟨s1, h1, hinv1⟩ := step_preserves c p hlaw s hs a
    obtain ⟨s2, h2, hinv2⟩ := ih s1 hinv1
    refine ⟨s2, ?_, hinv2⟩
    simp only [run, h1]
    exact h2

/-- Claim C12.  With a platform whose `JSON.parse` reads back what `JSON.stringify` writes:
from an empty store, every sequence of `addBlock`, pending-block removal, `saveWorkout` and
`deleteWorkout` steps runs without exception and leaves a store in which every workout has
a date, an athlete and a goal that are not empty and at least one block; and in any state a
`saveWorkout` whose date is empty, whose athlete or goal is blank, or whose pending block
list is empty, shows an `error` notification and leaves the state, stored workouts
included, unchanged. -/
theorem stored_workouts_wellFormed (c : JSONCodec Workout) (p : Platform)
    (hlaw : ∀ ws, c.parse (stringify c ws) = .ok ws) :
    (∀ steps : List Step, ∃ (s : State) (ws : List Workout),
      run c p steps initialState = .ok s ∧ getWorkouts c s.storage = .ok ws ∧
      ∀ w ∈ ws, WellFormed w) ∧
    (∀ (s : State) (form : WorkoutForm) (m : Moment),
      (form.date = [] ∨ trim form.athlete = [] ∨ trim form.goal = [] ∨ s.pendingBlocks = []) →
      ∃ msg, saveWorkout c p form m s = .ok (s, [Effect.toast msg ToastKind.error])) := by
  refine ⟨fun steps => ?_, fun s form m h => saveWorkout_rejected c p form m s h⟩
  obtain ⟨s, hs, ws, hws, hwf⟩ :=
    run_preserves c p hlaw steps initialState ⟨[], getWorkouts_emptyStorage c hlaw, by simp⟩
  exact ⟨s, ws, hs, hws, hwf⟩

/-- Claim C12 on the length-prefixed codec and the sample session. -/
theorem stored_workouts_wellFormed_witness :
    (∀ ws, Sample.lengthPrefixedCodec.parse (stringify Sample.lengthPrefixedCodec ws)
      = .ok ws) ∧
    ∃ (s : State) (ws : List Workout),
      run Sample.lengthPrefixedCodec Sample.platform Sample.session initialState = .ok s ∧
      getWorkouts Sample.lengthPrefixedCodec s.storage = .ok ws ∧
      ∀ w ∈ ws, WellFormed w :=
  ⟨Sample.lengthPrefixedCodec_roundtrip,
   (stored_workouts_wellFormed Sample.lengthPrefixedCodec Sample.platform
      Sample.lengthPrefixedCodec_roundtrip).1 Sample.session⟩

end Trainer

end GripMetrics
